import Mathlib

/-!
# Alkane isomer enumeration (`alkane_isomers.cc`)

A shallow embedding of the generation and examination function groups of
`alkane_isomers.cc`, followed by theorems about them.

## Conventions of the embedding

* A `vector<int>` that was allocated filled with one constant is represented by
  the list of its written prefix; `getA` reads past the end of the list return
  the fill constant and `setA` pads with it.  Allocation sizes (`arrayCount`,
  `maxIsomers`, `CarbonAmount+2`) therefore do not occur in the store itself,
  and an index beyond the allocated size, which C++ leaves undefined, is an
  ordinary cell here.  The sizes of the vectors of slots and of rows are added
  by `generate_step_alloc`, `generate_Isomers_alloc` and `main_loop_alloc`,
  which return `none` when a slot or a row outside its vector is accessed.
* `isomers[a][b][c]` is `get3 isomers a b c` (fill value `-1`),
  `morgans[a][b]` is `getM morgans a b` (fill value `0`) and
  `connections[a][b]` is `getC connections a b` (fill value `0`; the table only
  ever holds counters and loop indices, so its cells are natural numbers).
* `int` values are unbounded integers.
* A counted `for` loop is `forLoop body first count`; a loop with a data
  dependent exit is a recursive function on the number of iterations that
  remain possible.
-/

set_option autoImplicit false

namespace AlkaneIsomers

/-! ## Vectors -/

/-- Read cell `i` of a vector whose unwritten cells hold `dflt`. -/
def getA {α : Type} (dflt : α) : List α → Nat → α
  | [], _ => dflt
  | a :: _, 0 => a
  | _ :: l, i + 1 => getA dflt l i

/-- Write cell `i` of a vector whose unwritten cells hold `dflt`. -/
def setA {α : Type} (dflt : α) : List α → Nat → α → List α
  | [], 0, x => [x]
  | [], i + 1, x => dflt :: setA dflt [] i x
  | _ :: l, 0, x => x :: l
  | a :: l, i + 1, x => a :: setA dflt l i x

/-- The three-dimensional store `isomers` of `main`. -/
abbrev Store := List (List (List Int))

/-- The table `morgans` of one carbon count. -/
abbrev Morgans := List (List Int)

/-- The table `connections` of one candidate. -/
abbrev Connections := List (List Nat)

/-- The cell `isomers[a][b][c]`. -/
def get3 (isomers : Store) (a b c : Nat) : Int :=
  getA (-1) (getA [] (getA [] isomers a) b) c

/-- The assignment `isomers[a][b][c] = x`. -/
def set3 (isomers : Store) (a b c : Nat) (x : Int) : Store :=
  setA [] isomers a
    (setA [] (getA [] isomers a) b (setA (-1) (getA [] (getA [] isomers a) b) c x))

/-- The cell `morgans[a][b]`. -/
def getM (morgans : Morgans) (a b : Nat) : Int :=
  getA 0 (getA [] morgans a) b

/-- The assignment `morgans[a][b] = x`. -/
def setM (morgans : Morgans) (a b : Nat) (x : Int) : Morgans :=
  setA [] morgans a (setA 0 (getA [] morgans a) b x)

/-- The cell `connections[a][b]`. -/
def getC (connections : Connections) (a b : Nat) : Nat :=
  getA 0 (getA [] connections a) b

/-- The assignment `connections[a][b] = x`. -/
def setC (connections : Connections) (a b : Nat) (x : Nat) : Connections :=
  setA [] connections a (setA 0 (getA [] connections a) b x)

/-- The loop `for (i = first; i < first + count; i++) s = body i s`. -/
def forLoop {σ : Type} (body : Nat → σ → σ) : Nat → Nat → σ → σ
  | _, 0, s => s
  | i, n + 1, s => forLoop body (i + 1) n (body i s)

/-! ## Global constants -/

/-- The constant `firstCarbon`. -/
def firstCarbon : Nat := 1

/-- The constant `lastCarbon`. -/
def lastCarbon : Nat := 20

/-- The constant `maxIsomers`. -/
def maxIsomers : Nat := 500000

/-! ## Examination function group -/

/-- The variables of the inner loop of `morgans_splicing`. -/
structure SpliceState where
  /-- the table `connections` -/
  connections : Connections
  /-- the local `connections_n` -/
  connections_n : Int
  /-- the local `foreign_connections_n` -/
  foreign_connections_n : Int

/-- The statements that record a bond between `main_digit` and `digit` in both
rows of `connections`. -/
def record_bond (connections : Connections) (main_digit digit : Nat) : Connections :=
  let c1 := setC connections main_digit 0 (getC connections main_digit 0 + 1)
  let c2 := setC c1 main_digit (getC c1 main_digit 0) digit
  let c3 := setC c2 digit 0 (getC c2 digit 0 + 1)
  setC c3 digit (getC c3 digit 0) main_digit

/-- One pass through the body of the inner loop of `morgans_splicing`. -/
def splice_step (isomers : Store) (isomer CarbonAmount main_digit digit : Nat)
    (s : SpliceState) : SpliceState :=
  if s.foreign_connections_n = 0 then
    { connections := record_bond s.connections main_digit digit
      connections_n := s.connections_n - 1
      foreign_connections_n :=
        s.foreign_connections_n + get3 isomers CarbonAmount isomer digit }
  else
    { connections := s.connections
      connections_n := s.connections_n
      foreign_connections_n :=
        s.foreign_connections_n + get3 isomers CarbonAmount isomer digit - 1 }

/-- The inner loop of `morgans_splicing`,
`for (digit = ..; digit <= CarbonAmount && connections_n > 0; digit++)`,
with `n` the number of values of `digit` up to `CarbonAmount` still to come. -/
def splice_scan (isomers : Store) (isomer CarbonAmount main_digit : Nat) :
    Nat → Nat → SpliceState → SpliceState
  | 0, _, s => s
  | n + 1, digit, s =>
    if 0 < s.connections_n then
      splice_scan isomers isomer CarbonAmount main_digit n (digit + 1)
        (splice_step isomers isomer CarbonAmount main_digit digit s)
    else s

/-- The part of the body of the outer loop of `morgans_splicing` that follows
the seed assignment: the first forward bond and the inner loop. -/
def splice_digit (isomers : Store) (isomer CarbonAmount main_digit : Nat)
    (connections : Connections) : Connections :=
  let s0 : SpliceState :=
    { connections := connections
      connections_n := get3 isomers CarbonAmount isomer main_digit
      foreign_connections_n := 0 }
  let s1 : SpliceState :=
    if ¬ (s0.connections_n = 0) then
      { connections := record_bond s0.connections main_digit (main_digit + 1)
        connections_n := s0.connections_n - 1
        foreign_connections_n :=
          s0.foreign_connections_n + get3 isomers CarbonAmount isomer (main_digit + 1) }
    else s0
  (splice_scan isomers isomer CarbonAmount main_digit
    (CarbonAmount - (main_digit + 1)) (main_digit + 2) s1).connections

/-- The seed assignment `morgans[isomer][main_digit] = ...` of `morgans_splicing`. -/
def splice_seed (isomers : Store) (isomer CarbonAmount main_digit : Nat)
    (morgans : Morgans) : Morgans :=
  if main_digit = 1 then
    setM morgans isomer main_digit (get3 isomers CarbonAmount isomer main_digit)
  else
    setM morgans isomer main_digit (get3 isomers CarbonAmount isomer main_digit + 1)

/-- The function `morgans_splicing`; it returns the two tables it was passed
by reference. -/
def morgans_splicing (isomers : Store) (isomer CarbonAmount : Nat)
    (morgans : Morgans) (connections : Connections) : Morgans × Connections :=
  forLoop
    (fun main_digit mc =>
      (splice_seed isomers isomer CarbonAmount main_digit mc.1,
       splice_digit isomers isomer CarbonAmount main_digit mc.2))
    1 CarbonAmount (morgans, connections)

/-- The loop of `morgans_algorithm` that copies `morgans[isomer][1..CarbonAmount]`
into `temp`. -/
def morgans_copy (isomer CarbonAmount : Nat) (morgans : Morgans) (temp : List Int) :
    List Int :=
  forLoop (fun digit t => setA 0 t digit (getM morgans isomer digit)) 1 CarbonAmount temp

/-- The body of the loop over `digit` in `morgans_algorithm`: reset the value,
then add the previous values of all connected atoms. -/
def morgans_sum (isomer digit : Nat) (connections : Connections) (temp : List Int)
    (morgans : Morgans) : Morgans :=
  let connections_n := getC connections digit 0
  forLoop
    (fun current_connection m =>
      setM m isomer digit
        (getM m isomer digit + getA 0 temp (getC connections digit current_connection)))
    1 connections_n (setM morgans isomer digit 0)

/-- One pass through the `while` loop of `morgans_algorithm`. -/
def morgans_round (isomer CarbonAmount : Nat) (connections : Connections)
    (mt : Morgans × List Int) : Morgans × List Int :=
  let temp := morgans_copy isomer CarbonAmount mt.1 mt.2
  (forLoop (fun digit m => morgans_sum isomer digit connections temp m) 1 CarbonAmount mt.1,
   temp)

/-- The function `morgans_algorithm`: the loop `while (iteration <= CarbonAmount/3)`
with `iteration` counting up from 0.  The array `temp` is not initialised by
the source; its cells start as 0 here. -/
def morgans_algorithm (isomer CarbonAmount : Nat) (morgans : Morgans)
    (connections : Connections) : Morgans :=
  (forLoop (fun _ mt => morgans_round isomer CarbonAmount connections mt)
    0 (CarbonAmount / 3 + 1) (morgans, [])).1

/-- The `while` loop of `morgans_sort`; it returns the table and the final
value of `compare`.  The loop leaves at `compare = 1` at the latest, where the
sentinel is compared with itself, so the case `compare = 0` is never entered. -/
def sort_shift (isomer : Nat) : Nat → Morgans → Morgans × Nat
  | 0, m => (m, 0)
  | k + 1, m =>
    if getM m isomer 0 > getM m isomer k then
      sort_shift isomer k (setM m isomer (k + 1) (getM m isomer k))
    else (m, k + 1)

/-- The body of the `for` loop of `morgans_sort`. -/
def sort_insert (isomer main : Nat) (morgans : Morgans) : Morgans :=
  let m1 := setM morgans isomer 0 (getM morgans isomer main)
  let r := sort_shift isomer main m1
  setM r.1 isomer r.2 (getM r.1 isomer 0)

/-- The function `morgans_sort`. -/
def morgans_sort (isomer CarbonAmount : Nat) (morgans : Morgans) : Morgans :=
  forLoop (fun main m => sort_insert isomer main m) 2 (CarbonAmount - 1) morgans

/-- The inner `while` loop of `check_morgan_uniqueness`; it returns the final
value of `current_digit`.  `n` is the number of increments still possible. -/
def digit_scan (isomer current_isomer CarbonAmount : Nat) (morgans : Morgans) :
    Nat → Nat → Nat
  | 0, current_digit => current_digit
  | n + 1, current_digit =>
    if current_digit ≤ CarbonAmount ∧
        getM morgans isomer current_digit = getM morgans current_isomer current_digit then
      digit_scan isomer current_isomer CarbonAmount morgans n (current_digit + 1)
    else current_digit

/-- The loop `while (!twin_found)` of `check_morgan_uniqueness`, run for at most
`fuel` passes; it returns the final `twin_found` and `current_isomer`. -/
def twin_scan (isomer CarbonAmount : Nat) (morgans : Morgans) :
    Nat → Int → Nat → Int × Nat
  | 0, twin_found, current_isomer => (twin_found, current_isomer)
  | fuel + 1, twin_found, current_isomer =>
    if twin_found = 0 then
      let current_digit :=
        digit_scan isomer (current_isomer + 1) CarbonAmount morgans CarbonAmount 1
      twin_scan isomer CarbonAmount morgans fuel
        (if current_digit > CarbonAmount then 1 else twin_found) (current_isomer + 1)
    else (twin_found, current_isomer)

/-- The function `check_morgan_uniqueness`.  The scan is given `isomer` passes;
`twin_scan_found` shows that it has left its loop by then. -/
def check_morgan_uniqueness (isomer CarbonAmount : Nat) (morgans : Morgans) : Int :=
  let r := twin_scan isomer CarbonAmount morgans isomer 0 0
  if r.2 = isomer then 1 else 0

/-- The function `check_Isomers`; it returns its result and the table `morgans`
it was passed by reference. -/
def check_Isomers (isomers : Store) (isomer CarbonAmount : Nat) (morgans : Morgans) :
    Int × Morgans :=
  let connections : Connections := []
  let mc := morgans_splicing isomers isomer CarbonAmount morgans connections
  let m2 := morgans_algorithm isomer CarbonAmount mc.1 mc.2
  let m3 := morgans_sort isomer CarbonAmount m2
  (check_morgan_uniqueness isomer CarbonAmount m3, m3)

/-! ## Generation function group -/

/-- The function `Isomer_digit_validity_check`. -/
def Isomer_digit_validity_check (isomers : Store) (previousC C I : Nat)
    (_CarbonAmount : Nat) : Int :=
  let is_root_less_4 : Bool := decide (C = 1) && decide (get3 isomers previousC I 1 < 4)
  let not_root_less_3_less_root : Bool :=
    !(decide (C = 1)) && decide (get3 isomers previousC I C < 3) &&
      decide (get3 isomers previousC I C + 1 < get3 isomers previousC I 1)
  if is_root_less_4 || not_root_less_3_less_root then 1 else 0

/-- The variables of `generate_Isomers` that its loops change. -/
structure GenState where
  /-- the store `isomers` -/
  isomers : Store
  /-- the table `morgans` -/
  morgans : Morgans
  /-- the local `isomer` -/
  isomer : Nat

/-- The statements of `generate_Isomers` that write the candidate obtained from
isomer `I` of the previous alkane at digit `C` into slot `isomer`. -/
def write_candidate (isomers : Store) (CarbonAmount previousC I C isomer : Nat) : Store :=
  let i1 := forLoop
    (fun transfer st => set3 st CarbonAmount isomer transfer (get3 st previousC I transfer))
    1 (C - 1) isomers
  let i2 := set3 i1 CarbonAmount isomer C (get3 i1 previousC I C + 1)
  let i3 := set3 i2 CarbonAmount isomer (C + 1) 0
  forLoop
    (fun transfer st =>
      set3 st CarbonAmount isomer (transfer + 1) (get3 st previousC I transfer))
    (C + 1) (CarbonAmount - C) i3

/-- The body of the loop over `C` in `generate_Isomers`. -/
def generate_step (CarbonAmount previousC I C : Nat) (s : GenState) : GenState :=
  if Isomer_digit_validity_check s.isomers previousC C I CarbonAmount ≠ 0 then
    let i4 := write_candidate s.isomers CarbonAmount previousC I C s.isomer
    let r := check_Isomers i4 s.isomer CarbonAmount s.morgans
    if r.1 ≠ 0 then
      { isomers := set3 i4 CarbonAmount 0 0 (get3 i4 CarbonAmount 0 0 + 1)
        morgans := r.2
        isomer := s.isomer + 1 }
    else
      { isomers := i4, morgans := r.2, isomer := s.isomer }
  else s

/-- The function `generate_Isomers`, returned as the final values of `isomers`,
`morgans` and `isomer`.  The parameter `maxIsomers` is not used by the source. -/
def generate_Isomers (isomers : Store) (CarbonAmount : Nat) (_maxIsomers : Nat)
    (morgans : Morgans) : GenState :=
  let previousC := CarbonAmount - 1
  let previousIsomers := get3 isomers previousC 0 0
  let s0 : GenState :=
    { isomers := set3 isomers CarbonAmount 0 0 0, morgans := morgans, isomer := 1 }
  forLoop
    (fun I s => forLoop (fun C s => generate_step CarbonAmount previousC I C s) 1 previousC s)
    1 previousIsomers.toNat s0

/-! ## Generation on vectors of a given size -/

/-- The state change of `print_Isomers`: when output files are generated, the
flag `isomers[1][1][0]` is set after the file of methane was written. -/
def print_Isomers (isomers : Store) (_CarbonAmount : Nat) ( generate_files : Bool) : Store :=
  if get3 isomers 1 1 0 = 0 ∧ generate_files = true then set3 isomers 1 1 0 1 else isomers

/-- The methane declaration of `main`. -/
def methane : Store :=
  set3 (set3 (set3 [] 1 1 1 0) 1 1 0 0) 1 0 0 1

/-- The main alkane loop of `main` for `CarbonAmount` from 2 to `last`; every
pass starts from a table `morgans` filled with 0. -/
def main_loop ( generate_files : Bool) (last : Nat) : Store :=
  forLoop
    (fun CarbonAmount isomers =>
      let g := generate_Isomers isomers CarbonAmount maxIsomers []
      print_Isomers g.isomers CarbonAmount generate_files)
    2 (last - 1) methane

/-- The digits `isomers[k][i][1..k]` of slot `i` of carbon count `k`. -/
def code_digits (isomers : Store) (k i : Nat) : List Int :=
  (List.range' 1 k).map (get3 isomers k i)

/-- The values `morgans[isomer][1..CarbonAmount]`. -/
def row_values (morgans : Morgans) (isomer CarbonAmount : Nat) : List Int :=
  (List.range' 1 CarbonAmount).map (getM morgans isomer)

/-- The accepted codes of carbon count `k`: slots 1 to `isomers[k][0][0]`. -/
def accepted_codes (isomers : Store) (k : Nat) : List (List Int) :=
  (List.range' 1 (get3 isomers k 0 0).toNat).map (code_digits isomers k)

/-- The digit at position `j` (counted from 1) of a code given as the list of
its digits. -/
def digit (d : List Int) (j : Nat) : Int := getA (-1) ((-1) :: d) j

/-- A store that holds the code `d` in slot 1 of carbon count `CarbonAmount`. -/
def storeOf (CarbonAmount : Nat) (d : List Int) : Store :=
  setA [] [] CarbonAmount [[], (-1) :: d]

/-- The connectivity table that `morgans_splicing` extracts from the code `d`. -/
def connOf (CarbonAmount : Nat) (d : List Int) : Connections :=
  (morgans_splicing (storeOf CarbonAmount d) 1 CarbonAmount [] []).2

/-- The neighbour entries `connections[p][1..connections[p][0]]` of atom `p`. -/
def neighbours (connections : Connections) (p : Nat) : List Nat :=
  (List.range' 1 (getC connections p 0)).map (getC connections p)

/-- The seed values of a code: the digit for the root, the digit plus 1 for
every other atom. -/
def seed_values : List Int → List Int
  | [] => []
  | r :: t => r :: t.map (· + 1)

/-- The value of `temp[q]` when `temp[1..]` holds the list `v`. -/
def temp_value (v : List Int) (q : Nat) : Int := getA 0 (0 :: v) q

/-- One synchronous round: every atom gets the sum of the previous values of
its neighbour entries. -/
def morgan_round (connections : Connections) (CarbonAmount : Nat) (v : List Int) : List Int :=
  (List.range' 1 CarbonAmount).map
    (fun p => ((neighbours connections p).map (temp_value v)).sum)

/-- The round `morgan_round` iterated `n` times. -/
def morgan_rounds (connections : Connections) (CarbonAmount : Nat) : Nat → List Int → List Int
  | 0, v => v
  | n + 1, v => morgan_rounds connections CarbonAmount n (morgan_round connections CarbonAmount v)

/-- Insertion of `x` into a list given last element first: `x` moves past every
element that is smaller than `x`. -/
def insert_rev (x : Int) : List Int → List Int
  | [] => [x]
  | a :: l => if x > a then a :: insert_rev x l else x :: a :: l

/-- Insertion sort with the sorted part kept last element first. -/
def sort_rev : List Int → List Int → List Int
  | acc, [] => acc
  | acc, x :: l => sort_rev (insert_rev x acc) l

/-- The list `v` after the insertion sort of `morgans_sort`. -/
def sort_desc (v : List Int) : List Int := (sort_rev [] v).reverse

/-- The cells `morgans[isomer][c], ..., morgans[isomer][1]`, highest position
first. -/
def cells_down (morgans : Morgans) (isomer : Nat) : Nat → List Int
  | 0 => []
  | c + 1 => getM morgans isomer (c + 1) :: cells_down morgans isomer c

/-- The canonical signature of the code `d`. -/
def signature (CarbonAmount : Nat) (d : List Int) : List Int :=
  sort_desc
    (morgan_rounds (connOf CarbonAmount d) CarbonAmount (CarbonAmount / 3 + 1) (seed_values d))

/-- The admissibility test of `Isomer_digit_validity_check` on a code. -/
def admissible (d : List Int) (C : Nat) : Bool :=
  (decide (C = 1) && decide (digit d 1 < 4)) ||
    (!(decide (C = 1)) && decide (digit d C < 3) && decide (digit d C + 1 < digit d 1))

/-- The code `d` extended at position `C`: digit `C` is incremented and a 0 is
inserted after it. -/
def extend (d : List Int) (C : Nat) : List Int :=
  d.take (C - 1) ++ (digit d C + 1) :: 0 :: d.drop C

/-- The candidates of carbon count `CarbonAmount` in the order of generation:
parents in stored order, positions ascending, admissible positions only. -/
def candidates (CarbonAmount : Nat) (parents : List (List Int)) : List (List Int) :=
  parents.flatMap
    (fun d => ((List.range' 1 (CarbonAmount - 1)).filter (admissible d)).map (extend d))

/-- The accepted codes and their signatures, in order of acceptance. -/
structure PState where
  /-- accepted codes -/
  codes : List (List Int)
  /-- signatures of the accepted codes -/
  sigs : List (List Int)

/-- The candidate `c` is appended unless its signature was accepted before. -/
def accept (CarbonAmount : Nat) (s : PState) (c : List Int) : PState :=
  if signature CarbonAmount c ∈ s.sigs then s
  else { codes := s.codes ++ [c], sigs := s.sigs ++ [signature CarbonAmount c] }

/-- The generation of one carbon count from the list of parent codes. -/
def generate (CarbonAmount : Nat) (parents : List (List Int)) : PState :=
  (candidates CarbonAmount parents).foldl (accept CarbonAmount) { codes := [], sigs := [] }

/-- The sequence `l` without every element whose image under `f` equals the
image of an earlier element of the sequence; `seen` lists the images of the
elements before `l`. -/
def first_of_each {α β : Type} [DecidableEq β] (f : α → β) : List β → List α → List α
  | _, [] => []
  | seen, x :: l =>
    if f x ∈ seen then first_of_each f (f x :: seen) l
    else x :: first_of_each f (f x :: seen) l

/-- The body of the loop over `C` in `generate_Isomers` on lists: the position
`C` of the parent `d` yields a candidate when it is admissible. -/
def generate_step_spec (CarbonAmount : Nat) (d : List Int) (C : Nat) (s : PState) : PState :=
  if admissible d C = true then accept CarbonAmount s (extend d C) else s

/-- The accepted codes of carbon count `n + 1` when generation starts from
methane. -/
def level : Nat → List (List Int)
  | 0 => [[0]]
  | n + 1 => (generate (n + 2) (level n)).codes

/-- The state of `generate_Isomers` for carbon count `CarbonAmount`, started on
the store `st0`, represents the accepted codes and signatures `p`. -/
def Represents (st0 : Store) (CarbonAmount : Nat) (s : GenState) (p : PState) : Prop :=
  s.isomer = p.codes.length + 1 ∧
  get3 s.isomers CarbonAmount 0 0 = (p.codes.length : Int) ∧
  (List.range' 1 p.codes.length).map (code_digits s.isomers CarbonAmount) = p.codes ∧
  (List.range' 1 p.codes.length).map (fun j => row_values s.morgans j CarbonAmount) = p.sigs ∧
  ∀ a b c, a ≠ CarbonAmount → get3 s.isomers a b c = get3 st0 a b c

/-- The degree invariants of a code: the root digit lies in 0..4, every other
digit lies in 0..3 and, incremented by 1, does not exceed the root digit. -/
def code_ok (d : List Int) : Prop :=
  0 ≤ digit d 1 ∧ digit d 1 ≤ 4 ∧
    ∀ j, 2 ≤ j → j ≤ d.length → 0 ≤ digit d j ∧ digit d j ≤ 3 ∧ digit d j + 1 ≤ digit d 1

/-- The state with which the loops of `generate_Isomers` start. -/
def generate_start (isomers : Store) (CarbonAmount : Nat) (morgans : Morgans) : GenState :=
  { isomers := set3 isomers CarbonAmount 0 0 0, morgans := morgans, isomer := 1 }

/-- The state of `generate_Isomers` after `I` complete passes of the loop over
the isomers of the previous alkane followed by `C` passes of the loop over the
digits of isomer `I + 1`. -/
def generate_after (isomers : Store) (CarbonAmount : Nat) (morgans : Morgans) (I C : Nat) :
    GenState :=
  forLoop (fun C s => generate_step CarbonAmount (CarbonAmount - 1) (I + 1) C s) 1 C
    (forLoop
      (fun I s =>
        forLoop (fun C s => generate_step CarbonAmount (CarbonAmount - 1) I C s)
          1 (CarbonAmount - 1) s)
      1 I (generate_start isomers CarbonAmount morgans))

/-- The control flow of the inner loop of `morgans_splicing` on the list of the
digits from position `digit` on: the positions at which a bond is recorded.
`c` is `connections_n` and `f` is `foreign_connections_n`. -/
def scan_children : Int → Int → Nat → List Int → List Nat
  | _, _, _, [] => []
  | c, f, digit, x :: rest =>
    if 0 < c then
      if f = 0 then digit :: scan_children (c - 1) (f + x) (digit + 1) rest
      else scan_children c (f + x - 1) (digit + 1) rest
    else []

/-- The positions to which the pass of `morgans_splicing` for position `p`
records a bond; `v` is the digit at `p` and `rest` are the digits after `p`. -/
def children (p : Nat) (v : Int) (rest : List Int) : List Nat :=
  if ¬ (v = 0) then
    (p + 1) ::
      (match rest with
        | [] => []
        | y :: rest' => scan_children (v - 1) (0 + y) (p + 2) rest')
  else []

/-- The bonds that `morgans_splicing` records, in the order of recording, for
the digits `d` that start at position `p`. -/
def bonds_from : Nat → List Int → List (Nat × Nat)
  | _, [] => []
  | p, v :: rest => (children p v rest).map (fun q => (p, q)) ++ bonds_from (p + 1) rest

/-- The other ends of the bonds of `B` that contain `p`, in the order of `B`. -/
def adjacency (B : List (Nat × Nat)) (p : Nat) : List Nat :=
  B.filterMap (fun ab => if ab.1 = p then some ab.2 else if ab.2 = p then some ab.1 else none)

/-- An ordered forest of rooted trees: empty, or a first tree, given by the forest
of the subtrees of its root, followed by the remaining trees. -/
inductive Forest where
  /-- the empty forest -/
  | nil : Forest
  /-- a first tree with the given subtrees, then the remaining trees -/
  | cons : Forest → Forest → Forest

/-- The number of trees of a forest. -/
def Forest.count : Forest → Nat
  | Forest.nil => 0
  | Forest.cons _ sib => sib.count + 1

/-- The number of atoms of a forest. -/
def Forest.size : Forest → Nat
  | Forest.nil => 0
  | Forest.cons ch sib => ch.size + sib.size + 1

/-- The depth-first sequence of child counts of a forest: every atom contributes
the number of its subtrees, followed by the sequences of its subtrees. -/
def Forest.code : Forest → List Int
  | Forest.nil => []
  | Forest.cons ch sib => (ch.count : Int) :: (ch.code ++ sib.code)

/-- The positions of the roots of the trees of a forest whose first atom has
position `s`. -/
def Forest.roots : Nat → Forest → List Nat
  | _, Forest.nil => []
  | s, Forest.cons ch sib => s :: Forest.roots (s + 1 + ch.size) sib

/-- The bonds of a forest whose first atom has position `s`: every atom with the
roots of its subtrees, in depth-first order. -/
def Forest.bonds : Nat → Forest → List (Nat × Nat)
  | _, Forest.nil => []
  | s, Forest.cons ch sib =>
    ((Forest.roots (s + 1) ch).map (fun q => (s, q)) ++ Forest.bonds (s + 1) ch) ++
      Forest.bonds (s + 1 + ch.size) sib

/-- The forest `F` with a new leaf attached as first subtree to the atom with
index `i` (counted from 0 in depth-first order). -/
def Forest.grow : Nat → Forest → Forest
  | _, Forest.nil => Forest.nil
  | 0, Forest.cons ch sib => Forest.cons (Forest.cons Forest.nil ch) sib
  | i + 1, Forest.cons ch sib =>
    if i < ch.size then Forest.cons (Forest.grow i ch) sib
    else Forest.cons ch (Forest.grow (i - ch.size) sib)

/-- The position after `pending` complete subtrees, the first of which starts at
position `pos` with the digits `l`: every digit closes one pending subtree and
opens as many as its value. -/
def skip_subtrees : Int → Nat → List Int → Nat
  | _, pos, [] => pos
  | pending, pos, x :: l =>
    if 0 < pending then skip_subtrees (pending - 1 + x) (pos + 1) l else pos

/-- The first position after the complete subtree of the atom at position `q`
of the code `d`. -/
def subtree_end (d : List Int) (q : Nat) : Nat := skip_subtrees 1 q (d.drop (q - 1))

/-- A digit code is well formed when it is the depth-first sequence of child
counts of a rooted tree: the number of subtrees of the root, then the sequences
of the subtrees. -/
def well_formed (d : List Int) : Prop :=
  ∃ F : Forest, d = (F.count : Int) :: F.code

/-- Two connectivity tables on the atoms `1..C` are isomorphic as graphs: a
bijection of the atoms, given with its inverse, maps bonds onto bonds. -/
def isomorphic (C : Nat) (T1 T2 : Connections) : Prop :=
  ∃ f g : Nat → Nat,
    (∀ a, 1 ≤ a → a ≤ C → 1 ≤ f a ∧ f a ≤ C ∧ g (f a) = a) ∧
    (∀ b, 1 ≤ b → b ≤ C → 1 ≤ g b ∧ g b ≤ C ∧ f (g b) = b) ∧
    ∀ a b, 1 ≤ a → a ≤ C → 1 ≤ b → b ≤ C →
      (b ∈ neighbours T1 a ↔ f b ∈ neighbours T2 (f a))

/-- The walks of `n` steps that start at the atom `a`: the lists of `n + 1`
atoms that start with `a` and in which every atom is a neighbour entry of the
atom before it. -/
def walks (T : Connections) : Nat → Nat → List (List Nat)
  | 0, a => [[a]]
  | n + 1, a => (neighbours T a).flatMap (fun b => (walks T n b).map (fun w => a :: w))

/-- The atoms that are reached from `a` by at most `r` steps along neighbour
entries, with repetitions. -/
def ball (T : Connections) : Nat → Nat → List Nat
  | 0, a => [a]
  | r + 1, a => ball T r a ++ (ball T r a).flatMap (neighbours T)

/-- The number of atoms within shortest-path distance `r` of `a`, the atom `a`
included. -/
def within (T : Connections) (r a : Nat) : Nat := (ball T r a).dedup.length

/-- The position of the atom `x` of a code after the code was extended at
position `p`: the atoms after `p` move by one. -/
def renumber (p x : Nat) : Nat := if p < x then x + 1 else x

/-- Two graphs on the atoms `1..C`, each given by the neighbour lists of its
atoms, are isomorphic: a bijection of the atoms, given with its inverse, maps
bonds onto bonds. -/
def graph_iso (C : Nat) (N1 N2 : Nat → List Nat) : Prop :=
  ∃ f g : Nat → Nat,
    (∀ a, 1 ≤ a → a ≤ C → 1 ≤ f a ∧ f a ≤ C ∧ g (f a) = a) ∧
    (∀ b, 1 ≤ b → b ≤ C → 1 ≤ g b ∧ g b ≤ C ∧ f (g b) = b) ∧
    ∀ a b, 1 ≤ a → a ≤ C → 1 ≤ b → b ≤ C → (b ∈ N1 a ↔ f b ∈ N2 (f a))

/-- The neighbour lists `N` describe a tree on the atoms `1..n`: every entry is an
atom other than the owner of the list, the lists are symmetric and free of
repetitions, any two atoms are linked by a chain of neighbours, and there are
`n - 1` bonds (every bond is listed at both of its ends). -/
def is_tree (n : Nat) (N : Nat → List Nat) : Prop :=
  (∀ a b, b ∈ N a → 1 ≤ a ∧ a ≤ n ∧ 1 ≤ b ∧ b ≤ n ∧ b ≠ a) ∧
  (∀ a b, b ∈ N a → a ∈ N b) ∧
  (∀ a, (N a).Nodup) ∧
  (∀ a b, 1 ≤ a → a ≤ n → 1 ≤ b → b ≤ n →
    Relation.ReflTransGen (fun x y => y ∈ N x) a b) ∧
  ((List.range' 1 n).map (fun a => (N a).length)).sum = 2 * (n - 1)

/-- The exchange of the atoms `x` and `y`. -/
def swap_atoms (x y a : Nat) : Nat := if a = x then y else if a = y then x else a

/-- The graph `N` with the atoms `x` and `y` exchanged. -/
def swap_graph (x y : Nat) (N : Nat → List Nat) : Nat → List Nat :=
  fun a => (N (swap_atoms x y a)).map (swap_atoms x y)

/-- The graph `N` on the atoms `1..n` without the atom `n`. -/
def remove_last (n : Nat) (N : Nat → List Nat) : Nat → List Nat :=
  fun a => if a < n then (N a).filter (fun b => decide (b ≠ n)) else []

/-- The tree on two atoms: one bond between the atoms 1 and 2. -/
def two_atom_tree : Nat → List Nat :=
  fun a => if a = 1 then [2] else if a = 2 then [1] else []

/-! ### Evaluation by recursors

The functions below compute the same values as the functions above; they are
written with the recursors of `List` and `Nat`, which the kernel evaluates much
faster, and serve to evaluate the generation on lists for concrete carbon
counts. -/

/-- The comparison `a < b` on integers as a Boolean. -/
def lt_int : Int → Int → Bool
  | Int.ofNat m, Int.ofNat n => Nat.blt m n
  | Int.ofNat _, Int.negSucc _ => false
  | Int.negSucc _, Int.ofNat _ => true
  | Int.negSucc m, Int.negSucc n => Nat.blt n m

/-- The function `scan_children`, by the recursor. -/
def scan_fast (rest : List Int) : Int → Int → Nat → List Nat :=
  List.rec (fun _ _ _ => [])
    (fun x _ ih c f digit =>
      if lt_int 0 c = true then
        if f = 0 then digit :: ih (c - 1) (f + x) (digit + 1)
        else ih c (f + x - 1) (digit + 1)
      else []) rest

/-- The function `children`, by the recursor. -/
def children_fast (p : Nat) (v : Int) (rest : List Int) : List Nat :=
  if ¬ (v = 0) then
    (p + 1) :: (List.rec [] (fun y rest' _ => scan_fast rest' (v - 1) (0 + y) (p + 2)) rest)
  else []

/-- The bonds `(p, q)` for `q` in `l`, followed by `acc`. -/
def pairs_fast (p : Nat) (l : List Nat) (acc : List (Nat × Nat)) : List (Nat × Nat) :=
  List.rec acc (fun q _ ih => (p, q) :: ih) l

/-- The function `bonds_from`, by the recursor. -/
def bonds_fast (d : List Int) : Nat → List (Nat × Nat) :=
  List.rec (fun _ => [])
    (fun v rest ih p => pairs_fast p (children_fast p v rest) (ih (p + 1))) d

/-- The function `adjacency`, by the recursor. -/
def adjacency_fast (B : List (Nat × Nat)) (p : Nat) : List Nat :=
  List.rec []
    (fun ab _ ih => if ab.1 = p then ab.2 :: ih else if ab.2 = p then ab.1 :: ih else ih) B

/-- The lists `adjacency B p` for the `n` positions from `p` on. -/
def adjacency_lists_fast (B : List (Nat × Nat)) (n : Nat) : Nat → List (List Nat) :=
  Nat.rec (fun _ => []) (fun _ ih p => adjacency_fast B p :: ih (p + 1)) n

/-- The function `getA 0`, by the recursors. -/
def get_fast (l : List Int) : Nat → Int :=
  List.rec (fun _ => 0) (fun a _ ih i => Nat.rec a (fun j _ => ih j) i) l

/-- The sum of the values `temp_value v q` for `q` in `nb`. -/
def sum_values_fast (v : List Int) (nb : List Nat) : Int :=
  List.rec 0 (fun q _ ih => get_fast (0 :: v) q + ih) nb

/-- One synchronous round on adjacency lists. -/
def round_fast (adj : List (List Nat)) (v : List Int) : List Int :=
  List.rec [] (fun nb _ ih => sum_values_fast v nb :: ih) adj

/-- The round `round_fast` iterated `n` times. -/
def rounds_fast (adj : List (List Nat)) (n : Nat) : List Int → List Int :=
  Nat.rec (fun v => v) (fun _ ih v => ih (round_fast adj v)) n

/-- The function `insert_rev`, by the recursor. -/
def insert_fast (x : Int) (l : List Int) : List Int :=
  List.rec [x] (fun a t ih => if lt_int a x = true then a :: ih else x :: a :: t) l

/-- The function `sort_rev`, by the recursor. -/
def sort_fast (l : List Int) : List Int → List Int :=
  List.rec (fun acc => acc) (fun x _ ih acc => ih (insert_fast x acc)) l

/-- The reverse of `l` followed by `acc`. -/
def reverse_fast (l : List Int) : List Int → List Int :=
  List.rec (fun acc => acc) (fun x _ ih acc => ih (x :: acc)) l

/-- The function `seed_values`, by the recursor. -/
def seed_fast (d : List Int) : List Int :=
  List.rec [] (fun r t _ => r :: List.rec [] (fun x _ ih => (x + 1) :: ih) t) d

/-- The function `signature` for a code of `CarbonAmount` digits, by recursors
and with the connectivity taken from the list of bonds. -/
def signature_fast (CarbonAmount : Nat) (d : List Int) : List Int :=
  reverse_fast
    (sort_fast
      (rounds_fast (adjacency_lists_fast (bonds_fast d 1) CarbonAmount 1)
        (CarbonAmount / 3 + 1) (seed_fast d)) []) []

/-- Equality of two lists of integers as a Boolean. -/
def eq_fast (l : List Int) : List Int → Bool :=
  List.rec (fun l' => List.rec true (fun _ _ _ => false) l')
    (fun a _ ih l' => List.rec false (fun b t _ => if a = b then ih t else false) l') l

/-- Membership of `g` in `sigs` as a Boolean. -/
def mem_fast (g : List Int) (sigs : List (List Int)) : Bool :=
  List.rec false (fun s _ ih => if eq_fast g s = true then true else ih) sigs

/-- The function `accept` with `signature_fast` and `mem_fast`. -/
def accept_fast (CarbonAmount : Nat) (s : PState) (c : List Int) : PState :=
  if mem_fast (signature_fast CarbonAmount c) s.sigs = true then s
  else { codes := s.codes ++ [c], sigs := s.sigs ++ [signature_fast CarbonAmount c] }

/-- The function `generate` with `accept_fast`. -/
def generate_fast (CarbonAmount : Nat) (parents : List (List Int)) : PState :=
  (candidates CarbonAmount parents).foldl (accept_fast CarbonAmount) { codes := [], sigs := [] }

/-- The accepted codes of carbon counts `n+1`, `n`, ..., 1 (latest first),
computed with `generate_fast`. -/
def levels_fast : Nat → List (List (List Int))
  | 0 => [[[0]]]
  | n + 1 =>
    match levels_fast n with
    | [] => []
    | l :: r => (generate_fast (n + 2) l).codes :: l :: r

/-- The accepted codes of carbon counts `n+1`, `n`, ..., 1 (latest first),
starting from methane. -/
def levels : Nat → List (List (List Int))
  | 0 => [[[0]]]
  | n + 1 =>
    match levels n with
    | [] => []
    | l :: r => (generate (n + 2) l).codes :: l :: r

/-! ## Vectors: reading after writing -/

theorem getA_nil {α : Type} (dflt : α) (j : Nat) : getA dflt [] j = dflt := by
  cases j <;> rfl

theorem getA_setA_nil {α : Type} (dflt : α) (i : Nat) (x : α) (j : Nat) :
    getA dflt (setA dflt [] i x) j = if j = i then x else dflt := by
  induction i generalizing j with
  | zero =>
    cases j with
    | zero => simp [setA, getA]
    | succ j => simp [setA, getA, getA_nil]
  | succ i ih =>
    cases j with
    | zero => simp [setA, getA]
    | succ j => simp [setA, getA, ih]

theorem getA_setA {α : Type} (dflt : α) (l : List α) (i : Nat) (x : α) (j : Nat) :
    getA dflt (setA dflt l i x) j = if j = i then x else getA dflt l j := by
  induction l generalizing i j with
  | nil => rw [getA_setA_nil, getA_nil]
  | cons a l ih =>
    cases i with
    | zero =>
      cases j with
      | zero => simp [setA, getA]
      | succ j => simp [setA, getA]
    | succ i =>
      cases j with
      | zero => simp [setA, getA]
      | succ j => simp [setA, getA, ih]

theorem get3_set3 (st : Store) (a b c : Nat) (x : Int) (a' b' c' : Nat) :
    get3 (set3 st a b c x) a' b' c' =
      if a' = a ∧ b' = b ∧ c' = c then x else get3 st a' b' c' := by
  unfold get3 set3
  rw [getA_setA]
  by_cases ha : a' = a
  · subst ha
    rw [if_pos rfl, getA_setA]
    by_cases hb : b' = b
    · subst hb
      rw [if_pos rfl, getA_setA]
      by_cases hc : c' = c <;> simp [hc]
    · simp [hb]
  · simp [ha]

theorem getM_setM (m : Morgans) (a b : Nat) (x : Int) (a' b' : Nat) :
    getM (setM m a b x) a' b' = if a' = a ∧ b' = b then x else getM m a' b' := by
  unfold getM setM
  rw [getA_setA]
  by_cases ha : a' = a
  · subst ha
    rw [if_pos rfl, getA_setA]
    by_cases hb : b' = b <;> simp [hb]
  · simp [ha]

theorem getC_setC (m : Connections) (a b : Nat) (x : Nat) (a' b' : Nat) :
    getC (setC m a b x) a' b' = if a' = a ∧ b' = b then x else getC m a' b' := by
  unfold getC setC
  rw [getA_setA]
  by_cases ha : a' = a
  · subst ha
    rw [if_pos rfl, getA_setA]
    by_cases hb : b' = b <;> simp [hb]
  · simp [ha]

/-! ## Counted loops -/

theorem forLoop_zero {σ : Type} (body : Nat → σ → σ) (i : Nat) (s : σ) :
    forLoop body i 0 s = s := rfl

theorem forLoop_succ {σ : Type} (body : Nat → σ → σ) (i n : Nat) (s : σ) :
    forLoop body i (n + 1) s = forLoop body (i + 1) n (body i s) := rfl

theorem forLoop_succ_last {σ : Type} (body : Nat → σ → σ) (i n : Nat) (s : σ) :
    forLoop body i (n + 1) s = body (i + n) (forLoop body i n s) := by
  induction n generalizing i s with
  | zero => rfl
  | succ n ih =>
    rw [forLoop_succ, ih, forLoop_succ]
    congr 1
    omega

theorem forLoop_add {σ : Type} (body : Nat → σ → σ) (i n k : Nat) (s : σ) :
    forLoop body i (n + k) s = forLoop body (i + n) k (forLoop body i n s) := by
  induction n generalizing i s with
  | zero => simp [forLoop]
  | succ n ih =>
    rw [Nat.succ_add, forLoop_succ, ih, forLoop_succ]
    congr 1
    omega

/-- Loop invariant rule for `forLoop`. -/
theorem forLoop_inv {σ : Type} (body : Nat → σ → σ) (P : Nat → σ → Prop) (i n : Nat) (s : σ)
    (h0 : P i s)
    (hstep : ∀ j t, i ≤ j → j < i + n → P j t → P (j + 1) (body j t)) :
    P (i + n) (forLoop body i n s) := by
  induction n with
  | zero => exact h0
  | succ n ih =>
    rw [forLoop_succ_last]
    have := ih (fun j t hj hlt hP => hstep j t hj (by omega) hP)
    exact hstep (i + n) _ (by omega) (by omega) this

theorem forLoop_eq_foldl {σ : Type} (body : Nat → σ → σ) (i n : Nat) (s : σ) :
    forLoop body i n s = (List.range' i n).foldl (fun t j => body j t) s := by
  induction n generalizing i s with
  | zero => rfl
  | succ n ih => rw [forLoop_succ, ih, List.range'_succ, List.foldl_cons]

theorem forLoop_congr {σ : Type} (f g : Nat → σ → σ) (i n : Nat) (s : σ)
    (h : ∀ j t, i ≤ j → j < i + n → f j t = g j t) :
    forLoop f i n s = forLoop g i n s := by
  induction n generalizing i s with
  | zero => rfl
  | succ n ih =>
    rw [forLoop_succ, forLoop_succ, h i s (le_refl _) (by omega)]
    exact ih _ _ (fun j t hj hlt => h j t (by omega) (by omega))

theorem forLoop_pair {σ τ : Type} (f : Nat → σ → σ) (g : Nat → τ → τ) (i n : Nat)
    (s : σ) (t : τ) :
    forLoop (fun j (p : σ × τ) => (f j p.1, g j p.2)) i n (s, t) =
      (forLoop f i n s, forLoop g i n t) := by
  induction n generalizing i s t with
  | zero => rfl
  | succ n ih => rw [forLoop_succ, forLoop_succ, forLoop_succ, ih]

/-! ## Codes as lists -/

theorem getA_eq_getD {α : Type} (dflt : α) (l : List α) (i : Nat) :
    getA dflt l i = l.getD i dflt := by
  induction l generalizing i with
  | nil => simp [getA_nil]
  | cons a l ih =>
    cases i with
    | zero => simp [getA]
    | succ i => simp [getA, ih]

theorem getA_of_length_le {α : Type} (dflt : α) (l : List α) (i : Nat) (h : l.length ≤ i) :
    getA dflt l i = dflt := by
  induction l generalizing i with
  | nil => exact getA_nil dflt i
  | cons a l ih =>
    cases i with
    | zero => simp at h
    | succ i => simpa [getA] using ih i (by simpa using h)

theorem digit_succ (d : List Int) (j : Nat) : digit d (j + 1) = getA (-1) d j := rfl

theorem digit_zero (d : List Int) : digit d 0 = -1 := rfl

theorem getA_map_range' {α : Type} (dflt : α) (f : Nat → α) (s n i : Nat) (h : i < n) :
    getA dflt ((List.range' s n).map f) i = f (s + i) := by
  induction n generalizing s i with
  | zero => omega
  | succ n ih =>
    rw [List.range'_succ, List.map_cons]
    cases i with
    | zero => simp [getA]
    | succ i =>
      simp only [getA]
      rw [ih (s + 1) i (by omega)]
      congr 1
      omega

theorem length_code_digits (st : Store) (k i : Nat) : (code_digits st k i).length = k := by
  simp [code_digits]

theorem length_row_values (m : Morgans) (i CA : Nat) : (row_values m i CA).length = CA := by
  simp [row_values]

theorem digit_code_digits (st : Store) (k i j : Nat) (h1 : 1 ≤ j) (h2 : j ≤ k) :
    digit (code_digits st k i) j = get3 st k i j := by
  obtain ⟨j, rfl⟩ : ∃ j', j = j' + 1 := ⟨j - 1, by omega⟩
  rw [digit_succ, code_digits, getA_map_range' _ _ _ _ _ (by omega)]
  congr 1
  omega

/-- A list is determined by its length and its cells. -/
theorem list_ext_getA {α : Type} (dflt : α) (l l' : List α) (hlen : l.length = l'.length)
    (h : ∀ i, i < l.length → getA dflt l i = getA dflt l' i) : l = l' := by
  induction l generalizing l' with
  | nil =>
    cases l' with
    | nil => rfl
    | cons b l' => simp at hlen
  | cons a l ih =>
    cases l' with
    | nil => simp at hlen
    | cons b l' =>
      have h0 := h 0 (by simp)
      simp only [getA] at h0
      rw [h0, ih l' (by simpa using hlen)
        (fun i hi => by simpa [getA] using h (i + 1) (by simpa using hi))]

theorem map_range'_eq_iff {α : Type} (f g : Nat → α) (s n : Nat) :
    (List.range' s n).map f = (List.range' s n).map g ↔ ∀ j, s ≤ j → j < s + n → f j = g j := by
  rw [List.map_inj_left]
  constructor
  · intro h j h1 h2
    exact h j (List.mem_range'_1.mpr ⟨h1, h2⟩)
  · intro h j hj
    obtain ⟨h1, h2⟩ := List.mem_range'_1.mp hj
    exact h j h1 h2

/-! ## The extension of a code -/

theorem extend_cons_succ (a : Int) (t : List Int) (c : Nat) :
    extend (a :: t) (c + 2) = a :: extend t (c + 1) := by
  simp [extend, digit, getA]

theorem length_extend (d : List Int) (C : Nat) (h1 : 1 ≤ C) (h2 : C ≤ d.length) :
    (extend d C).length = d.length + 1 := by
  simp [extend]
  omega

theorem getA_extend (d : List Int) (c : Nat) (h : c < d.length) (i : Nat) :
    getA (-1) (extend d (c + 1)) i =
      if i < c then getA (-1) d i
      else if i = c then getA (-1) d c + 1
      else if i = c + 1 then 0
      else getA (-1) d (i - 1) := by
  induction c generalizing d i with
  | zero =>
    cases d with
    | nil => simp at h
    | cons a t =>
      cases i with
      | zero => simp [extend, digit, getA]
      | succ i =>
        cases i with
        | zero => simp [extend, digit, getA]
        | succ i => simp [extend, digit, getA]
  | succ c ih =>
    cases d with
    | nil => simp at h
    | cons a t =>
      rw [extend_cons_succ]
      cases i with
      | zero => simp [getA]
      | succ i =>
        simp only [getA]
        rw [ih t (by simpa using h) i]
        cases i with
        | zero =>
          cases c <;> simp [getA]
        | succ i =>
          simp only [Nat.add_lt_add_iff_right, Nat.add_right_cancel_iff, Nat.add_sub_cancel, getA]

theorem digit_extend (d : List Int) (C : Nat) (h1 : 1 ≤ C) (h2 : C ≤ d.length) (j : Nat)
    (hj : 1 ≤ j) :
    digit (extend d C) j =
      if j < C then digit d j
      else if j = C then digit d C + 1
      else if j = C + 1 then 0
      else digit d (j - 1) := by
  obtain ⟨c, rfl⟩ : ∃ c, C = c + 1 := ⟨C - 1, by omega⟩
  obtain ⟨i, rfl⟩ : ∃ i, j = i + 1 := ⟨j - 1, by omega⟩
  rw [digit_succ, getA_extend d c (by omega) i]
  by_cases h1 : i < c
  · simp [h1, digit_succ]
  · by_cases h2 : i = c
    · simp [h2, digit_succ]
    · by_cases h3 : i = c + 1
      · simp [h3]
      · have : i + 1 - 1 = (i - 1) + 1 := by omega
        simp only [h1, h2, h3, Nat.add_lt_add_iff_right, Nat.add_right_cancel_iff, if_false,
          this, digit_succ]

/-! ## The candidate written by `generate_Isomers` -/

theorem get3_write_candidate (st : Store) (CA pC I C iso : Nat) (hp : pC ≠ CA)
    (hC1 : 1 ≤ C) (hC : C ≤ CA) (a b c : Nat) :
    get3 (write_candidate st CA pC I C iso) a b c =
      if a = CA ∧ b = iso ∧ 1 ≤ c ∧ c ≤ CA + 1 then
        (if c < C then get3 st pC I c
         else if c = C then get3 st pC I C + 1
         else if c = C + 1 then 0
         else get3 st pC I (c - 1))
      else get3 st a b c := by
  unfold write_candidate
  -- first transfer loop
  have h1 := forLoop_inv
    (fun transfer st => set3 st CA iso transfer (get3 st pC I transfer))
    (fun j t => ∀ a b c, get3 t a b c =
      if a = CA ∧ b = iso ∧ 1 ≤ c ∧ c < j then get3 st pC I c else get3 st a b c)
    1 (C - 1) st
    (by
      intro a b c
      have : ¬ (a = CA ∧ b = iso ∧ 1 ≤ c ∧ c < 1) := by omega
      rw [if_neg this])
    (by
      intro j t hj1 hj2 ih a b c
      rw [get3_set3, ih a b c, ih pC I j]
      have hne : ¬ (pC = CA ∧ I = iso ∧ 1 ≤ j ∧ j < j) := by omega
      rw [if_neg hne]
      by_cases hc : a = CA ∧ b = iso ∧ c = j
      · obtain ⟨rfl, rfl, rfl⟩ := hc
        have : a = a ∧ b = b ∧ 1 ≤ c ∧ c < c + 1 := ⟨rfl, rfl, hj1, by omega⟩
        rw [if_pos ⟨rfl, rfl, rfl⟩, if_pos this]
      · rw [if_neg hc]
        by_cases hd : a = CA ∧ b = iso ∧ 1 ≤ c ∧ c < j
        · have : a = CA ∧ b = iso ∧ 1 ≤ c ∧ c < j + 1 := ⟨hd.1, hd.2.1, hd.2.2.1, by omega⟩
          rw [if_pos hd, if_pos this]
        · have : ¬ (a = CA ∧ b = iso ∧ 1 ≤ c ∧ c < j + 1) := by
            intro h
            rcases Nat.lt_succ_iff_lt_or_eq.mp h.2.2.2 with h' | h'
            · exact hd ⟨h.1, h.2.1, h.2.2.1, h'⟩
            · exact hc ⟨h.1, h.2.1, h'⟩
          rw [if_neg hd, if_neg this])
  have e1 : 1 + (C - 1) = C := by omega
  rw [e1] at h1
  generalize forLoop (fun transfer st => set3 st CA iso transfer (get3 st pC I transfer))
    1 (C - 1) st = t1 at h1 ⊢
  -- the two assignments and the second transfer loop
  have h2 := forLoop_inv
    (fun transfer st => set3 st CA iso (transfer + 1) (get3 st pC I transfer))
    (fun j t => ∀ a b c, get3 t a b c =
      if a = CA ∧ b = iso ∧ 1 ≤ c ∧ c ≤ j then
        (if c < C then get3 st pC I c
         else if c = C then get3 st pC I C + 1
         else if c = C + 1 then 0
         else get3 st pC I (c - 1))
      else get3 st a b c)
    (C + 1) (CA - C) (set3 (set3 t1 CA iso C (get3 t1 pC I C + 1)) CA iso (C + 1) 0)
    (by
      intro a b c
      rw [get3_set3, get3_set3, h1 a b c, h1 pC I C]
      have hne : ¬ (pC = CA ∧ I = iso ∧ 1 ≤ C ∧ C < C) := by omega
      rw [if_neg hne]
      by_cases hab : a = CA ∧ b = iso
      · obtain ⟨rfl, rfl⟩ := hab
        by_cases hc1 : c < C
        · by_cases hc0 : 1 ≤ c
          · have e1 : ¬ (c = C + 1) := by omega
            have e2 : ¬ (c = C) := by omega
            have e3 : c ≤ C + 1 := by omega
            simp [hc1, hc0, e1, e2, e3]
          · have e1 : ¬ (c = C + 1) := by omega
            have e2 : ¬ (c = C) := by omega
            simp [hc0, e1, e2]
        · by_cases hc2 : c = C
          · subst hc2
            simp [hC1]
          · by_cases hc3 : c = C + 1
            · subst hc3
              simp
            · have e3 : ¬ (c ≤ C + 1) := by omega
              simp [hc1, hc2, hc3, e3]
      · have e1 : ¬ (a = CA ∧ b = iso ∧ c = C + 1) := fun h => hab ⟨h.1, h.2.1⟩
        have e2 : ¬ (a = CA ∧ b = iso ∧ c = C) := fun h => hab ⟨h.1, h.2.1⟩
        have e3 : ¬ (a = CA ∧ b = iso ∧ 1 ≤ c ∧ c < C) := fun h => hab ⟨h.1, h.2.1⟩
        have e4 : ¬ (a = CA ∧ b = iso ∧ 1 ≤ c ∧ c ≤ C + 1) := fun h => hab ⟨h.1, h.2.1⟩
        rw [if_neg e1, if_neg e2, if_neg e3, if_neg e4])
    (by
      intro j t hj1 hj2 ih a b c
      rw [get3_set3, ih a b c, ih pC I j]
      have hne : ¬ (pC = CA ∧ I = iso ∧ 1 ≤ j ∧ j ≤ j) := by omega
      rw [if_neg hne]
      by_cases hab : a = CA ∧ b = iso
      · obtain ⟨rfl, rfl⟩ := hab
        by_cases hc : c = j + 1
        · subst hc
          have e1 : ¬ (j + 1 < C) := by omega
          have e2 : ¬ (j + 1 = C) := by omega
          have e3 : ¬ (j + 1 = C + 1) := by omega
          simp [e1, e2, e3]
        · by_cases hd : c ≤ j
          · have : c ≤ j + 1 := by omega
            simp [hc, hd, this]
          · have : ¬ (c ≤ j + 1) := by omega
            simp [hc, hd, this]
      · have e1 : ¬ (a = CA ∧ b = iso ∧ c = j + 1) := fun h => hab ⟨h.1, h.2.1⟩
        have e3 : ¬ (a = CA ∧ b = iso ∧ 1 ≤ c ∧ c ≤ j) := fun h => hab ⟨h.1, h.2.1⟩
        have e4 : ¬ (a = CA ∧ b = iso ∧ 1 ≤ c ∧ c ≤ j + 1) := fun h => hab ⟨h.1, h.2.1⟩
        rw [if_neg e1, if_neg e3, if_neg e4])
  have e2 : C + 1 + (CA - C) = CA + 1 := by omega
  rw [e2] at h2
  exact h2 a b c

/-- The digits of the written candidate are the parent code extended at `C`. -/
theorem code_digits_write_candidate (st : Store) (CA I C iso : Nat) (hCA : 1 ≤ CA)
    (hC1 : 1 ≤ C) (hC : C ≤ CA - 1) :
    code_digits (write_candidate st CA (CA - 1) I C iso) CA iso =
      extend (code_digits st (CA - 1) I) C := by
  apply list_ext_getA (-1)
  · rw [length_code_digits, length_extend _ _ hC1 (by rw [length_code_digits]; exact hC),
      length_code_digits]
    omega
  · intro i hi
    rw [length_code_digits] at hi
    rw [← digit_succ, ← digit_succ, digit_code_digits _ _ _ _ (by omega) (by omega),
      digit_extend _ _ hC1 (by rw [length_code_digits]; exact hC) _ (by omega),
      get3_write_candidate st CA (CA - 1) I C iso (by omega) hC1 (by omega)]
    have hpos : CA = CA ∧ iso = iso ∧ 1 ≤ i + 1 ∧ i + 1 ≤ CA + 1 := ⟨rfl, rfl, by omega, by omega⟩
    rw [if_pos hpos]
    by_cases h1 : i + 1 < C
    · rw [if_pos h1, if_pos h1, digit_code_digits _ _ _ _ (by omega) (by omega)]
    · rw [if_neg h1, if_neg h1]
      by_cases h2 : i + 1 = C
      · rw [if_pos h2, if_pos h2, digit_code_digits _ _ _ _ (by omega) (by omega)]
      · rw [if_neg h2, if_neg h2]
        by_cases h3 : i + 1 = C + 1
        · rw [if_pos h3, if_pos h3]
        · rw [if_neg h3, if_neg h3, digit_code_digits _ _ _ _ (by omega) (by omega)]

/-- The candidate slot is the only part of the store that is written. -/
theorem write_candidate_frame (st : Store) (CA I C iso : Nat) (hCA : 1 ≤ CA)
    (hC1 : 1 ≤ C) (hC : C ≤ CA - 1) (a b c : Nat) (h : ¬ (a = CA ∧ b = iso)) :
    get3 (write_candidate st CA (CA - 1) I C iso) a b c = get3 st a b c := by
  rw [get3_write_candidate st CA (CA - 1) I C iso (by omega) hC1 (by omega)]
  have : ¬ (a = CA ∧ b = iso ∧ 1 ≤ c ∧ c ≤ CA + 1) := fun h' => h ⟨h'.1, h'.2.1⟩
  rw [if_neg this]

/-! ## The admissibility test -/

theorem validity_check_eq (st : Store) (pC C I CA : Nat) (hC1 : 1 ≤ C) (hC : C ≤ pC) :
    Isomer_digit_validity_check st pC C I CA =
      if admissible (code_digits st pC I) C = true then 1 else 0 := by
  unfold Isomer_digit_validity_check admissible
  rw [digit_code_digits _ _ _ _ (le_refl 1) (by omega), digit_code_digits _ _ _ _ hC1 hC]

theorem validity_check_ne_zero (st : Store) (pC C I CA : Nat) (hC1 : 1 ≤ C) (hC : C ≤ pC) :
    Isomer_digit_validity_check st pC C I CA ≠ 0 ↔ admissible (code_digits st pC I) C = true := by
  rw [validity_check_eq st pC C I CA hC1 hC]
  by_cases h : admissible (code_digits st pC I) C = true <;> simp [h]

/-! ## `morgans_splicing`: the two tables are computed independently -/

theorem morgans_splicing_eq (st : Store) (i CA : Nat) (m : Morgans) (c : Connections) :
    morgans_splicing st i CA m c =
      (forLoop (splice_seed st i CA) 1 CA m, forLoop (splice_digit st i CA) 1 CA c) := by
  unfold morgans_splicing
  exact forLoop_pair (splice_seed st i CA) (splice_digit st i CA) 1 CA m c

/-! ## Seed values -/

theorem getM_seed_loop (st : Store) (i CA : Nat) (m : Morgans) (a b : Nat) :
    getM (forLoop (splice_seed st i CA) 1 CA m) a b =
      if a = i ∧ 1 ≤ b ∧ b ≤ CA then
        (if b = 1 then get3 st CA i b else get3 st CA i b + 1)
      else getM m a b := by
  have h := forLoop_inv (splice_seed st i CA)
    (fun j t => ∀ a b, getM t a b =
      if a = i ∧ 1 ≤ b ∧ b < j then
        (if b = 1 then get3 st CA i b else get3 st CA i b + 1)
      else getM m a b)
    1 CA m
    (by
      intro a b
      have : ¬ (a = i ∧ 1 ≤ b ∧ b < 1) := by omega
      rw [if_neg this])
    (by
      intro j t hj1 hj2 ih a b
      have hset : getM (splice_seed st i CA j t) a b =
          if a = i ∧ b = j then (if j = 1 then get3 st CA i j else get3 st CA i j + 1)
          else getM t a b := by
        unfold splice_seed
        by_cases hj : j = 1
        · rw [if_pos hj, if_pos hj, getM_setM]
        · rw [if_neg hj, if_neg hj, getM_setM]
      rw [hset, ih a b]
      by_cases hab : a = i ∧ b = j
      · obtain ⟨rfl, rfl⟩ := hab
        have : a = a ∧ 1 ≤ b ∧ b < b + 1 := ⟨rfl, hj1, by omega⟩
        rw [if_pos ⟨rfl, rfl⟩, if_pos this]
      · rw [if_neg hab]
        by_cases hd : a = i ∧ 1 ≤ b ∧ b < j
        · have : a = i ∧ 1 ≤ b ∧ b < j + 1 := ⟨hd.1, hd.2.1, by omega⟩
          rw [if_pos hd, if_pos this]
        · have : ¬ (a = i ∧ 1 ≤ b ∧ b < j + 1) := by
            intro h
            rcases Nat.lt_succ_iff_lt_or_eq.mp h.2.2 with h' | h'
            · exact hd ⟨h.1, h.2.1, h'⟩
            · exact hab ⟨h.1, h'⟩
          rw [if_neg hd, if_neg this])
  have := h a b
  rw [this]
  by_cases hd : a = i ∧ 1 ≤ b ∧ b ≤ CA
  · have : a = i ∧ 1 ≤ b ∧ b < 1 + CA := ⟨hd.1, hd.2.1, by omega⟩
    rw [if_pos hd, if_pos this]
  · have : ¬ (a = i ∧ 1 ≤ b ∧ b < 1 + CA) := fun h => hd ⟨h.1, h.2.1, by omega⟩
    rw [if_neg hd, if_neg this]

theorem length_seed_values (d : List Int) : (seed_values d).length = d.length := by
  cases d <;> simp [seed_values]

theorem getA_in_range {α : Type} (x y : α) (l : List α) (i : Nat) (h : i < l.length) :
    getA x l i = getA y l i := by
  induction l generalizing i with
  | nil => simp at h
  | cons a l ih =>
    cases i with
    | zero => rfl
    | succ i => exact ih i (by simpa using h)

theorem getA_map {α β : Type} (x : α) (f : α → β) (l : List α) (i : Nat) :
    getA (f x) (l.map f) i = f (getA x l i) := by
  induction l generalizing i with
  | nil => simp [getA_nil]
  | cons a l ih =>
    cases i with
    | zero => rfl
    | succ i => exact ih i

theorem getA_seed_values (d : List Int) (j : Nat) (h : j < d.length) :
    getA 0 (seed_values d) j = if j = 0 then getA (-1) d 0 else getA (-1) d j + 1 := by
  cases d with
  | nil => simp at h
  | cons r t =>
    cases j with
    | zero => rfl
    | succ j =>
      have hj : j < t.length := by simpa using h
      simp only [seed_values, getA]
      rw [getA_in_range 0 ((-1 : Int) + 1) _ _ (by simpa using hj),
        getA_map (-1 : Int) (· + 1) t j]
      simp

theorem row_values_seed_loop (st : Store) (i CA : Nat) (m : Morgans) :
    row_values (forLoop (splice_seed st i CA) 1 CA m) i CA = seed_values (code_digits st CA i) := by
  apply list_ext_getA 0
  · rw [length_row_values, length_seed_values, length_code_digits]
  · intro j hj
    rw [length_row_values] at hj
    rw [row_values, getA_map_range' _ _ _ _ _ hj, getM_seed_loop,
      getA_seed_values _ _ (by rw [length_code_digits]; exact hj)]
    have : i = i ∧ 1 ≤ 1 + j ∧ 1 + j ≤ CA := ⟨rfl, by omega, by omega⟩
    rw [if_pos this, ← digit_succ, ← digit_succ,
      digit_code_digits _ _ _ _ (by omega) (by omega),
      digit_code_digits _ _ _ _ (by omega) (by omega)]
    by_cases h0 : j = 0
    · subst h0
      simp
    · have : ¬ (1 + j = 1) := by omega
      rw [if_neg this, if_neg h0, Nat.add_comm]

theorem seed_loop_frame (st : Store) (i CA : Nat) (m : Morgans) (a b : Nat) (h : a ≠ i) :
    getM (forLoop (splice_seed st i CA) 1 CA m) a b = getM m a b := by
  rw [getM_seed_loop]
  have : ¬ (a = i ∧ 1 ≤ b ∧ b ≤ CA) := fun h' => h h'.1
  rw [if_neg this]

/-! ## `morgans_algorithm` -/

theorem getA_copy (i CA : Nat) (m : Morgans) (temp : List Int) (q : Nat) :
    getA 0 (morgans_copy i CA m temp) q =
      if 1 ≤ q ∧ q ≤ CA then getM m i q else getA 0 temp q := by
  have h := forLoop_inv (fun digit t => setA 0 t digit (getM m i digit))
    (fun j t => ∀ q, getA 0 t q = if 1 ≤ q ∧ q < j then getM m i q else getA 0 temp q)
    1 CA temp
    (by
      intro q
      have : ¬ (1 ≤ q ∧ q < 1) := by omega
      rw [if_neg this])
    (by
      intro j t hj1 hj2 ih q
      rw [getA_setA, ih q]
      by_cases hq : q = j
      · subst hq
        have : 1 ≤ q ∧ q < q + 1 := ⟨hj1, by omega⟩
        rw [if_pos rfl, if_pos this]
      · rw [if_neg hq]
        by_cases hd : 1 ≤ q ∧ q < j
        · have : 1 ≤ q ∧ q < j + 1 := ⟨hd.1, by omega⟩
          rw [if_pos hd, if_pos this]
        · have : ¬ (1 ≤ q ∧ q < j + 1) := by omega
          rw [if_neg hd, if_neg this])
  unfold morgans_copy
  rw [h q]
  by_cases hd : 1 ≤ q ∧ q ≤ CA
  · have : 1 ≤ q ∧ q < 1 + CA := ⟨hd.1, by omega⟩
    rw [if_pos hd, if_pos this]
  · have : ¬ (1 ≤ q ∧ q < 1 + CA) := by omega
    rw [if_neg hd, if_neg this]

/-- After the copy loop, `temp[q]` is the value `temp_value` reads from the
values of the row, provided the cells of `temp` outside `1..CarbonAmount` hold 0. -/
theorem getA_copy_eq_temp_value (i CA : Nat) (m : Morgans) (temp : List Int)
    (htemp : ∀ q, (q = 0 ∨ CA < q) → getA 0 temp q = 0) (q : Nat) :
    getA 0 (morgans_copy i CA m temp) q = temp_value (row_values m i CA) q := by
  rw [getA_copy]
  unfold temp_value
  by_cases hd : 1 ≤ q ∧ q ≤ CA
  · rw [if_pos hd]
    obtain ⟨q, rfl⟩ : ∃ q', q = q' + 1 := ⟨q - 1, by omega⟩
    simp only [getA]
    rw [row_values, getA_map_range' _ _ _ _ _ (by omega)]
    congr 1
    omega
  · rw [if_neg hd, htemp q (by omega)]
    cases q with
    | zero => rfl
    | succ q =>
      simp only [getA]
      rw [getA_of_length_le]
      rw [length_row_values]
      omega

theorem copy_outside (i CA : Nat) (m : Morgans) (temp : List Int)
    (htemp : ∀ q, (q = 0 ∨ CA < q) → getA 0 temp q = 0) :
    ∀ q, (q = 0 ∨ CA < q) → getA 0 (morgans_copy i CA m temp) q = 0 := by
  intro q hq
  rw [getA_copy]
  have : ¬ (1 ≤ q ∧ q ≤ CA) := by omega
  rw [if_neg this]
  exact htemp q hq

theorem getM_morgans_sum (i digit : Nat) (conns : Connections) (temp : List Int)
    (m : Morgans) (a b : Nat) :
    getM (morgans_sum i digit conns temp m) a b =
      if a = i ∧ b = digit then ((neighbours conns digit).map (getA 0 temp)).sum
      else getM m a b := by
  have h := forLoop_inv
    (fun current_connection m =>
      setM m i digit (getM m i digit + getA 0 temp (getC conns digit current_connection)))
    (fun j t => ∀ a b, getM t a b =
      if a = i ∧ b = digit then
        (((List.range' 1 (j - 1)).map (getC conns digit)).map (getA 0 temp)).sum
      else getM m a b)
    1 (getC conns digit 0) (setM m i digit 0)
    (by
      intro a b
      rw [getM_setM]
      by_cases hab : a = i ∧ b = digit
      · rw [if_pos hab, if_pos hab]
        rfl
      · rw [if_neg hab, if_neg hab])
    (by
      intro j t hj1 hj2 ih a b
      rw [getM_setM, ih a b, ih i digit]
      by_cases hab : a = i ∧ b = digit
      · rw [if_pos hab, if_pos hab, if_pos ⟨rfl, rfl⟩]
        have e : j + 1 - 1 = (j - 1) + 1 := by omega
        rw [e, List.range'_concat, List.map_append, List.map_append, List.sum_append]
        have e2 : 1 + 1 * (j - 1) = j := by omega
        rw [e2]
        simp
      · rw [if_neg hab, if_neg hab, if_neg hab])
  unfold morgans_sum neighbours
  have := h a b
  rw [Nat.add_sub_cancel_left] at this
  exact this

theorem getM_sum_loop (i CA : Nat) (conns : Connections) (temp : List Int) (m : Morgans)
    (a b : Nat) :
    getM (forLoop (fun digit m => morgans_sum i digit conns temp m) 1 CA m) a b =
      if a = i ∧ 1 ≤ b ∧ b ≤ CA then ((neighbours conns b).map (getA 0 temp)).sum
      else getM m a b := by
  have h := forLoop_inv (fun digit m => morgans_sum i digit conns temp m)
    (fun j t => ∀ a b, getM t a b =
      if a = i ∧ 1 ≤ b ∧ b < j then ((neighbours conns b).map (getA 0 temp)).sum
      else getM m a b)
    1 CA m
    (by
      intro a b
      have : ¬ (a = i ∧ 1 ≤ b ∧ b < 1) := by omega
      rw [if_neg this])
    (by
      intro j t hj1 hj2 ih a b
      rw [getM_morgans_sum, ih a b]
      by_cases hab : a = i ∧ b = j
      · obtain ⟨rfl, rfl⟩ := hab
        have : a = a ∧ 1 ≤ b ∧ b < b + 1 := ⟨rfl, hj1, by omega⟩
        rw [if_pos ⟨rfl, rfl⟩, if_pos this]
      · rw [if_neg hab]
        by_cases hd : a = i ∧ 1 ≤ b ∧ b < j
        · have : a = i ∧ 1 ≤ b ∧ b < j + 1 := ⟨hd.1, hd.2.1, by omega⟩
          rw [if_pos hd, if_pos this]
        · have : ¬ (a = i ∧ 1 ≤ b ∧ b < j + 1) := by
            intro h
            rcases Nat.lt_succ_iff_lt_or_eq.mp h.2.2 with h' | h'
            · exact hd ⟨h.1, h.2.1, h'⟩
            · exact hab ⟨h.1, h'⟩
          rw [if_neg hd, if_neg this])
  rw [h a b]
  by_cases hd : a = i ∧ 1 ≤ b ∧ b ≤ CA
  · have : a = i ∧ 1 ≤ b ∧ b < 1 + CA := ⟨hd.1, hd.2.1, by omega⟩
    rw [if_pos hd, if_pos this]
  · have : ¬ (a = i ∧ 1 ≤ b ∧ b < 1 + CA) := fun h => hd ⟨h.1, h.2.1, by omega⟩
    rw [if_neg hd, if_neg this]

/-- One pass of the `while` loop of `morgans_algorithm` is one synchronous round
on the values of the row. -/
theorem row_values_round (i CA : Nat) (conns : Connections) (m : Morgans) (temp : List Int)
    (htemp : ∀ q, (q = 0 ∨ CA < q) → getA 0 temp q = 0) :
    row_values (morgans_round i CA conns (m, temp)).1 i CA =
      morgan_round conns CA (row_values m i CA) := by
  unfold morgans_round morgan_round row_values
  rw [map_range'_eq_iff]
  intro j hj1 hj2
  simp only
  rw [getM_sum_loop]
  have : i = i ∧ 1 ≤ j ∧ j ≤ CA := ⟨rfl, hj1, by omega⟩
  rw [if_pos this]
  congr 1
  apply List.map_congr_left
  intro q _
  exact getA_copy_eq_temp_value i CA m temp htemp q

theorem round_frame (i CA : Nat) (conns : Connections) (m : Morgans) (temp : List Int)
    (a b : Nat) (h : ¬ (a = i ∧ 1 ≤ b ∧ b ≤ CA)) :
    getM (morgans_round i CA conns (m, temp)).1 a b = getM m a b := by
  unfold morgans_round
  simp only
  rw [getM_sum_loop, if_neg h]

theorem round_temp (i CA : Nat) (conns : Connections) (m : Morgans) (temp : List Int)
    (htemp : ∀ q, (q = 0 ∨ CA < q) → getA 0 temp q = 0) :
    ∀ q, (q = 0 ∨ CA < q) → getA 0 (morgans_round i CA conns (m, temp)).2 q = 0 := by
  unfold morgans_round
  exact copy_outside i CA m temp htemp

theorem rounds_loop (i CA : Nat) (conns : Connections) (n s : Nat) (m : Morgans)
    (temp : List Int) (htemp : ∀ q, (q = 0 ∨ CA < q) → getA 0 temp q = 0) :
    row_values (forLoop (fun _ mt => morgans_round i CA conns mt) s n (m, temp)).1 i CA =
        morgan_rounds conns CA n (row_values m i CA) ∧
      ∀ a b, ¬ (a = i ∧ 1 ≤ b ∧ b ≤ CA) →
        getM (forLoop (fun _ mt => morgans_round i CA conns mt) s n (m, temp)).1 a b =
          getM m a b := by
  induction n generalizing s m temp with
  | zero => exact ⟨rfl, fun _ _ _ => rfl⟩
  | succ n ih =>
    rw [forLoop_succ]
    have hpair : morgans_round i CA conns (m, temp) =
        ((morgans_round i CA conns (m, temp)).1, (morgans_round i CA conns (m, temp)).2) := rfl
    rw [hpair]
    obtain ⟨h1, h2⟩ := ih (s + 1) (morgans_round i CA conns (m, temp)).1
      (morgans_round i CA conns (m, temp)).2 (round_temp i CA conns m temp htemp)
    constructor
    · rw [h1, row_values_round i CA conns m temp htemp]
      rfl
    · intro a b hab
      rw [h2 a b hab, round_frame i CA conns m temp a b hab]

theorem row_values_algorithm (i CA : Nat) (m : Morgans) (conns : Connections) :
    row_values (morgans_algorithm i CA m conns) i CA =
      morgan_rounds conns CA (CA / 3 + 1) (row_values m i CA) :=
  (rounds_loop i CA conns (CA / 3 + 1) 0 m [] (fun q _ => getA_nil 0 q)).1

theorem algorithm_frame (i CA : Nat) (m : Morgans) (conns : Connections) (a b : Nat)
    (h : ¬ (a = i ∧ 1 ≤ b ∧ b ≤ CA)) :
    getM (morgans_algorithm i CA m conns) a b = getM m a b :=
  (rounds_loop i CA conns (CA / 3 + 1) 0 m [] (fun q _ => getA_nil 0 q)).2 a b h

/-! ## `morgans_sort` -/

theorem row_values_eq_reverse (m : Morgans) (i c : Nat) :
    row_values m i c = (cells_down m i c).reverse := by
  induction c with
  | zero => rfl
  | succ c ih =>
    unfold row_values at ih ⊢
    rw [List.range'_concat, List.map_append, ih]
    simp [cells_down, Nat.add_comm]

theorem cells_down_congr (m m' : Morgans) (i c : Nat)
    (h : ∀ b, 1 ≤ b → b ≤ c → getM m i b = getM m' i b) :
    cells_down m i c = cells_down m' i c := by
  induction c with
  | zero => rfl
  | succ c ih =>
    simp only [cells_down]
    rw [h (c + 1) (by omega) (le_refl _), ih (fun b h1 h2 => h b h1 (by omega))]

/-- The `while` loop of `morgans_sort` followed by the final assignment inserts
the sentinel into the cells below `compare`. -/
theorem sort_shift_spec (i : Nat) (k : Nat) (m : Morgans) :
    cells_down
        (setM (sort_shift i (k + 1) m).1 i (sort_shift i (k + 1) m).2
          (getM (sort_shift i (k + 1) m).1 i 0)) i (k + 1) =
        insert_rev (getM m i 0) (cells_down m i k) ∧
      ∀ a b, ¬ (a = i ∧ 1 ≤ b ∧ b ≤ k + 1) →
        getM (setM (sort_shift i (k + 1) m).1 i (sort_shift i (k + 1) m).2
          (getM (sort_shift i (k + 1) m).1 i 0)) a b = getM m a b := by
  induction k generalizing m with
  | zero =>
    have hs : sort_shift i 1 m = (m, 1) := by
      simp [sort_shift]
    rw [hs]
    constructor
    · simp [cells_down, insert_rev, getM_setM]
    · intro a b hab
      rw [getM_setM]
      have : ¬ (a = i ∧ b = 1) := fun h => hab ⟨h.1, by omega, by omega⟩
      rw [if_neg this]
  | succ k ih =>
    by_cases hgt : getM m i 0 > getM m i (k + 1)
    · have hs : sort_shift i (k + 2) m =
          sort_shift i (k + 1) (setM m i (k + 2) (getM m i (k + 1))) := by
        rw [sort_shift, if_pos hgt]
      rw [hs]
      obtain ⟨h1, h2⟩ := ih (setM m i (k + 2) (getM m i (k + 1)))
      have h0 : getM (setM m i (k + 2) (getM m i (k + 1))) i 0 = getM m i 0 := by
        rw [getM_setM]
        simp
      constructor
      · rw [cells_down, h1, h0, h2 i (k + 2) (by omega), getM_setM, if_pos ⟨rfl, rfl⟩]
        have hc : cells_down (setM m i (k + 2) (getM m i (k + 1))) i k = cells_down m i k := by
          apply cells_down_congr
          intro b hb1 hb2
          rw [getM_setM]
          have : ¬ (i = i ∧ b = k + 2) := by omega
          rw [if_neg this]
        rw [hc]
        conv_rhs => rw [cells_down, insert_rev, if_pos hgt]
      · intro a b hab
        rw [h2 a b (fun h => hab ⟨h.1, h.2.1, by omega⟩), getM_setM]
        have : ¬ (a = i ∧ b = k + 2) := fun h => hab ⟨h.1, by omega, by omega⟩
        rw [if_neg this]
    · have hs : sort_shift i (k + 2) m = (m, k + 2) := by
        rw [sort_shift, if_neg hgt]
      rw [hs]
      constructor
      · simp only
        rw [cells_down, getM_setM, if_pos ⟨rfl, rfl⟩]
        have hc : cells_down (setM m i (k + 2) (getM m i 0)) i (k + 1) = cells_down m i (k + 1) := by
          apply cells_down_congr
          intro b hb1 hb2
          rw [getM_setM]
          have : ¬ (i = i ∧ b = k + 2) := by omega
          rw [if_neg this]
        rw [hc]
        conv_rhs => rw [cells_down, insert_rev, if_neg hgt]
        rfl
      · intro a b hab
        simp only
        rw [getM_setM]
        have : ¬ (a = i ∧ b = k + 2) := fun h => hab ⟨h.1, by omega, by omega⟩
        rw [if_neg this]

theorem sort_insert_spec (i k : Nat) (m : Morgans) :
    cells_down (sort_insert i (k + 1) m) i (k + 1) =
        insert_rev (getM m i (k + 1)) (cells_down m i k) ∧
      ∀ a b, ¬ (a = i ∧ b ≤ k + 1) → getM (sort_insert i (k + 1) m) a b = getM m a b := by
  unfold sort_insert
  obtain ⟨h1, h2⟩ := sort_shift_spec i k (setM m i 0 (getM m i (k + 1)))
  constructor
  · simp only
    rw [h1, getM_setM, if_pos ⟨rfl, rfl⟩]
    congr 1
    apply cells_down_congr
    intro b hb1 hb2
    rw [getM_setM]
    have : ¬ (i = i ∧ b = 0) := by omega
    rw [if_neg this]
  · intro a b hab
    simp only
    rw [h2 a b (fun h => hab ⟨h.1, h.2.2⟩), getM_setM]
    have : ¬ (a = i ∧ b = 0) := fun h => hab ⟨h.1, by omega⟩
    rw [if_neg this]

theorem sort_rev_concat (acc l : List Int) (x : Int) :
    sort_rev acc (l ++ [x]) = insert_rev x (sort_rev acc l) := by
  induction l generalizing acc with
  | nil => rfl
  | cons a l ih => exact ih (insert_rev a acc)

theorem sort_loop_spec (i CA : Nat) (m : Morgans) (n : Nat) (hn : n + 1 ≤ CA) :
    cells_down (forLoop (fun main m => sort_insert i main m) 2 n m) i (n + 1) =
        sort_rev [] (row_values m i (n + 1)) ∧
      ∀ a b, ¬ (a = i ∧ b ≤ n + 1) →
        getM (forLoop (fun main m => sort_insert i main m) 2 n m) a b = getM m a b := by
  induction n with
  | zero =>
    constructor
    · simp [forLoop, cells_down, row_values, sort_rev, insert_rev]
    · intro a b _
      rfl
  | succ n ih =>
    obtain ⟨h1, h2⟩ := ih (by omega)
    rw [forLoop_succ_last]
    have e : 2 + n = (n + 1) + 1 := by omega
    rw [e]
    obtain ⟨h3, h4⟩ := sort_insert_spec i (n + 1)
      (forLoop (fun main m => sort_insert i main m) 2 n m)
    constructor
    · rw [h3, h1, h2 i (n + 1 + 1) (by omega)]
      have : row_values m i (n + 1 + 1) = row_values m i (n + 1) ++ [getM m i (n + 1 + 1)] := by
        unfold row_values
        rw [List.range'_concat, List.map_append]
        simp [Nat.add_comm]
      rw [this, sort_rev_concat]
    · intro a b hab
      rw [h4 a b hab, h2 a b (fun h => hab ⟨h.1, by omega⟩)]

theorem row_values_sort (i CA : Nat) (m : Morgans) :
    row_values (morgans_sort i CA m) i CA = sort_desc (row_values m i CA) := by
  unfold morgans_sort sort_desc
  cases CA with
  | zero => rfl
  | succ n =>
    rw [row_values_eq_reverse, Nat.add_sub_cancel, (sort_loop_spec i (n + 1) m n (le_refl _)).1]

theorem sort_frame (i CA : Nat) (m : Morgans) (a b : Nat) (h : a ≠ i) :
    getM (morgans_sort i CA m) a b = getM m a b := by
  unfold morgans_sort
  cases CA with
  | zero => rfl
  | succ n =>
    rw [Nat.add_sub_cancel]
    exact (sort_loop_spec i (n + 1) m n (le_refl _)).2 a b (fun h' => h h'.1)

/-! ## `check_morgan_uniqueness` -/

theorem row_values_eq_iff (m m' : Morgans) (i j CA : Nat) :
    row_values m i CA = row_values m' j CA ↔
      ∀ b, 1 ≤ b → b ≤ CA → getM m i b = getM m' j b := by
  unfold row_values
  rw [map_range'_eq_iff]
  constructor
  · intro h b h1 h2
    exact h b h1 (by omega)
  · intro h b h1 h2
    exact h b h1 (by omega)

theorem digit_scan_gt_iff (i cur CA : Nat) (m : Morgans) (n cd : Nat) (h : cd + n = CA + 1) :
    CA < digit_scan i cur CA m n cd ↔ ∀ b, cd ≤ b → b ≤ CA → getM m i b = getM m cur b := by
  induction n generalizing cd with
  | zero =>
    simp only [digit_scan]
    constructor
    · intro _ b h1 h2
      omega
    · intro _
      omega
  | succ n ih =>
    rw [digit_scan]
    by_cases hc : cd ≤ CA ∧ getM m i cd = getM m cur cd
    · rw [if_pos hc, ih (cd + 1) (by omega)]
      constructor
      · intro hall b h1 h2
        rcases Nat.eq_or_lt_of_le h1 with h' | h'
        · rw [← h']
          exact hc.2
        · exact hall b h' h2
      · intro hall b h1 h2
        exact hall b (by omega) h2
    · rw [if_neg hc]
      constructor
      · intro hlt
        omega
      · intro hall
        exact absurd ⟨by omega, hall cd (le_refl _) (by omega)⟩ hc

theorem digit_scan_full_iff (i cur CA : Nat) (m : Morgans) :
    CA < digit_scan i cur CA m CA 1 ↔ row_values m i CA = row_values m cur CA := by
  rw [digit_scan_gt_iff i cur CA m CA 1 (by omega), row_values_eq_iff]

theorem twin_scan_found (i CA : Nat) (m : Morgans) (fuel : Nat) (tf : Int) (cur : Nat)
    (h : tf ≠ 0) : twin_scan i CA m fuel tf cur = (tf, cur) := by
  cases fuel with
  | zero => rfl
  | succ fuel => rw [twin_scan, if_neg h]

/-- The scan stops at the first row whose values equal those of row `isomer`. -/
theorem twin_scan_first (i CA : Nat) (m : Morgans) (fuel cur j0 : Nat)
    (h1 : cur < j0) (h2 : j0 ≤ cur + fuel)
    (hm : row_values m i CA = row_values m j0 CA)
    (hn : ∀ j, cur < j → j < j0 → row_values m i CA ≠ row_values m j CA) :
    twin_scan i CA m fuel 0 cur = (1, j0) := by
  induction fuel generalizing cur with
  | zero => omega
  | succ fuel ih =>
    rw [twin_scan, if_pos rfl]
    simp only
    by_cases hj : cur + 1 = j0
    · subst hj
      have : digit_scan i (cur + 1) CA m CA 1 > CA := (digit_scan_full_iff i (cur + 1) CA m).mpr hm
      rw [if_pos this, twin_scan_found _ _ _ _ _ _ (by decide)]
    · have : ¬ (digit_scan i (cur + 1) CA m CA 1 > CA) := by
        intro hgt
        exact hn (cur + 1) (by omega) (by omega) ((digit_scan_full_iff i (cur + 1) CA m).mp hgt)
      rw [if_neg this]
      exact ih (cur + 1) (by omega) (by omega) (fun j hj1 hj2 => hn j (by omega) hj2)

/-- With `isomer` passes the scan of `check_morgan_uniqueness` has left its loop
through its own exit condition `twin_found`, at a row not after `isomer`. -/
theorem twin_scan_terminates (i CA : Nat) (m : Morgans) (hi : 1 ≤ i) :
    ∃ j0, 1 ≤ j0 ∧ j0 ≤ i ∧ twin_scan i CA m i 0 0 = (1, j0) ∧
      row_values m i CA = row_values m j0 CA ∧
      ∀ j, 1 ≤ j → j < j0 → row_values m i CA ≠ row_values m j CA := by
  classical
  have hex : ∃ j, 1 ≤ j ∧ row_values m i CA = row_values m j CA := ⟨i, hi, rfl⟩
  refine ⟨Nat.find hex, (Nat.find_spec hex).1, Nat.find_min' hex ⟨hi, rfl⟩, ?_,
    (Nat.find_spec hex).2, ?_⟩
  · apply twin_scan_first
    · exact (Nat.find_spec hex).1
    · simpa using Nat.find_min' hex ⟨hi, rfl⟩
    · exact (Nat.find_spec hex).2
    · intro j hj1 hj2 he
      exact Nat.find_min hex hj2 ⟨hj1, he⟩
  · intro j hj1 hj2 he
    exact Nat.find_min hex hj2 ⟨hj1, he⟩

theorem check_unique_eq_one_iff (i CA : Nat) (m : Morgans) (hi : 1 ≤ i) :
    check_morgan_uniqueness i CA m = 1 ↔
      ∀ j, 1 ≤ j → j < i → row_values m j CA ≠ row_values m i CA := by
  obtain ⟨j0, h1, h2, h3, h4, h5⟩ := twin_scan_terminates i CA m hi
  unfold check_morgan_uniqueness
  rw [h3]
  simp only
  constructor
  · intro h j hj1 hj2 he
    have : j0 = i := by
      by_contra hne
      rw [if_neg hne] at h
      exact absurd h (by decide)
    exact h5 j hj1 (by omega) he.symm
  · intro h
    have : j0 = i := by
      by_contra hne
      exact h j0 h1 (by omega) h4.symm
    rw [if_pos this]

theorem check_unique_zero_or_one (i CA : Nat) (m : Morgans) :
    check_morgan_uniqueness i CA m = 1 ∨ check_morgan_uniqueness i CA m = 0 := by
  unfold check_morgan_uniqueness
  simp only
  by_cases h : (twin_scan i CA m i 0 0).2 = i
  · left
    rw [if_pos h]
  · right
    rw [if_neg h]

/-! ## The connectivity table depends on the digits of the slot only -/

theorem get3_storeOf (CA : Nat) (d : List Int) (j : Nat) :
    get3 (storeOf CA d) CA 1 j = digit d j := by
  unfold get3 storeOf digit
  rw [getA_setA, if_pos rfl]
  rfl

theorem splice_scan_congr (st st' : Store) (i i' CA md : Nat)
    (h : ∀ j, 1 ≤ j → j ≤ CA → get3 st CA i j = get3 st' CA i' j)
    (n digit : Nat) (s : SpliceState) (hd : 1 ≤ digit) (hn : digit + n ≤ CA + 1) :
    splice_scan st i CA md n digit s = splice_scan st' i' CA md n digit s := by
  induction n generalizing digit s with
  | zero => rfl
  | succ n ih =>
    rw [splice_scan, splice_scan]
    have hstep : splice_step st i CA md digit s = splice_step st' i' CA md digit s := by
      unfold splice_step
      rw [h digit hd (by omega)]
    rw [hstep, ih (digit + 1) _ (by omega) (by omega)]

theorem splice_digit_congr (st st' : Store) (i i' CA md : Nat)
    (h : ∀ j, 1 ≤ j → j ≤ CA → get3 st CA i j = get3 st' CA i' j)
    (hmd1 : 1 ≤ md) (hmd : md ≤ CA) (c : Connections) :
    splice_digit st i CA md c = splice_digit st' i' CA md c := by
  unfold splice_digit
  simp only
  rw [h md hmd1 hmd]
  rcases Nat.eq_or_lt_of_le hmd with heq | hlt
  · subst heq
    have e : md - (md + 1) = 0 := by omega
    rw [e]
    simp only [splice_scan]
    by_cases hz : get3 st' md i' md = 0
    · simp [hz]
    · simp [hz]
  · rw [h (md + 1) (by omega) (by omega)]
    rw [splice_scan_congr st st' i i' CA md h (CA - (md + 1)) (md + 2) _ (by omega) (by omega)]

theorem connections_eq_connOf (st : Store) (i CA : Nat) :
    forLoop (splice_digit st i CA) 1 CA [] = connOf CA (code_digits st CA i) := by
  unfold connOf
  rw [morgans_splicing_eq]
  simp only
  apply forLoop_congr
  intro md c hmd1 hmd2
  apply splice_digit_congr _ _ _ _ _ _ _ hmd1 (by omega)
  intro j hj1 hj2
  rw [get3_storeOf, digit_code_digits _ _ _ _ hj1 hj2]

/-! ## `check_Isomers` -/

theorem row_values_congr (m m' : Morgans) (i j CA : Nat)
    (h : ∀ b, getM m i b = getM m' j b) : row_values m i CA = row_values m' j CA := by
  rw [row_values_eq_iff]
  intro b _ _
  exact h b

theorem check_Isomers_frame (st : Store) (i CA : Nat) (m : Morgans) (a b : Nat) (h : a ≠ i) :
    getM (check_Isomers st i CA m).2 a b = getM m a b := by
  unfold check_Isomers
  simp only
  rw [sort_frame _ _ _ _ _ h, algorithm_frame _ _ _ _ _ _ (fun h' => h h'.1),
    morgans_splicing_eq]
  simp only
  rw [seed_loop_frame _ _ _ _ _ _ h]

/-- The row of the candidate holds its signature after `check_Isomers`. -/
theorem check_Isomers_row (st : Store) (i CA : Nat) (m : Morgans) :
    row_values (check_Isomers st i CA m).2 i CA = signature CA (code_digits st CA i) := by
  unfold check_Isomers signature
  simp only
  rw [row_values_sort, row_values_algorithm, morgans_splicing_eq]
  simp only
  rw [row_values_seed_loop, connections_eq_connOf]

/-- The result of `check_Isomers` is 1 exactly when no earlier row holds the
signature of the candidate. -/
theorem check_Isomers_result (st : Store) (i CA : Nat) (m : Morgans) (hi : 1 ≤ i) :
    (check_Isomers st i CA m).1 = 1 ↔
      ∀ j, 1 ≤ j → j < i → row_values m j CA ≠ signature CA (code_digits st CA i) := by
  have hrow := check_Isomers_row st i CA m
  have hfr := check_Isomers_frame st i CA m
  have hu := check_unique_eq_one_iff i CA (check_Isomers st i CA m).2 hi
  have e : (check_Isomers st i CA m).1 =
      check_morgan_uniqueness i CA (check_Isomers st i CA m).2 := rfl
  rw [e, hu, hrow]
  constructor
  · intro h j hj1 hj2
    rw [← row_values_congr _ _ j j CA (fun b => hfr j b (by omega))]
    exact h j hj1 hj2
  · intro h j hj1 hj2
    rw [row_values_congr _ _ j j CA (fun b => hfr j b (by omega))]
    exact h j hj1 hj2

theorem check_Isomers_zero_or_one (st : Store) (i CA : Nat) (m : Morgans) :
    (check_Isomers st i CA m).1 = 1 ∨ (check_Isomers st i CA m).1 = 0 :=
  check_unique_zero_or_one i CA _

/-! ## `generate_Isomers` refines the generation on lists -/

theorem forLoop_sim {σ τ : Type} (R : σ → τ → Prop) (f : Nat → σ → σ) (g : Nat → τ → τ)
    (i n : Nat) (s : σ) (t : τ) (h0 : R s t)
    (hstep : ∀ j s t, i ≤ j → j < i + n → R s t → R (f j s) (g j t)) :
    R (forLoop f i n s) (forLoop g i n t) := by
  induction n generalizing i s t with
  | zero => exact h0
  | succ n ih =>
    rw [forLoop_succ, forLoop_succ]
    exact ih (i + 1) _ _ (hstep i s t (le_refl _) (by omega) h0)
      (fun j s t hj1 hj2 h => hstep j s t (by omega) (by omega) h)

theorem code_digits_congr (st st' : Store) (k i i' : Nat)
    (h : ∀ b, 1 ≤ b → b ≤ k → get3 st k i b = get3 st' k i' b) :
    code_digits st k i = code_digits st' k i' := by
  unfold code_digits
  rw [map_range'_eq_iff]
  intro b h1 h2
  exact h b h1 (by omega)

theorem mem_sigs_iff (m : Morgans) (CA n : Nat) (g : List Int) :
    g ∈ (List.range' 1 n).map (fun j => row_values m j CA) ↔
      ∃ j, 1 ≤ j ∧ j < n + 1 ∧ row_values m j CA = g := by
  rw [List.mem_map]
  constructor
  · rintro ⟨j, hj, he⟩
    obtain ⟨h1, h2⟩ := List.mem_range'_1.mp hj
    exact ⟨j, h1, by omega, he⟩
  · rintro ⟨j, h1, h2, he⟩
    exact ⟨j, List.mem_range'_1.mpr ⟨h1, by omega⟩, he⟩

/-- One pass through the body of the loop over `C` keeps the representation. -/
theorem generate_step_represents (st0 : Store) (CA I C : Nat) (hCA : 1 ≤ CA) (hC1 : 1 ≤ C)
    (hC : C ≤ CA - 1) (s : GenState) (p : PState) (h : Represents st0 CA s p) :
    Represents st0 CA (generate_step CA (CA - 1) I C s)
      (generate_step_spec CA (code_digits st0 (CA - 1) I) C p) := by
  obtain ⟨h1, h2, h3, h4, h5⟩ := h
  have hpar : code_digits s.isomers (CA - 1) I = code_digits st0 (CA - 1) I :=
    code_digits_congr _ _ _ _ _ (fun b _ _ => h5 (CA - 1) I b (by omega))
  unfold generate_step generate_step_spec
  by_cases hadm : admissible (code_digits st0 (CA - 1) I) C = true
  · have hv : Isomer_digit_validity_check s.isomers (CA - 1) C I CA ≠ 0 := by
      rw [validity_check_ne_zero _ _ _ _ _ hC1 hC, hpar]
      exact hadm
    rw [if_pos hv, if_pos hadm]
    simp only
    have hcand : code_digits (write_candidate s.isomers CA (CA - 1) I C s.isomer) CA s.isomer =
        extend (code_digits st0 (CA - 1) I) C := by
      rw [code_digits_write_candidate _ _ _ _ _ hCA hC1 hC, hpar]
    have hwf := write_candidate_frame s.isomers CA I C s.isomer hCA hC1 hC
    have hres := check_Isomers_result (write_candidate s.isomers CA (CA - 1) I C s.isomer)
      s.isomer CA s.morgans (by omega)
    have hrow := check_Isomers_row (write_candidate s.isomers CA (CA - 1) I C s.isomer)
      s.isomer CA s.morgans
    have hfr := check_Isomers_frame (write_candidate s.isomers CA (CA - 1) I C s.isomer)
      s.isomer CA s.morgans
    rw [hcand] at hres hrow
    have hmem : signature CA (extend (code_digits st0 (CA - 1) I) C) ∈ p.sigs ↔
        ¬ ((check_Isomers (write_candidate s.isomers CA (CA - 1) I C s.isomer)
          s.isomer CA s.morgans).1 = 1) := by
      rw [hres, ← h4, mem_sigs_iff]
      constructor
      · rintro ⟨j, hj1, hj2, he⟩ hall
        exact hall j hj1 (by omega) he
      · intro hn
        by_contra hex
        apply hn
        intro j hj1 hj2 he
        exact hex ⟨j, hj1, by omega, he⟩
    have hold_codes : ∀ (st' : Store),
        (∀ a b c, ¬ (a = CA ∧ b = s.isomer) → ¬ (a = CA ∧ b = 0) →
          get3 st' a b c = get3 s.isomers a b c) →
        (List.range' 1 p.codes.length).map (code_digits st' CA) = p.codes := by
      intro st' hst'
      refine Eq.trans ?_ h3
      rw [map_range'_eq_iff]
      intro j hj1 hj2
      apply code_digits_congr
      intro b _ _
      exact hst' CA j b (by omega) (by omega)
    have hold_sigs :
        (List.range' 1 p.codes.length).map
          (fun j => row_values (check_Isomers (write_candidate s.isomers CA (CA - 1) I C s.isomer)
            s.isomer CA s.morgans).2 j CA) = p.sigs := by
      refine Eq.trans ?_ h4
      rw [map_range'_eq_iff]
      intro j hj1 hj2
      apply row_values_congr
      intro b
      exact hfr j b (by omega)
    by_cases hacc : (check_Isomers (write_candidate s.isomers CA (CA - 1) I C s.isomer)
        s.isomer CA s.morgans).1 = 1
    · have hne : (check_Isomers (write_candidate s.isomers CA (CA - 1) I C s.isomer)
          s.isomer CA s.morgans).1 ≠ 0 := by
        rw [hacc]
        decide
      have hnm : ¬ signature CA (extend (code_digits st0 (CA - 1) I) C) ∈ p.sigs := by
        rw [hmem]
        exact fun h => h hacc
      rw [if_pos hne]
      unfold accept
      rw [if_neg hnm]
      refine ⟨?_, ?_, ?_, ?_, ?_⟩
      · simp [h1]
      · simp only
        rw [get3_set3, if_pos ⟨rfl, rfl, rfl⟩, hwf CA 0 0 (by omega), h2]
        simp
      · simp only [List.length_append, List.length_singleton]
        rw [List.range'_concat, List.map_append]
        congr 1
        · apply hold_codes
          intro a b c hab hab0
          rw [get3_set3]
          have : ¬ (a = CA ∧ b = 0 ∧ c = 0) := fun h => hab0 ⟨h.1, h.2.1⟩
          rw [if_neg this, hwf a b c hab]
        · simp only [List.map_cons, List.map_nil, List.cons.injEq, and_true]
          have e : 1 + 1 * p.codes.length = s.isomer := by omega
          rw [e, ← hcand]
          apply code_digits_congr
          intro b hb1 _
          rw [get3_set3]
          have : ¬ (CA = CA ∧ s.isomer = 0 ∧ b = 0) := by omega
          rw [if_neg this]
      · simp only [List.length_append, List.length_singleton]
        rw [List.range'_concat, List.map_append]
        congr 1
        simp only [List.map_cons, List.map_nil, List.cons.injEq, and_true]
        have e : 1 + 1 * p.codes.length = s.isomer := by omega
        rw [e, hrow]
      · intro a b c ha
        simp only
        rw [get3_set3]
        have : ¬ (a = CA ∧ b = 0 ∧ c = 0) := fun h => ha h.1
        rw [if_neg this, hwf a b c (fun h => ha h.1), h5 a b c ha]
    · have hz : ¬ ((check_Isomers (write_candidate s.isomers CA (CA - 1) I C s.isomer)
          s.isomer CA s.morgans).1 ≠ 0) := by
        rcases check_Isomers_zero_or_one (write_candidate s.isomers CA (CA - 1) I C s.isomer)
          s.isomer CA s.morgans with h' | h'
        · exact absurd h' hacc
        · rw [h']
          simp
      have hm : signature CA (extend (code_digits st0 (CA - 1) I) C) ∈ p.sigs := by
        rw [hmem]
        exact hacc
      rw [if_neg hz]
      unfold accept
      rw [if_pos hm]
      refine ⟨h1, ?_, ?_, hold_sigs, ?_⟩
      · simp only
        rw [hwf CA 0 0 (by omega), h2]
      · apply hold_codes
        intro a b c hab _
        exact hwf a b c hab
      · intro a b c ha
        simp only
        rw [hwf a b c (fun h => ha h.1), h5 a b c ha]
  · have hv : ¬ (Isomer_digit_validity_check s.isomers (CA - 1) C I CA ≠ 0) := by
      rw [validity_check_ne_zero _ _ _ _ _ hC1 hC, hpar]
      exact hadm
    rw [if_neg hv, if_neg hadm]
    exact ⟨h1, h2, h3, h4, h5⟩

theorem foldl_filter_map {α β σ : Type} (f : σ → β → σ) (q : α → Bool) (g : α → β)
    (l : List α) (s : σ) :
    l.foldl (fun t a => if q a = true then f t (g a) else t) s =
      ((l.filter q).map g).foldl f s := by
  induction l generalizing s with
  | nil => rfl
  | cons a l ih =>
    rw [List.foldl_cons, ih]
    by_cases h : q a = true
    · rw [if_pos h, List.filter_cons_of_pos h, List.map_cons, List.foldl_cons]
    · rw [if_neg h, List.filter_cons_of_neg h]

theorem foldl_flatMap' {α β σ : Type} (f : σ → β → σ) (g : α → List β) (l : List α) (s : σ) :
    l.foldl (fun t a => (g a).foldl f t) s = (l.flatMap g).foldl f s := by
  induction l generalizing s with
  | nil => rfl
  | cons a l ih =>
    rw [List.foldl_cons, ih, List.flatMap_cons, List.foldl_append]

theorem spec_inner_loop (CA : Nat) (d : List Int) (p : PState) :
    forLoop (generate_step_spec CA d) 1 (CA - 1) p =
      (((List.range' 1 (CA - 1)).filter (admissible d)).map (extend d)).foldl (accept CA) p := by
  rw [forLoop_eq_foldl]
  exact foldl_filter_map (accept CA) (admissible d) (extend d) _ p

theorem spec_outer_loop (CA : Nat) (st0 : Store) (N : Nat) (p : PState) :
    forLoop (fun I p => forLoop (generate_step_spec CA (code_digits st0 (CA - 1) I)) 1 (CA - 1) p)
        1 N p =
      (candidates CA ((List.range' 1 N).map (code_digits st0 (CA - 1)))).foldl (accept CA) p := by
  rw [forLoop_eq_foldl]
  unfold candidates
  rw [← foldl_flatMap', List.foldl_map]
  congr 1
  funext t I
  exact spec_inner_loop CA _ t

/-- The function `generate_Isomers` computes the generation on lists from the
accepted codes of the previous carbon count. -/
theorem generate_Isomers_represents (st : Store) (CA mx : Nat) (m0 : Morgans) (hCA : 1 ≤ CA) :
    Represents st CA (generate_Isomers st CA mx m0)
      (generate CA (accepted_codes st (CA - 1))) := by
  unfold generate_Isomers generate accepted_codes
  simp only
  rw [← spec_outer_loop]
  apply forLoop_sim (Represents st CA)
  · refine ⟨rfl, ?_, rfl, rfl, ?_⟩
    · simp only
      rw [get3_set3, if_pos ⟨rfl, rfl, rfl⟩]
      rfl
    · intro a b c ha
      simp only
      rw [get3_set3]
      have : ¬ (a = CA ∧ b = 0 ∧ c = 0) := fun h => ha h.1
      rw [if_neg this]
  · intro I s p _ _ hrep
    apply forLoop_sim (Represents st CA)
    · exact hrep
    · intro C s p hC1 hC2 hrep
      exact generate_step_represents st CA I C hCA hC1 (by omega) s p hrep

/-! ## The main loop -/

theorem accepted_codes_congr (st st' : Store) (k : Nat)
    (h0 : get3 st k 0 0 = get3 st' k 0 0)
    (h : ∀ i b, 1 ≤ i → 1 ≤ b → get3 st k i b = get3 st' k i b) :
    accepted_codes st k = accepted_codes st' k := by
  unfold accepted_codes
  rw [h0, map_range'_eq_iff]
  intro i hi1 _
  apply code_digits_congr
  intro b hb1 _
  exact h i b hi1 hb1

theorem accepted_codes_of_represents (st0 : Store) (CA : Nat) (s : GenState) (p : PState)
    (h : Represents st0 CA s p) : accepted_codes s.isomers CA = p.codes := by
  obtain ⟨_, h2, h3, _, _⟩ := h
  unfold accepted_codes
  rw [h2, Int.toNat_ofNat]
  exact h3

theorem get3_print_Isomers (st : Store) (CA : Nat) (gf : Bool) (a b c : Nat)
    (h : ¬ (a = 1 ∧ b = 1 ∧ c = 0)) :
    get3 (print_Isomers st CA gf) a b c = get3 st a b c := by
  unfold print_Isomers
  by_cases hc : get3 st 1 1 0 = 0 ∧ gf = true
  · rw [if_pos hc, get3_set3, if_neg h]
  · rw [if_neg hc]

theorem level_succ (n : Nat) : level (n + 1) = (generate (n + 2) (level n)).codes := rfl

theorem methane_count : get3 methane 1 0 0 = 1 := by decide

theorem methane_codes : accepted_codes methane 1 = [[0]] := by decide

/-- After the main loop every carbon count up to the last holds the codes of
the generation on lists. -/
theorem main_loop_inv (gf : Bool) (n : Nat) :
    ∀ k, 1 ≤ k → k < 2 + n →
      get3 (forLoop
        (fun CarbonAmount isomers =>
          print_Isomers (generate_Isomers isomers CarbonAmount maxIsomers []).isomers
            CarbonAmount gf) 2 n methane) k 0 0 = ((level (k - 1)).length : Int) ∧
      accepted_codes (forLoop
        (fun CarbonAmount isomers =>
          print_Isomers (generate_Isomers isomers CarbonAmount maxIsomers []).isomers
            CarbonAmount gf) 2 n methane) k = level (k - 1) := by
  apply forLoop_inv
    (fun CarbonAmount isomers =>
      print_Isomers (generate_Isomers isomers CarbonAmount maxIsomers []).isomers
        CarbonAmount gf)
    (fun j st => ∀ k, 1 ≤ k → k < j →
      get3 st k 0 0 = ((level (k - 1)).length : Int) ∧ accepted_codes st k = level (k - 1))
  · intro k hk1 hk2
    have : k = 1 := by omega
    subst this
    exact ⟨methane_count, methane_codes⟩
  · intro j st hj1 _ ih k hk1 hk2
    have hrep := generate_Isomers_represents st j maxIsomers [] (by omega)
    have hpr : ∀ a b c, ¬ (a = 1 ∧ b = 1 ∧ c = 0) →
        get3 (print_Isomers (generate_Isomers st j maxIsomers []).isomers j gf) a b c =
          get3 (generate_Isomers st j maxIsomers []).isomers a b c :=
      fun a b c h => get3_print_Isomers _ _ _ a b c h
    have hacc : accepted_codes
        (print_Isomers (generate_Isomers st j maxIsomers []).isomers j gf) k =
          accepted_codes (generate_Isomers st j maxIsomers []).isomers k :=
      accepted_codes_congr _ _ k (hpr k 0 0 (by omega)) (fun i b _ hb => hpr k i b (by omega))
    rw [hacc, hpr k 0 0 (by omega)]
    rcases Nat.lt_succ_iff_lt_or_eq.mp hk2 with hlt | heq
    · obtain ⟨_, _, _, _, h5⟩ := hrep
      have hacc2 : accepted_codes (generate_Isomers st j maxIsomers []).isomers k =
          accepted_codes st k :=
        accepted_codes_congr _ _ k (h5 k 0 0 (by omega)) (fun i b _ _ => h5 k i b (by omega))
      rw [hacc2, h5 k 0 0 (by omega)]
      exact ih k hk1 hlt
    · subst heq
      have hprev := (ih (k - 1) (by omega) (by omega)).2
      rw [hprev] at hrep
      have e : k - 1 = (k - 1 - 1) + 1 := by omega
      have e2 : k = (k - 1 - 1) + 2 := by omega
      have hl : level (k - 1) = (generate k (level (k - 1 - 1))).codes := by
        conv_lhs => rw [e, level_succ]
        rw [← e2]
      rw [hl]
      exact ⟨hrep.2.1, accepted_codes_of_represents _ _ _ _ hrep⟩

theorem main_loop_levels (gf : Bool) (last k : Nat) (hk1 : 1 ≤ k) (hk : k ≤ last) :
    get3 (main_loop gf last) k 0 0 = ((level (k - 1)).length : Int) ∧
      accepted_codes (main_loop gf last) k = level (k - 1) :=
  main_loop_inv gf (last - 1) k hk1 (by omega)

theorem levels_head (n : Nat) : ∃ r, levels n = level n :: r := by
  induction n with
  | zero => exact ⟨[], rfl⟩
  | succ n ih =>
    obtain ⟨r, hr⟩ := ih
    refine ⟨level n :: r, ?_⟩
    rw [levels, hr]
    rfl

theorem levels_succ (n : Nat) : levels (n + 1) = level (n + 1) :: levels n := by
  obtain ⟨r, hr⟩ := levels_head n
  rw [levels, hr]
  rfl

/-! ## The generation on lists -/

theorem first_of_each_sublist {α β : Type} [DecidableEq β] (f : α → β) (seen : List β)
    (l : List α) : (first_of_each f seen l).Sublist l := by
  induction l generalizing seen with
  | nil => exact List.Sublist.refl _
  | cons x l ih =>
    rw [first_of_each]
    by_cases h : f x ∈ seen
    · rw [if_pos h]
      exact List.Sublist.cons _ (ih _)
    · rw [if_neg h]
      exact List.Sublist.cons₂ _ (ih _)

theorem accept_codes (CA : Nat) (p : PState) (c : List Int) :
    (accept CA p c).codes = if signature CA c ∈ p.sigs then p.codes else p.codes ++ [c] := by
  unfold accept
  by_cases h : signature CA c ∈ p.sigs
  · rw [if_pos h, if_pos h]
  · rw [if_neg h, if_neg h]

theorem accept_sigs (CA : Nat) (p : PState) (c : List Int) :
    (accept CA p c).sigs =
      if signature CA c ∈ p.sigs then p.sigs else p.sigs ++ [signature CA c] := by
  unfold accept
  by_cases h : signature CA c ∈ p.sigs
  · rw [if_pos h, if_pos h]
  · rw [if_neg h, if_neg h]

/-- Folding `accept` over a sequence keeps the first candidate of each signature. -/
theorem foldl_accept_codes (CA : Nat) (l : List (List Int)) (p : PState) (seen : List (List Int))
    (hseen : ∀ g, g ∈ p.sigs ↔ g ∈ seen) :
    (l.foldl (accept CA) p).codes = p.codes ++ first_of_each (signature CA) seen l := by
  induction l generalizing p seen with
  | nil => simp [first_of_each]
  | cons c l ih =>
    rw [List.foldl_cons, first_of_each]
    have hs : ∀ g, g ∈ (accept CA p c).sigs ↔ g ∈ signature CA c :: seen := by
      intro g
      rw [accept_sigs]
      by_cases h : signature CA c ∈ p.sigs
      · rw [if_pos h, List.mem_cons, hseen g]
        constructor
        · exact fun hg => Or.inr hg
        · rintro (rfl | hg)
          · exact (hseen _).mp h
          · exact hg
      · rw [if_neg h, List.mem_append, List.mem_singleton, List.mem_cons, hseen g]
        exact or_comm
    rw [ih (accept CA p c) (signature CA c :: seen) hs, accept_codes]
    by_cases h : signature CA c ∈ p.sigs
    · rw [if_pos h, if_pos ((hseen _).mp h)]
    · rw [if_neg h, if_neg (fun h' => h ((hseen _).mpr h')), List.append_assoc]
      rfl

theorem generate_codes (CA : Nat) (parents : List (List Int)) :
    (generate CA parents).codes =
      first_of_each (signature CA) [] (candidates CA parents) := by
  unfold generate
  rw [foldl_accept_codes CA _ _ [] (fun g => Iff.rfl)]
  rfl

/-- The invariant of the accepted lists: every signature belongs to the code at
the same index, and no signature occurs twice. -/
theorem accept_inv (CA : Nat) (p : PState) (c : List Int)
    (h : p.sigs = p.codes.map (signature CA) ∧ p.sigs.Nodup) :
    (accept CA p c).sigs = (accept CA p c).codes.map (signature CA) ∧
      (accept CA p c).sigs.Nodup := by
  rw [accept_sigs, accept_codes]
  by_cases hm : signature CA c ∈ p.sigs
  · rw [if_pos hm, if_pos hm]
    exact h
  · rw [if_neg hm, if_neg hm]
    constructor
    · rw [List.map_append, ← h.1]
      rfl
    · rw [List.nodup_append]
      refine ⟨h.2, List.nodup_singleton _, ?_⟩
      intro a ha hb
      rw [List.mem_singleton] at hb
      subst hb
      exact hm ha

theorem generate_step_spec_inv (CA : Nat) (d : List Int) (C : Nat) (p : PState)
    (h : p.sigs = p.codes.map (signature CA) ∧ p.sigs.Nodup) :
    (generate_step_spec CA d C p).sigs = (generate_step_spec CA d C p).codes.map (signature CA) ∧
      (generate_step_spec CA d C p).sigs.Nodup := by
  unfold generate_step_spec
  by_cases ha : admissible d C = true
  · rw [if_pos ha]
    exact accept_inv CA p _ h
  · rw [if_neg ha]
    exact h

theorem forLoop_preserves {σ : Type} (P : σ → Prop) (f : Nat → σ → σ)
    (hstep : ∀ j s, P s → P (f j s)) (i n : Nat) (s : σ) (h0 : P s) :
    P (forLoop f i n s) := by
  induction n generalizing i s with
  | zero => exact h0
  | succ n ih =>
    rw [forLoop_succ]
    exact ih (i + 1) _ (hstep i s h0)

theorem mem_candidates (CA : Nat) (parents : List (List Int)) (c : List Int) :
    c ∈ candidates CA parents ↔
      ∃ d, d ∈ parents ∧ ∃ C, 1 ≤ C ∧ C ≤ CA - 1 ∧ admissible d C = true ∧ c = extend d C := by
  unfold candidates
  rw [List.mem_flatMap]
  constructor
  · rintro ⟨d, hd, hc⟩
    rw [List.mem_map] at hc
    obtain ⟨C, hC, rfl⟩ := hc
    rw [List.mem_filter, List.mem_range'_1] at hC
    exact ⟨d, hd, C, hC.1.1, by omega, hC.2, rfl⟩
  · rintro ⟨d, hd, C, h1, h2, h3, rfl⟩
    refine ⟨d, hd, ?_⟩
    rw [List.mem_map]
    refine ⟨C, ?_, rfl⟩
    rw [List.mem_filter, List.mem_range'_1]
    exact ⟨⟨h1, by omega⟩, h3⟩

theorem length_candidates_le (CA : Nat) (parents : List (List Int)) :
    (candidates CA parents).length ≤ parents.length * (CA - 1) := by
  unfold candidates
  induction parents with
  | nil => simp
  | cons d l ih =>
    rw [List.flatMap_cons, List.length_append, List.length_cons, Nat.succ_mul, List.length_map]
    have : ((List.range' 1 (CA - 1)).filter (admissible d)).length ≤ CA - 1 := by
      have := List.length_filter_le (admissible d) (List.range' 1 (CA - 1))
      simpa using this
    omega

/-! ## Degree invariants of the generated codes -/

theorem admissible_iff (d : List Int) (C : Nat) :
    admissible d C = true ↔
      (C = 1 ∧ digit d 1 < 4) ∨ (C ≠ 1 ∧ digit d C < 3 ∧ digit d C + 1 < digit d 1) := by
  unfold admissible
  simp only [Bool.or_eq_true, Bool.and_eq_true, decide_eq_true_eq, Bool.not_eq_true',
    decide_eq_false_iff_not, ne_eq, and_assoc]

theorem extend_ok (d : List Int) (C : Nat) (h1 : 1 ≤ C) (h2 : C ≤ d.length)
    (ha : admissible d C = true) (hok : code_ok d) : code_ok (extend d C) := by
  obtain ⟨hr0, hr4, hrest⟩ := hok
  rw [admissible_iff] at ha
  have hlen := length_extend d C h1 h2
  rcases ha with ⟨hC, hlt⟩ | ⟨hC, hlt3, hltr⟩
  · subst hC
    have hroot : digit (extend d 1) 1 = digit d 1 + 1 := by
      rw [digit_extend d 1 h1 h2 1 (le_refl _)]
      simp
    refine ⟨by rw [hroot]; omega, by rw [hroot]; omega, ?_⟩
    intro j hj2 hj
    rw [hroot, digit_extend d 1 h1 h2 j (by omega)]
    have e1 : ¬ (j < 1) := by omega
    have e2 : ¬ (j = 1) := by omega
    rw [if_neg e1, if_neg e2]
    by_cases h3 : j = 1 + 1
    · rw [if_pos h3]
      omega
    · rw [if_neg h3]
      obtain ⟨a, b, c⟩ := hrest (j - 1) (by omega) (by omega)
      omega
  · have hC2 : 2 ≤ C := by omega
    have hroot : digit (extend d C) 1 = digit d 1 := by
      rw [digit_extend d C h1 h2 1 (le_refl _)]
      have : 1 < C := by omega
      rw [if_pos this]
    obtain ⟨hc0, _, _⟩ := hrest C hC2 h2
    refine ⟨by rw [hroot]; exact hr0, by rw [hroot]; exact hr4, ?_⟩
    intro j hj2 hj
    rw [hroot, digit_extend d C h1 h2 j (by omega)]
    by_cases e1 : j < C
    · rw [if_pos e1]
      exact hrest j hj2 (by omega)
    · rw [if_neg e1]
      by_cases e2 : j = C
      · rw [if_pos e2]
        omega
      · rw [if_neg e2]
        by_cases e3 : j = C + 1
        · rw [if_pos e3]
          omega
        · rw [if_neg e3]
          exact hrest (j - 1) (by omega) (by omega)

theorem level_ok (n : Nat) : ∀ d, d ∈ level n → d.length = n + 1 ∧ code_ok d := by
  induction n with
  | zero =>
    intro d hd
    have : d = [0] := by simpa [level] using hd
    subst this
    refine ⟨rfl, by decide, by decide, ?_⟩
    intro j hj2 hj
    simp at hj
    omega
  | succ n ih =>
    intro c hc
    rw [level_succ, generate_codes] at hc
    have hc' := (first_of_each_sublist (signature (n + 2)) [] _).subset hc
    rw [mem_candidates] at hc'
    obtain ⟨d, hd, C, hC1, hC2, hadm, rfl⟩ := hc'
    obtain ⟨hlen, hok⟩ := ih d hd
    have hC : C ≤ d.length := by omega
    exact ⟨by rw [length_extend d C hC1 hC, hlen], extend_ok d C hC1 hC hadm hok⟩

/-! ## Every state reached by the loops of `generate_Isomers` -/

theorem generate_Isomers_eq_after (st : Store) (CA mx : Nat) (m0 : Morgans) :
    generate_Isomers st CA mx m0 =
      generate_after st CA m0 (get3 st (CA - 1) 0 0).toNat 0 := rfl

/-- A relation between the states of the loops and lists that holds at the start
and is kept by every pass of the inner loop holds at every point of the loops. -/
theorem generate_after_sim (st : Store) (CA : Nat) (m0 : Morgans)
    (R : GenState → PState → Prop)
    (h0 : R (generate_start st CA m0) { codes := [], sigs := [] })
    (hstep : ∀ I C s p, 1 ≤ I → 1 ≤ C → C ≤ CA - 1 → R s p →
      R (generate_step CA (CA - 1) I C s) (generate_step_spec CA (code_digits st (CA - 1) I) C p))
    (I C : Nat) (hC : C ≤ CA - 1) :
    ∃ p, R (generate_after st CA m0 I C) p := by
  unfold generate_after
  have hout : ∃ p, R (forLoop
      (fun I s => forLoop (fun C s => generate_step CA (CA - 1) I C s) 1 (CA - 1) s)
      1 I (generate_start st CA m0)) p := by
    refine ⟨forLoop (fun I p =>
      forLoop (generate_step_spec CA (code_digits st (CA - 1) I)) 1 (CA - 1) p) 1 I
        { codes := [], sigs := [] }, ?_⟩
    apply forLoop_sim R
    · exact h0
    · intro I' s p hI1 _ hR
      apply forLoop_sim R
      · exact hR
      · intro C' s p hC1 hC2 hR
        exact hstep I' C' s p hI1 hC1 (by omega) hR
  obtain ⟨p, hp⟩ := hout
  refine ⟨forLoop (generate_step_spec CA (code_digits st (CA - 1) (I + 1))) 1 C p, ?_⟩
  apply forLoop_sim R
  · exact hp
  · intro C' s p hC1 hC2 hR
    exact hstep (I + 1) C' s p (by omega) hC1 (by omega) hR

theorem represents_start (st : Store) (CA : Nat) (m0 : Morgans) :
    Represents st CA (generate_start st CA m0) { codes := [], sigs := [] } := by
  refine ⟨rfl, ?_, rfl, rfl, ?_⟩
  · unfold generate_start
    simp only
    rw [get3_set3, if_pos ⟨rfl, rfl, rfl⟩]
    rfl
  · intro a b c ha
    unfold generate_start
    simp only
    rw [get3_set3]
    have : ¬ (a = CA ∧ b = 0 ∧ c = 0) := fun h => ha h.1
    rw [if_neg this]

/-- At every point of the loops the state represents lists whose signatures
belong to the codes and are pairwise different. -/
theorem generate_after_represents (st : Store) (CA : Nat) (m0 : Morgans) (hCA : 1 ≤ CA)
    (I C : Nat) (hC : C ≤ CA - 1) :
    ∃ p, Represents st CA (generate_after st CA m0 I C) p ∧
      p.sigs = p.codes.map (signature CA) ∧ p.sigs.Nodup := by
  apply generate_after_sim st CA m0
    (fun s p => Represents st CA s p ∧ p.sigs = p.codes.map (signature CA) ∧ p.sigs.Nodup)
  · exact ⟨represents_start st CA m0, rfl, List.nodup_nil⟩
  · intro I' C' s p _ hC1 hC2 hR
    exact ⟨generate_step_represents st CA I' C' hCA hC1 hC2 s p hR.1,
      generate_step_spec_inv CA _ C' p hR.2⟩
  · exact hC

/-! ## Cells after the last digit -/

theorem generate_step_beyond (st0 : Store) (CA I C : Nat) (hCA : 1 ≤ CA) (hI : 1 ≤ I)
    (hC1 : 1 ≤ C) (hC : C ≤ CA - 1) (s : GenState)
    (hframe : ∀ a b c, a ≠ CA → get3 s.isomers a b c = get3 st0 a b c)
    (hpar : ∀ i c, 1 ≤ i → CA - 1 < c → get3 st0 (CA - 1) i c = -1)
    (hs : ∀ i c, 1 ≤ i → CA < c → get3 s.isomers CA i c = -1) :
    ∀ i c, 1 ≤ i → CA < c → get3 (generate_step CA (CA - 1) I C s).isomers CA i c = -1 := by
  intro i c hi hc
  have hw : get3 (write_candidate s.isomers CA (CA - 1) I C s.isomer) CA i c = -1 := by
    rw [get3_write_candidate s.isomers CA (CA - 1) I C s.isomer (by omega) hC1 (by omega)]
    by_cases hx : CA = CA ∧ i = s.isomer ∧ 1 ≤ c ∧ c ≤ CA + 1
    · rw [if_pos hx]
      have e1 : ¬ (c < C) := by omega
      have e2 : ¬ (c = C) := by omega
      have e3 : ¬ (c = C + 1) := by omega
      rw [if_neg e1, if_neg e2, if_neg e3, hframe (CA - 1) I (c - 1) (by omega)]
      exact hpar I (c - 1) hI (by omega)
    · rw [if_neg hx]
      exact hs i c hi hc
  unfold generate_step
  by_cases hv : Isomer_digit_validity_check s.isomers (CA - 1) C I CA ≠ 0
  · rw [if_pos hv]
    simp only
    by_cases hr : (check_Isomers (write_candidate s.isomers CA (CA - 1) I C s.isomer)
        s.isomer CA s.morgans).1 ≠ 0
    · rw [if_pos hr]
      simp only
      rw [get3_set3]
      have : ¬ (CA = CA ∧ i = 0 ∧ c = 0) := by omega
      rw [if_neg this]
      exact hw
    · rw [if_neg hr]
      exact hw
  · rw [if_neg hv]
    exact hs i c hi hc

/-- When the cells after the last digit hold -1 in every slot of the previous
carbon count and of the fresh carbon count, they do so after `generate_Isomers`. -/
theorem generate_Isomers_beyond (st : Store) (CA mx : Nat) (m0 : Morgans) (hCA : 1 ≤ CA)
    (hpar : ∀ i c, 1 ≤ i → CA - 1 < c → get3 st (CA - 1) i c = -1)
    (hfresh : ∀ i c, 1 ≤ i → CA < c → get3 st CA i c = -1) :
    ∀ i c, 1 ≤ i → CA < c → get3 (generate_Isomers st CA mx m0).isomers CA i c = -1 := by
  rw [generate_Isomers_eq_after]
  obtain ⟨p, hp⟩ := generate_after_sim st CA m0
    (fun s p => Represents st CA s p ∧
      ∀ i c, 1 ≤ i → CA < c → get3 s.isomers CA i c = -1)
    (by
      refine ⟨represents_start st CA m0, ?_⟩
      intro i c hi hc
      unfold generate_start
      simp only
      rw [get3_set3]
      have : ¬ (CA = CA ∧ i = 0 ∧ c = 0) := by omega
      rw [if_neg this]
      exact hfresh i c hi hc)
    (by
      intro I' C' s p hI1 hC1 hC2 hR
      exact ⟨generate_step_represents st CA I' C' hCA hC1 hC2 s p hR.1,
        generate_step_beyond st CA I' C' hCA hI1 hC1 hC2 s hR.1.2.2.2.2 hpar hR.2⟩)
    (get3 st (CA - 1) 0 0).toNat 0 (by omega)
  exact hp.2

theorem get3_nil (a b c : Nat) : get3 [] a b c = -1 := by
  unfold get3
  rw [getA_nil, getA_nil, getA_nil]

theorem get3_methane (a b c : Nat) :
    get3 methane a b c =
      if a = 1 ∧ b = 0 ∧ c = 0 then 1
      else if a = 1 ∧ b = 1 ∧ c = 0 then 0
      else if a = 1 ∧ b = 1 ∧ c = 1 then 0
      else -1 := by
  unfold methane
  rw [get3_set3, get3_set3, get3_set3, get3_nil]

theorem main_loop_beyond (gf : Bool) (n : Nat) :
    (∀ k b c, 2 + n ≤ k → get3 (forLoop
        (fun CarbonAmount isomers =>
          print_Isomers (generate_Isomers isomers CarbonAmount maxIsomers []).isomers
            CarbonAmount gf) 2 n methane) k b c = -1) ∧
      ∀ k i c, 1 ≤ k → k < 2 + n → 1 ≤ i → k < c → get3 (forLoop
        (fun CarbonAmount isomers =>
          print_Isomers (generate_Isomers isomers CarbonAmount maxIsomers []).isomers
            CarbonAmount gf) 2 n methane) k i c = -1 := by
  apply forLoop_inv
    (fun CarbonAmount isomers =>
      print_Isomers (generate_Isomers isomers CarbonAmount maxIsomers []).isomers
        CarbonAmount gf)
    (fun j st => (∀ k b c, j ≤ k → get3 st k b c = -1) ∧
      ∀ k i c, 1 ≤ k → k < j → 1 ≤ i → k < c → get3 st k i c = -1)
  · constructor
    · intro k b c hk
      rw [get3_methane]
      have e1 : ¬ (k = 1 ∧ b = 0 ∧ c = 0) := by omega
      have e2 : ¬ (k = 1 ∧ b = 1 ∧ c = 0) := by omega
      have e3 : ¬ (k = 1 ∧ b = 1 ∧ c = 1) := by omega
      rw [if_neg e1, if_neg e2, if_neg e3]
    · intro k i c hk1 hk2 hi hc
      rw [get3_methane]
      have e1 : ¬ (k = 1 ∧ i = 0 ∧ c = 0) := by omega
      have e2 : ¬ (k = 1 ∧ i = 1 ∧ c = 0) := by omega
      have e3 : ¬ (k = 1 ∧ i = 1 ∧ c = 1) := by omega
      rw [if_neg e1, if_neg e2, if_neg e3]
  · intro j st hj1 _ ih
    obtain ⟨ih1, ih2⟩ := ih
    have hrep := generate_Isomers_represents st j maxIsomers [] (by omega)
    have hfr := hrep.2.2.2.2
    have hbey := generate_Isomers_beyond st j maxIsomers [] (by omega)
      (fun i c hi hc => ih2 (j - 1) i c (by omega) (by omega) hi hc)
      (fun i c _ _ => ih1 j i c (le_refl _))
    constructor
    · intro k b c hk
      rw [get3_print_Isomers _ _ _ _ _ _ (by omega), hfr k b c (by omega)]
      exact ih1 k b c (by omega)
    · intro k i c hk1 hk2 hi hc
      rw [get3_print_Isomers _ _ _ _ _ _ (by omega)]
      rcases Nat.lt_succ_iff_lt_or_eq.mp hk2 with hlt | heq
      · rw [hfr k i c (by omega)]
        exact ih2 k i c hk1 hlt hi hc
      · subst heq
        exact hbey i c hi hc

/-! ## The connectivity table as a list of bonds -/

theorem getC_nil (a b : Nat) : getC [] a b = 0 := by
  unfold getC
  rw [getA_nil, getA_nil]

theorem neighbours_nil (q : Nat) : neighbours [] q = [] := by
  unfold neighbours
  rw [getC_nil]
  rfl

theorem getC_record_bond (T : Connections) (a b : Nat) (hab : a ≠ b) (q j : Nat) :
    getC (record_bond T a b) q j =
      if q = b ∧ j = getC T b 0 + 1 then a
      else if q = b ∧ j = 0 then getC T b 0 + 1
      else if q = a ∧ j = getC T a 0 + 1 then b
      else if q = a ∧ j = 0 then getC T a 0 + 1
      else getC T q j := by
  unfold record_bond
  simp only
  have h1 : getC (setC T a 0 (getC T a 0 + 1)) a 0 = getC T a 0 + 1 := by
    rw [getC_setC, if_pos ⟨rfl, rfl⟩]
  rw [h1]
  have h2 : getC (setC (setC T a 0 (getC T a 0 + 1)) a (getC T a 0 + 1) b) b 0 =
      getC T b 0 := by
    rw [getC_setC, getC_setC]
    have e1 : ¬ (b = a ∧ 0 = getC T a 0 + 1) := fun h => hab h.1.symm
    have e2 : ¬ (b = a ∧ 0 = 0) := fun h => hab h.1.symm
    rw [if_neg e1, if_neg e2]
  rw [h2]
  have h3 : getC (setC (setC (setC T a 0 (getC T a 0 + 1)) a (getC T a 0 + 1) b) b 0
      (getC T b 0 + 1)) b 0 = getC T b 0 + 1 := by
    rw [getC_setC, if_pos ⟨rfl, rfl⟩]
  rw [h3, getC_setC, getC_setC, getC_setC, getC_setC]

theorem neighbours_record_bond (T : Connections) (a b : Nat) (hab : a ≠ b) (q : Nat) :
    neighbours (record_bond T a b) q =
      neighbours T q ++ (if a = q then [b] else if b = q then [a] else []) := by
  unfold neighbours
  by_cases hqa : a = q
  · subst hqa
    rw [if_pos rfl]
    have hc : getC (record_bond T a b) a 0 = getC T a 0 + 1 := by
      rw [getC_record_bond T a b hab]
      have e1 : ¬ (a = b ∧ 0 = getC T b 0 + 1) := fun h => hab h.1
      have e2 : ¬ (a = b ∧ 0 = 0) := fun h => hab h.1
      have e3 : ¬ (a = a ∧ 0 = getC T a 0 + 1) := by omega
      rw [if_neg e1, if_neg e2, if_neg e3, if_pos ⟨rfl, rfl⟩]
    rw [hc, List.range'_concat, List.map_append]
    congr 1
    · rw [map_range'_eq_iff]
      intro j hj1 hj2
      rw [getC_record_bond T a b hab]
      have e1 : ¬ (a = b ∧ j = getC T b 0 + 1) := fun h => hab h.1
      have e2 : ¬ (a = b ∧ j = 0) := fun h => hab h.1
      have e3 : ¬ (a = a ∧ j = getC T a 0 + 1) := by omega
      have e4 : ¬ (a = a ∧ j = 0) := by omega
      rw [if_neg e1, if_neg e2, if_neg e3, if_neg e4]
    · simp only [List.map_cons, List.map_nil, List.cons.injEq, and_true]
      rw [getC_record_bond T a b hab]
      have e1 : ¬ (a = b ∧ 1 + 1 * getC T a 0 = getC T b 0 + 1) := fun h => hab h.1
      have e2 : ¬ (a = b ∧ 1 + 1 * getC T a 0 = 0) := fun h => hab h.1
      have e3 : a = a ∧ 1 + 1 * getC T a 0 = getC T a 0 + 1 := ⟨rfl, by omega⟩
      rw [if_neg e1, if_neg e2, if_pos e3]
  · rw [if_neg hqa]
    by_cases hqb : b = q
    · subst hqb
      rw [if_pos rfl]
      have hc : getC (record_bond T a b) b 0 = getC T b 0 + 1 := by
        rw [getC_record_bond T a b hab]
        have e1 : ¬ (b = b ∧ 0 = getC T b 0 + 1) := by omega
        rw [if_neg e1, if_pos ⟨rfl, rfl⟩]
      rw [hc, List.range'_concat, List.map_append]
      congr 1
      · rw [map_range'_eq_iff]
        intro j hj1 hj2
        rw [getC_record_bond T a b hab]
        have e1 : ¬ (b = b ∧ j = getC T b 0 + 1) := by omega
        have e2 : ¬ (b = b ∧ j = 0) := by omega
        have e3 : ¬ (b = a ∧ j = getC T a 0 + 1) := fun h => hab h.1.symm
        have e4 : ¬ (b = a ∧ j = 0) := fun h => hab h.1.symm
        rw [if_neg e1, if_neg e2, if_neg e3, if_neg e4]
      · simp only [List.map_cons, List.map_nil, List.cons.injEq, and_true]
        rw [getC_record_bond T a b hab]
        have e1 : b = b ∧ 1 + 1 * getC T b 0 = getC T b 0 + 1 := ⟨rfl, by omega⟩
        rw [if_pos e1]
    · rw [if_neg hqb, List.append_nil]
      have hc : getC (record_bond T a b) q 0 = getC T q 0 := by
        rw [getC_record_bond T a b hab]
        have e1 : ¬ (q = b ∧ 0 = getC T b 0 + 1) := fun h => hqb h.1.symm
        have e2 : ¬ (q = b ∧ 0 = 0) := fun h => hqb h.1.symm
        have e3 : ¬ (q = a ∧ 0 = getC T a 0 + 1) := fun h => hqa h.1.symm
        have e4 : ¬ (q = a ∧ 0 = 0) := fun h => hqa h.1.symm
        rw [if_neg e1, if_neg e2, if_neg e3, if_neg e4]
      rw [hc, map_range'_eq_iff]
      intro j _ _
      rw [getC_record_bond T a b hab]
      have e1 : ¬ (q = b ∧ j = getC T b 0 + 1) := fun h => hqb h.1.symm
      have e2 : ¬ (q = b ∧ j = 0) := fun h => hqb h.1.symm
      have e3 : ¬ (q = a ∧ j = getC T a 0 + 1) := fun h => hqa h.1.symm
      have e4 : ¬ (q = a ∧ j = 0) := fun h => hqa h.1.symm
      rw [if_neg e1, if_neg e2, if_neg e3, if_neg e4]

theorem adjacency_nil (q : Nat) : adjacency [] q = [] := rfl

theorem adjacency_cons (ab : Nat × Nat) (B : List (Nat × Nat)) (q : Nat) :
    adjacency (ab :: B) q =
      (if ab.1 = q then [ab.2] else if ab.2 = q then [ab.1] else []) ++ adjacency B q := by
  unfold adjacency
  rw [List.filterMap_cons]
  by_cases h1 : ab.1 = q
  · simp [h1]
  · by_cases h2 : ab.2 = q
    · simp [h1, h2]
    · simp [h1, h2]

theorem adjacency_append (B B' : List (Nat × Nat)) (q : Nat) :
    adjacency (B ++ B') q = adjacency B q ++ adjacency B' q := by
  unfold adjacency
  rw [List.filterMap_append]

theorem neighbours_foldl (B : List (Nat × Nat)) (T : Connections) (q : Nat)
    (hB : ∀ ab, ab ∈ B → ab.1 ≠ ab.2) :
    neighbours (B.foldl (fun T ab => record_bond T ab.1 ab.2) T) q =
      neighbours T q ++ adjacency B q := by
  induction B generalizing T with
  | nil => simp [adjacency_nil]
  | cons ab B ih =>
    rw [List.foldl_cons, ih _ (fun x hx => hB x (List.mem_cons_of_mem _ hx)),
      neighbours_record_bond T ab.1 ab.2 (hB ab (List.mem_cons_self _ _)), adjacency_cons,
      List.append_assoc]

/-! ## The loops of `morgans_splicing` record the bonds of `bonds_from` -/

theorem splice_scan_eq (st : Store) (i CA md : Nat) (n digit : Nat) (s : SpliceState) :
    (splice_scan st i CA md n digit s).connections =
      (scan_children s.connections_n s.foreign_connections_n digit
        ((List.range' digit n).map (get3 st CA i))).foldl
          (fun T q => record_bond T md q) s.connections := by
  induction n generalizing digit s with
  | zero => rfl
  | succ n ih =>
    rw [splice_scan, List.range'_succ, List.map_cons, scan_children]
    by_cases hc : 0 < s.connections_n
    · rw [if_pos hc, if_pos hc, ih]
      unfold splice_step
      by_cases hf : s.foreign_connections_n = 0
      · rw [if_pos hf, if_pos hf]
        rfl
      · rw [if_neg hf, if_neg hf]
    · rw [if_neg hc, if_neg hc]
      rfl

theorem splice_digit_eq (st : Store) (i CA md : Nat) (hmd : md ≤ CA) (T : Connections) :
    splice_digit st i CA md T =
      (children md (get3 st CA i md)
        ((List.range' (md + 1) (CA - md)).map (get3 st CA i))).foldl
          (fun T q => record_bond T md q) T := by
  unfold splice_digit children
  simp only
  rw [splice_scan_eq]
  by_cases hv : get3 st CA i md = 0
  · have e : ¬ ¬ (get3 st CA i md = 0) := fun h => h hv
    rw [if_neg e, if_neg e]
    simp only
    rw [hv]
    cases (List.map (get3 st CA i) (List.range' (md + 2) (CA - (md + 1)))) with
    | nil => rfl
    | cons x l =>
      rw [scan_children, if_neg (by decide)]
  · rw [if_pos hv, if_pos hv]
    simp only
    rcases Nat.eq_or_lt_of_le hmd with heq | hlt
    · subst heq
      have e1 : md - (md + 1) = 0 := by omega
      have e2 : md - md = 0 := by omega
      rw [e1, e2]
      rfl
    · have e1 : CA - md = (CA - (md + 1)) + 1 := by omega
      rw [e1, List.range'_succ, List.map_cons]
      rfl

theorem bonds_from_lt (p : Nat) (l : List Int) : ∀ ab, ab ∈ bonds_from p l → ab.1 < ab.2 := by
  have hscan : ∀ (rest : List Int) (c f : Int) (digit q : Nat),
      q ∈ scan_children c f digit rest → digit ≤ q := by
    intro rest
    induction rest with
    | nil =>
      intro c f digit q hq
      simp [scan_children] at hq
    | cons x rest ih =>
      intro c f digit q hq
      rw [scan_children] at hq
      by_cases hc : 0 < c
      · rw [if_pos hc] at hq
        by_cases hf : f = 0
        · rw [if_pos hf, List.mem_cons] at hq
          rcases hq with rfl | hq
          · exact le_refl _
          · have := ih _ _ _ _ hq
            omega
        · rw [if_neg hf] at hq
          have := ih _ _ _ _ hq
          omega
      · rw [if_neg hc] at hq
        simp at hq
  have hch : ∀ (p : Nat) (v : Int) (rest : List Int) (q : Nat),
      q ∈ children p v rest → p < q := by
    intro p v rest q hq
    unfold children at hq
    by_cases hv : v = 0
    · have e : ¬ ¬ (v = 0) := fun h => h hv
      rw [if_neg e] at hq
      simp at hq
    · rw [if_pos hv, List.mem_cons] at hq
      rcases hq with rfl | hq
      · omega
      · cases rest with
        | nil => simp at hq
        | cons y rest' =>
          simp only at hq
          have := hscan _ _ _ _ _ hq
          omega
  induction l generalizing p with
  | nil =>
    intro ab hab
    simp [bonds_from] at hab
  | cons v rest ih =>
    intro ab hab
    rw [bonds_from, List.mem_append, List.mem_map] at hab
    rcases hab with ⟨q, hq, rfl⟩ | hab
    · exact hch p v rest q hq
    · exact ih (p + 1) ab hab

theorem splice_loop_eq (st : Store) (i CA : Nat) (n p : Nat) (hp : p + n = CA + 1)
    (T : Connections) :
    forLoop (splice_digit st i CA) p n T =
      (bonds_from p ((List.range' p n).map (get3 st CA i))).foldl
        (fun T ab => record_bond T ab.1 ab.2) T := by
  induction n generalizing p T with
  | zero => rfl
  | succ n ih =>
    rw [forLoop_succ, ih (p + 1) (by omega), List.range'_succ, List.map_cons, bonds_from,
      List.foldl_append, List.foldl_map, splice_digit_eq st i CA p (by omega)]
    have e : CA - p = n := by omega
    rw [e]

/-- The neighbour entries that `morgans_splicing` stores for atom `q` are the
other ends of the recorded bonds that contain `q`, in the order of recording. -/
theorem neighbours_connOf (CA : Nat) (d : List Int) (hd : d.length = CA) (q : Nat) :
    neighbours (connOf CA d) q = adjacency (bonds_from 1 d) q := by
  unfold connOf
  rw [morgans_splicing_eq]
  simp only
  rw [splice_loop_eq _ _ _ CA 1 (by omega)]
  have hdig : (List.range' 1 CA).map (get3 (storeOf CA d) CA 1) = d := by
    apply list_ext_getA (-1)
    · simp [hd]
    · intro j hj
      rw [List.length_map, List.length_range'] at hj
      rw [getA_map_range' _ _ _ _ _ hj, get3_storeOf, Nat.add_comm, digit_succ]
  rw [hdig, neighbours_foldl _ _ _ (fun ab hab => Nat.ne_of_lt (bonds_from_lt 1 d ab hab)),
    neighbours_nil, List.nil_append]

/-! ## The evaluation by recursors computes the same values -/

theorem blt_eq_decide (m n : Nat) : Nat.blt m n = decide (m < n) := by
  rw [Bool.eq_iff_iff, Nat.blt_eq, decide_eq_true_iff]

theorem lt_int_eq (a b : Int) : lt_int a b = decide (a < b) := by
  cases a with
  | ofNat m =>
    cases b with
    | ofNat n =>
      show Nat.blt m n = decide ((m : Int) < (n : Int))
      rw [blt_eq_decide, Bool.eq_iff_iff, decide_eq_true_iff, decide_eq_true_iff]
      omega
    | negSucc n =>
      show false = decide ((m : Int) < Int.negSucc n)
      have h' : ¬ ((m : Int) < Int.negSucc n) := by
        have := Int.negSucc_lt_zero n
        omega
      simp [h']
  | negSucc m =>
    cases b with
    | ofNat n =>
      show true = decide (Int.negSucc m < (n : Int))
      have h' : Int.negSucc m < (n : Int) := by
        have := Int.negSucc_lt_zero m
        omega
      simp [h']
    | negSucc n =>
      show Nat.blt n m = decide (Int.negSucc m < Int.negSucc n)
      rw [blt_eq_decide, Bool.eq_iff_iff, decide_eq_true_iff, decide_eq_true_iff,
        Int.negSucc_eq, Int.negSucc_eq]
      omega

theorem lt_int_iff (a b : Int) : lt_int a b = true ↔ a < b := by
  rw [lt_int_eq]
  exact decide_eq_true_iff

theorem scan_fast_eq (rest : List Int) (c f : Int) (digit : Nat) :
    scan_fast rest c f digit = scan_children c f digit rest := by
  induction rest generalizing c f digit with
  | nil => rfl
  | cons x rest ih =>
    have e : scan_fast (x :: rest) c f digit =
        if lt_int 0 c = true then
          if f = 0 then digit :: scan_fast rest (c - 1) (f + x) (digit + 1)
          else scan_fast rest c (f + x - 1) (digit + 1)
        else [] := rfl
    rw [e, scan_children, ih, ih]
    by_cases hc : 0 < c
    · rw [if_pos hc, if_pos ((lt_int_iff 0 c).mpr hc)]
    · rw [if_neg hc, if_neg (fun h => hc ((lt_int_iff 0 c).mp h))]

theorem children_fast_eq (p : Nat) (v : Int) (rest : List Int) :
    children_fast p v rest = children p v rest := by
  unfold children_fast children
  cases rest with
  | nil => rfl
  | cons y rest' =>
    show (if ¬ v = 0 then (p + 1) :: scan_fast rest' (v - 1) (0 + y) (p + 2) else []) = _
    rw [scan_fast_eq]

theorem pairs_fast_eq (p : Nat) (l : List Nat) (acc : List (Nat × Nat)) :
    pairs_fast p l acc = l.map (fun q => (p, q)) ++ acc := by
  induction l with
  | nil => rfl
  | cons q l ih =>
    have e : pairs_fast p (q :: l) acc = (p, q) :: pairs_fast p l acc := rfl
    rw [e, ih]
    rfl

theorem bonds_fast_eq (d : List Int) (p : Nat) : bonds_fast d p = bonds_from p d := by
  induction d generalizing p with
  | nil => rfl
  | cons v rest ih =>
    have e : bonds_fast (v :: rest) p =
        pairs_fast p (children_fast p v rest) (bonds_fast rest (p + 1)) := rfl
    rw [e, pairs_fast_eq, children_fast_eq, ih, bonds_from]

theorem adjacency_fast_eq (B : List (Nat × Nat)) (p : Nat) :
    adjacency_fast B p = adjacency B p := by
  induction B with
  | nil => rfl
  | cons ab B ih =>
    have e : adjacency_fast (ab :: B) p =
        if ab.1 = p then ab.2 :: adjacency_fast B p
        else if ab.2 = p then ab.1 :: adjacency_fast B p else adjacency_fast B p := rfl
    rw [e, ih, adjacency_cons]
    by_cases h1 : ab.1 = p
    · rw [if_pos h1, if_pos h1]
      rfl
    · rw [if_neg h1, if_neg h1]
      by_cases h2 : ab.2 = p
      · rw [if_pos h2, if_pos h2]
        rfl
      · rw [if_neg h2, if_neg h2]
        rfl

theorem adjacency_lists_fast_eq (B : List (Nat × Nat)) (n p : Nat) :
    adjacency_lists_fast B n p = (List.range' p n).map (adjacency B) := by
  induction n generalizing p with
  | zero => rfl
  | succ n ih =>
    have e : adjacency_lists_fast B (n + 1) p =
        adjacency_fast B p :: adjacency_lists_fast B n (p + 1) := rfl
    rw [e, ih, adjacency_fast_eq, List.range'_succ, List.map_cons]

theorem get_fast_eq (l : List Int) (i : Nat) : get_fast l i = getA 0 l i := by
  induction l generalizing i with
  | nil => exact (getA_nil 0 i).symm
  | cons a l ih =>
    cases i with
    | zero => rfl
    | succ i =>
      have e : get_fast (a :: l) (i + 1) = get_fast l i := rfl
      rw [e, ih]
      rfl

theorem sum_values_fast_eq (v : List Int) (nb : List Nat) :
    sum_values_fast v nb = (nb.map (temp_value v)).sum := by
  induction nb with
  | nil => rfl
  | cons q nb ih =>
    have e : sum_values_fast v (q :: nb) = get_fast (0 :: v) q + sum_values_fast v nb := rfl
    rw [e, ih, get_fast_eq, List.map_cons, List.sum_cons]
    rfl

theorem round_fast_eq (adj : List (List Nat)) (v : List Int) :
    round_fast adj v = adj.map (fun nb => (nb.map (temp_value v)).sum) := by
  induction adj with
  | nil => rfl
  | cons nb adj ih =>
    have e : round_fast (nb :: adj) v = sum_values_fast v nb :: round_fast adj v := rfl
    rw [e, ih, sum_values_fast_eq, List.map_cons]

theorem round_fast_connOf (CA : Nat) (d : List Int) (hd : d.length = CA) (v : List Int) :
    round_fast ((List.range' 1 CA).map (adjacency (bonds_from 1 d))) v =
      morgan_round (connOf CA d) CA v := by
  rw [round_fast_eq, List.map_map]
  unfold morgan_round
  rw [map_range'_eq_iff]
  intro p _ _
  simp only [Function.comp]
  rw [neighbours_connOf CA d hd p]

theorem rounds_fast_connOf (CA : Nat) (d : List Int) (hd : d.length = CA) (n : Nat)
    (v : List Int) :
    rounds_fast ((List.range' 1 CA).map (adjacency (bonds_from 1 d))) n v =
      morgan_rounds (connOf CA d) CA n v := by
  induction n generalizing v with
  | zero => rfl
  | succ n ih =>
    have e : rounds_fast ((List.range' 1 CA).map (adjacency (bonds_from 1 d))) (n + 1) v =
        rounds_fast ((List.range' 1 CA).map (adjacency (bonds_from 1 d))) n
          (round_fast ((List.range' 1 CA).map (adjacency (bonds_from 1 d))) v) := rfl
    rw [e, ih, round_fast_connOf CA d hd, morgan_rounds]

theorem insert_fast_eq (x : Int) (l : List Int) : insert_fast x l = insert_rev x l := by
  induction l with
  | nil => rfl
  | cons a t ih =>
    have e : insert_fast x (a :: t) =
        if lt_int a x = true then a :: insert_fast x t else x :: a :: t := rfl
    rw [e, ih, insert_rev]
    by_cases h : x > a
    · rw [if_pos h, if_pos ((lt_int_iff a x).mpr h)]
    · rw [if_neg h, if_neg (fun h' => h ((lt_int_iff a x).mp h'))]

theorem sort_fast_eq (l acc : List Int) : sort_fast l acc = sort_rev acc l := by
  induction l generalizing acc with
  | nil => rfl
  | cons x l ih =>
    have e : sort_fast (x :: l) acc = sort_fast l (insert_fast x acc) := rfl
    rw [e, ih, insert_fast_eq]
    rfl

theorem reverse_fast_eq (l acc : List Int) : reverse_fast l acc = l.reverse ++ acc := by
  induction l generalizing acc with
  | nil => rfl
  | cons x l ih =>
    have e : reverse_fast (x :: l) acc = reverse_fast l (x :: acc) := rfl
    rw [e, ih]
    simp

theorem seed_tail_fast_eq (t : List Int) :
    (List.rec [] (fun x _ ih => (x + 1) :: ih) t : List Int) = t.map (· + 1) := by
  induction t with
  | nil => rfl
  | cons x t ih =>
    have e2 : (List.rec [] (fun x _ ih => (x + 1) :: ih) (x :: t) : List Int) =
        (x + 1) :: List.rec [] (fun x _ ih => (x + 1) :: ih) t := rfl
    rw [e2, ih]
    rfl

theorem seed_fast_eq (d : List Int) : seed_fast d = seed_values d := by
  cases d with
  | nil => rfl
  | cons r t =>
    have e : seed_fast (r :: t) = r :: List.rec [] (fun x _ ih => (x + 1) :: ih) t := rfl
    rw [e, seed_values, seed_tail_fast_eq]

theorem signature_fast_eq (CA : Nat) (d : List Int) (hd : d.length = CA) :
    signature_fast CA d = signature CA d := by
  unfold signature_fast signature sort_desc
  rw [reverse_fast_eq, sort_fast_eq, bonds_fast_eq, adjacency_lists_fast_eq,
    rounds_fast_connOf CA d hd, seed_fast_eq, List.append_nil]

theorem eq_fast_eq (l l' : List Int) : eq_fast l l' = decide (l = l') := by
  induction l generalizing l' with
  | nil =>
    cases l' with
    | nil => rfl
    | cons b t => simp [eq_fast]
  | cons a l ih =>
    cases l' with
    | nil => simp [eq_fast]
    | cons b t =>
      have e : eq_fast (a :: l) (b :: t) = if a = b then eq_fast l t else false := rfl
      rw [e, ih]
      by_cases h : a = b
      · simp [h]
      · simp [h]

theorem mem_fast_eq (g : List Int) (sigs : List (List Int)) :
    mem_fast g sigs = decide (g ∈ sigs) := by
  induction sigs with
  | nil => simp [mem_fast]
  | cons s sigs ih =>
    have e : mem_fast g (s :: sigs) = if eq_fast g s = true then true else mem_fast g sigs := rfl
    rw [e, ih, eq_fast_eq]
    by_cases h : g = s
    · simp [h]
    · simp [h]

theorem accept_fast_eq (CA : Nat) (s : PState) (c : List Int) (hc : c.length = CA) :
    accept_fast CA s c = accept CA s c := by
  unfold accept_fast accept
  rw [signature_fast_eq CA c hc, mem_fast_eq]
  by_cases h : signature CA c ∈ s.sigs
  · simp [h]
  · simp [h]

theorem foldl_accept_fast (CA : Nat) (l : List (List Int)) (s : PState)
    (hl : ∀ c, c ∈ l → c.length = CA) :
    l.foldl (accept_fast CA) s = l.foldl (accept CA) s := by
  induction l generalizing s with
  | nil => rfl
  | cons c l ih =>
    rw [List.foldl_cons, List.foldl_cons, accept_fast_eq CA s c (hl c (List.mem_cons_self _ _)),
      ih _ (fun c' hc' => hl c' (List.mem_cons_of_mem _ hc'))]

theorem generate_fast_eq (CA : Nat) (parents : List (List Int)) (hCA : 1 ≤ CA)
    (hp : ∀ d, d ∈ parents → d.length = CA - 1) :
    generate_fast CA parents = generate CA parents := by
  unfold generate_fast generate
  apply foldl_accept_fast
  intro c hc
  rw [mem_candidates] at hc
  obtain ⟨d, hd, C, hC1, hC2, _, rfl⟩ := hc
  rw [length_extend d C hC1 (by rw [hp d hd]; exact hC2), hp d hd]
  omega

theorem levels_fast_eq (n : Nat) : levels_fast n = levels n := by
  induction n with
  | zero => rfl
  | succ n ih =>
    obtain ⟨r, hr⟩ := levels_head n
    rw [levels_fast, levels, ih, hr]
    simp only
    rw [generate_fast_eq (n + 2) (level n) (by omega)
      (fun d hd => by rw [(level_ok n d hd).1]; omega)]

/-! ## Results: the run from methane -/

set_option maxRecDepth 1000000 in
theorem levels_fast_summary :
    (levels_fast 9).map (fun l => (l.length, mem_fast [2, 1, 1, 1, 1, 1, 1, 1, 0, 0] l)) =
      [(75, true), (35, false), (18, false), (9, false), (5, false), (3, false), (2, false),
        (1, false), (1, false), (1, false)] := by
  decide!

theorem levels_fast_lengths :
    (levels_fast 9).map List.length = [75, 35, 18, 9, 5, 3, 2, 1, 1, 1] := by
  have h := congrArg (List.map Prod.fst) levels_fast_summary
  rw [List.map_map] at h
  exact h

/-- The chain of 10 atoms is accepted with the code `2111111100`. -/
theorem chain_ten_accepted : [2, 1, 1, 1, 1, 1, 1, 1, 0, 0] ∈ level 9 := by
  have h := levels_fast_summary
  obtain ⟨r, hr⟩ := levels_head 9
  rw [levels_fast_eq, hr, List.map_cons, List.cons.injEq] at h
  have h1 := congrArg Prod.snd h.1
  simp only at h1
  rw [mem_fast_eq] at h1
  exact of_decide_eq_true h1

theorem levels_lengths :
    (levels 9).map List.length = [75, 35, 18, 9, 5, 3, 2, 1, 1, 1] := by
  rw [← levels_fast_eq]
  exact levels_fast_lengths

theorem level_length_values :
    (level 0).length = 1 ∧ (level 1).length = 1 ∧ (level 2).length = 1 ∧
    (level 3).length = 2 ∧ (level 4).length = 3 ∧ (level 5).length = 5 ∧
    (level 6).length = 9 ∧ (level 7).length = 18 ∧ (level 8).length = 35 ∧
    (level 9).length = 75 := by
  have h := levels_lengths
  simp only [levels_succ, List.map_cons, List.cons.injEq] at h
  have h0 : levels 0 = [level 0] := rfl
  rw [h0] at h
  simp only [List.map_cons, List.map_nil, List.cons.injEq, and_true] at h
  obtain ⟨h9, h8, h7, h6, h5, h4, h3, h2, h1, h0⟩ := h
  exact ⟨h0, h1, h2, h3, h4, h5, h6, h7, h8, h9⟩

/-- C1: running `main` from the methane declaration, the isomer counts stored
for the carbon counts 1 to 10 are 1, 1, 1, 2, 3, 5, 9, 18, 35, 75. -/
theorem isomer_counts_up_to_ten ( generate_files : Bool) :
    (List.range' 1 10).map (fun k => get3 (main_loop generate_files lastCarbon) k 0 0) =
      [1, 1, 1, 2, 3, 5, 9, 18, 35, 75] := by
  obtain ⟨h0, h1, h2, h3, h4, h5, h6, h7, h8, h9⟩ := level_length_values
  have hk : ∀ k, 1 ≤ k → k ≤ 10 →
      get3 (main_loop generate_files lastCarbon) k 0 0 = ((level (k - 1)).length : Int) :=
    fun k hk1 hk2 => (main_loop_levels generate_files lastCarbon k hk1
      (by unfold lastCarbon; omega)).1
  have e : List.range' 1 10 = [1, 2, 3, 4, 5, 6, 7, 8, 9, 10] := by decide
  rw [e]
  simp only [List.map_cons, List.map_nil]
  rw [hk 1 (by omega) (by omega), hk 2 (by omega) (by omega), hk 3 (by omega) (by omega),
    hk 4 (by omega) (by omega), hk 5 (by omega) (by omega), hk 6 (by omega) (by omega),
    hk 7 (by omega) (by omega), hk 8 (by omega) (by omega), hk 9 (by omega) (by omega),
    hk 10 (by omega) (by omega)]
  simp only [Nat.sub_self, Nat.reduceSub, h0, h1, h2, h3, h4, h5, h6, h7, h8, h9]
  rfl

/-- C2: with maximum carbon count 4 the stored counts are 1, 1, 1, 2; the two
accepted 4-carbon codes are `3000`, whose connectivity is the star around atom 1,
and `2100`, whose connectivity is the path 3-2-1-4; the three admissible
candidates are `3000`, `2100` and `2010`, and the third, left in the candidate
slot 3, has the connectivity of the path 2-1-3-4 and is not accepted. -/
theorem butane_scenario ( generate_files : Bool) :
    (List.range' 1 4).map (fun k => get3 (main_loop generate_files 4) k 0 0) = [1, 1, 1, 2] ∧
    accepted_codes (main_loop generate_files 4) 4 = [[3, 0, 0, 0], [2, 1, 0, 0]] ∧
    (List.range' 1 4).map
      (neighbours (morgans_splicing (main_loop generate_files 4) 1 4 [] []).2) =
        [[2, 3, 4], [1], [1], [1]] ∧
    (List.range' 1 4).map
      (neighbours (morgans_splicing (main_loop generate_files 4) 2 4 [] []).2) =
        [[2, 4], [1, 3], [2], [1]] ∧
    candidates 4 (accepted_codes (main_loop generate_files 4) 3) =
      [[3, 0, 0, 0], [2, 1, 0, 0], [2, 0, 1, 0]] ∧
    code_digits (main_loop generate_files 4) 4 3 = [2, 0, 1, 0] ∧
    (List.range' 1 4).map
      (neighbours (morgans_splicing (main_loop generate_files 4) 3 4 [] []).2) =
        [[2, 3], [1], [1, 4], [3]] ∧
    (generate_Isomers (main_loop generate_files 3) 4 maxIsomers []).isomer = 3 ∧
    (check_Isomers (generate_Isomers (main_loop generate_files 3) 4 maxIsomers []).isomers 3 4
      (generate_Isomers (main_loop generate_files 3) 4 maxIsomers []).morgans).1 = 0 := by
  cases generate_files <;> decide!

/-! ## Results: invariants of the accepted codes -/

theorem mem_accepted_codes (st : Store) (k i : Nat) (h1 : 1 ≤ i)
    (h2 : (i : Int) ≤ get3 st k 0 0) : code_digits st k i ∈ accepted_codes st k := by
  unfold accepted_codes
  rw [List.mem_map]
  refine ⟨i, ?_, rfl⟩
  rw [List.mem_range'_1]
  omega

/-- C3: in the run of `main` up to carbon count `last`, every accepted code of a
carbon count `C` has exactly `C` digits (the cells after position `C` hold the
fill value -1), its root digit lies in 0..4, and every other digit lies in 0..3
and, incremented by 1, does not exceed the root digit. -/
theorem accepted_code_invariants ( generate_files : Bool) (last C i : Nat)
    (hC1 : 1 ≤ C) (hC : C ≤ last) (hi1 : 1 ≤ i)
    (hi : (i : Int) ≤ get3 (main_loop generate_files last) C 0 0) :
    (∀ j, C < j → get3 (main_loop generate_files last) C i j = -1) ∧
    0 ≤ get3 (main_loop generate_files last) C i 1 ∧
    get3 (main_loop generate_files last) C i 1 ≤ 4 ∧
    ∀ j, 2 ≤ j → j ≤ C →
      0 ≤ get3 (main_loop generate_files last) C i j ∧
      get3 (main_loop generate_files last) C i j ≤ 3 ∧
      get3 (main_loop generate_files last) C i j + 1 ≤
        get3 (main_loop generate_files last) C i 1 := by
  have hlev := (main_loop_levels generate_files last C hC1 hC).2
  have hmem := mem_accepted_codes _ C i hi1 hi
  rw [hlev] at hmem
  obtain ⟨hlen, h0, h4, hrest⟩ := level_ok (C - 1) _ hmem
  have hd : ∀ j, 1 ≤ j → j ≤ C →
      digit (code_digits (main_loop generate_files last) C i) j =
        get3 (main_loop generate_files last) C i j :=
    fun j h1 h2 => digit_code_digits _ _ _ _ h1 h2
  refine ⟨?_, ?_, ?_, ?_⟩
  · intro j hj
    exact (main_loop_beyond generate_files (last - 1)).2 C i j hC1 (by omega) hi1 hj
  · rw [← hd 1 (le_refl _) hC1]
    exact h0
  · rw [← hd 1 (le_refl _) hC1]
    exact h4
  · intro j hj2 hj
    rw [← hd 1 (le_refl _) hC1, ← hd j (by omega) hj]
    exact hrest j hj2 (by rw [length_code_digits]; exact hj)

set_option maxRecDepth 100000 in
theorem accepted_code_invariants_witness :
    (∀ j, 4 < j → get3 (main_loop false 4) 4 2 j = -1) ∧
    0 ≤ get3 (main_loop false 4) 4 2 1 ∧
    get3 (main_loop false 4) 4 2 1 ≤ 4 ∧
    ∀ j, 2 ≤ j → j ≤ 4 →
      0 ≤ get3 (main_loop false 4) 4 2 j ∧
      get3 (main_loop false 4) 4 2 j ≤ 3 ∧
      get3 (main_loop false 4) 4 2 j + 1 ≤ get3 (main_loop false 4) 4 2 1 :=
  accepted_code_invariants false 4 4 2 (by decide) (by decide) (by decide) (by decide!)

/-! ## Results: signatures of the accepted codes -/

/-- C5: the final state of `generate_Isomers` is the state after all passes of
its loops, and in the state after any number of passes the rows 1 to
`isomers[CarbonAmount][0][0]` of `morgans` hold the signatures of the accepted
codes and are pairwise different on the positions 1 to `CarbonAmount`. -/
theorem signatures_pairwise_distinct (st : Store) (CarbonAmount mx : Nat) (m0 : Morgans)
    (I C j1 j2 : Nat) (hCA : 1 ≤ CarbonAmount) (hC : C ≤ CarbonAmount - 1)
    (h1 : 1 ≤ j1) (h12 : j1 < j2)
    (h2 : (j2 : Int) ≤ get3 (generate_after st CarbonAmount m0 I C).isomers CarbonAmount 0 0) :
    generate_Isomers st CarbonAmount mx m0 =
        generate_after st CarbonAmount m0 (get3 st (CarbonAmount - 1) 0 0).toNat 0 ∧
    row_values (generate_after st CarbonAmount m0 I C).morgans j1 CarbonAmount =
        signature CarbonAmount
          (code_digits (generate_after st CarbonAmount m0 I C).isomers CarbonAmount j1) ∧
    row_values (generate_after st CarbonAmount m0 I C).morgans j2 CarbonAmount =
        signature CarbonAmount
          (code_digits (generate_after st CarbonAmount m0 I C).isomers CarbonAmount j2) ∧
    row_values (generate_after st CarbonAmount m0 I C).morgans j1 CarbonAmount ≠
      row_values (generate_after st CarbonAmount m0 I C).morgans j2 CarbonAmount := by
  obtain ⟨p, ⟨_, hcount, hcodes, hsigs, _⟩, hmap, hnd⟩ :=
    generate_after_represents st CarbonAmount m0 hCA I C hC
  rw [hcount] at h2
  have hj2 : j2 ≤ p.codes.length := by omega
  have hlen : p.sigs.length = p.codes.length := by rw [hmap, List.length_map]
  have hrow : ∀ j, 1 ≤ j → j ≤ p.codes.length →
      row_values (generate_after st CarbonAmount m0 I C).morgans j CarbonAmount =
        getA [] p.sigs (j - 1) := by
    intro j hj1 hj
    rw [← hsigs, getA_map_range' _ _ _ _ _ (by omega)]
    congr 1
    omega
  have hcode : ∀ j, 1 ≤ j → j ≤ p.codes.length →
      code_digits (generate_after st CarbonAmount m0 I C).isomers CarbonAmount j =
        getA [] p.codes (j - 1) := by
    intro j hj1 hj
    rw [← hcodes, getA_map_range' _ _ _ _ _ (by simpa using (by omega : j - 1 < p.codes.length))]
    congr 1
    omega
  have hsig : ∀ j, 1 ≤ j → j ≤ p.codes.length →
      getA [] p.sigs (j - 1) = signature CarbonAmount (getA [] p.codes (j - 1)) := by
    intro j hj1 hj
    rw [hmap, getA_in_range [] (signature CarbonAmount []) _ _
      (by rw [List.length_map]; omega), getA_map]
  refine ⟨rfl, ?_, ?_, ?_⟩
  · rw [hrow j1 h1 (by omega), hcode j1 h1 (by omega), hsig j1 h1 (by omega)]
  · rw [hrow j2 (by omega) hj2, hcode j2 (by omega) hj2, hsig j2 (by omega) hj2]
  · rw [hrow j1 h1 (by omega), hrow j2 (by omega) hj2]
    intro he
    rw [getA_eq_getD, getA_eq_getD, List.getD_eq_getElem _ _ (by omega : j1 - 1 < p.sigs.length),
      List.getD_eq_getElem _ _ (by omega : j2 - 1 < p.sigs.length)] at he
    have := (List.Nodup.getElem_inj_iff hnd).mp he
    omega

set_option maxRecDepth 100000 in
theorem signatures_pairwise_distinct_witness :
    generate_Isomers (main_loop false 3) 4 maxIsomers [] =
        generate_after (main_loop false 3) 4 [] (get3 (main_loop false 3) (4 - 1) 0 0).toNat 0 ∧
    row_values (generate_after (main_loop false 3) 4 [] 1 0).morgans 1 4 =
        signature 4 (code_digits (generate_after (main_loop false 3) 4 [] 1 0).isomers 4 1) ∧
    row_values (generate_after (main_loop false 3) 4 [] 1 0).morgans 2 4 =
        signature 4 (code_digits (generate_after (main_loop false 3) 4 [] 1 0).isomers 4 2) ∧
    row_values (generate_after (main_loop false 3) 4 [] 1 0).morgans 1 4 ≠
      row_values (generate_after (main_loop false 3) 4 [] 1 0).morgans 2 4 :=
  signatures_pairwise_distinct (main_loop false 3) 4 maxIsomers [] 1 0 1 2
    (by decide) (by decide) (by decide) (by decide) (by decide!)

/-- C6: for a carbon count of at least 2, the codes that `generate_Isomers`
leaves in the slots 1 to `isomers[CarbonAmount][0][0]` are, in this order, the
candidates (parents in stored order, admissible positions ascending) without
every candidate whose signature equals that of an earlier candidate, and the
stored count is the length of this list. -/
theorem accepted_first_of_each (st : Store) (CarbonAmount mx : Nat) (m0 : Morgans)
    (hCA : 2 ≤ CarbonAmount) :
    accepted_codes (generate_Isomers st CarbonAmount mx m0).isomers CarbonAmount =
        first_of_each (signature CarbonAmount) []
          (candidates CarbonAmount (accepted_codes st (CarbonAmount - 1))) ∧
    get3 (generate_Isomers st CarbonAmount mx m0).isomers CarbonAmount 0 0 =
      ((first_of_each (signature CarbonAmount) []
          (candidates CarbonAmount (accepted_codes st (CarbonAmount - 1)))).length : Int) := by
  have hrep := generate_Isomers_represents st CarbonAmount mx m0 (by omega)
  rw [← generate_codes]
  exact ⟨accepted_codes_of_represents _ _ _ _ hrep, hrep.2.1⟩

set_option maxRecDepth 100000 in
theorem accepted_first_of_each_witness :
    accepted_codes (generate_Isomers (main_loop false 3) 4 maxIsomers []).isomers 4 =
        first_of_each (signature 4) [] (candidates 4 (accepted_codes (main_loop false 3) (4 - 1))) ∧
    get3 (generate_Isomers (main_loop false 3) 4 maxIsomers []).isomers 4 0 0 =
      ((first_of_each (signature 4) []
          (candidates 4 (accepted_codes (main_loop false 3) (4 - 1)))).length : Int) :=
  accepted_first_of_each (main_loop false 3) 4 maxIsomers [] (by decide)

/-- The signature of a code is the row that `check_Isomers` computes for a slot
holding the code. -/
theorem signature_eq_check_Isomers (st : Store) (isomer CarbonAmount : Nat) (morgans : Morgans) :
    row_values (check_Isomers st isomer CarbonAmount morgans).2 isomer CarbonAmount =
      signature CarbonAmount (code_digits st CarbonAmount isomer) :=
  check_Isomers_row st isomer CarbonAmount morgans

/-! ## Results: the uniqueness check -/

/-- C8: for a slot `isomer` of at least 1, `check_morgan_uniqueness` returns 1
when no row `j` with `1 ≤ j < isomer` agrees with row `isomer` on all positions
1 to `CarbonAmount`, and 0 when some such row does. -/
theorem check_morgan_uniqueness_iff (isomer CarbonAmount : Nat) (morgans : Morgans)
    (h : 1 ≤ isomer) :
    (check_morgan_uniqueness isomer CarbonAmount morgans = 1 ↔
      ¬ ∃ j, 1 ≤ j ∧ j < isomer ∧
        ∀ b, 1 ≤ b → b ≤ CarbonAmount → getM morgans j b = getM morgans isomer b) ∧
    (check_morgan_uniqueness isomer CarbonAmount morgans = 0 ↔
      ∃ j, 1 ≤ j ∧ j < isomer ∧
        ∀ b, 1 ≤ b → b ≤ CarbonAmount → getM morgans j b = getM morgans isomer b) := by
  have hiff := check_unique_eq_one_iff isomer CarbonAmount morgans h
  have hone : check_morgan_uniqueness isomer CarbonAmount morgans = 1 ↔
      ¬ ∃ j, 1 ≤ j ∧ j < isomer ∧
        ∀ b, 1 ≤ b → b ≤ CarbonAmount → getM morgans j b = getM morgans isomer b := by
    rw [hiff]
    constructor
    · rintro hall ⟨j, hj1, hj2, hb⟩
      exact hall j hj1 hj2 ((row_values_eq_iff _ _ _ _ _).mpr hb)
    · intro hno j hj1 hj2 he
      exact hno ⟨j, hj1, hj2, (row_values_eq_iff _ _ _ _ _).mp he⟩
  refine ⟨hone, ?_⟩
  rcases check_unique_zero_or_one isomer CarbonAmount morgans with h1 | h0
  · constructor
    · intro hz
      rw [h1] at hz
      exact absurd hz (by decide)
    · intro hex
      exact absurd hex (hone.mp h1)
  · constructor
    · intro _
      by_contra hno
      have := hone.mpr hno
      rw [h0] at this
      exact absurd this (by decide)
    · intro _
      exact h0

theorem check_morgan_uniqueness_iff_witness :
    (check_morgan_uniqueness 3 2 [[], [0, 5, 3], [0, 4, 4], [0, 5, 3]] = 1 ↔
      ¬ ∃ j, 1 ≤ j ∧ j < 3 ∧
        ∀ b, 1 ≤ b → b ≤ 2 →
          getM [[], [0, 5, 3], [0, 4, 4], [0, 5, 3]] j b =
            getM [[], [0, 5, 3], [0, 4, 4], [0, 5, 3]] 3 b) ∧
    (check_morgan_uniqueness 3 2 [[], [0, 5, 3], [0, 4, 4], [0, 5, 3]] = 0 ↔
      ∃ j, 1 ≤ j ∧ j < 3 ∧
        ∀ b, 1 ≤ b → b ≤ 2 →
          getM [[], [0, 5, 3], [0, 4, 4], [0, 5, 3]] j b =
            getM [[], [0, 5, 3], [0, 4, 4], [0, 5, 3]] 3 b) :=
  check_morgan_uniqueness_iff 3 2 [[], [0, 5, 3], [0, 4, 4], [0, 5, 3]] (by decide)

/-! ## Results: the base case -/

/-- C9: the methane declaration stores the count 1 and the single code `0` for
carbon count 1 and no count for any other carbon count; with maximum carbon
count 1 the main loop makes no pass and the store is the methane declaration. -/
theorem methane_base_case ( generate_files : Bool) :
    get3 methane 1 0 0 = 1 ∧ accepted_codes methane 1 = [[0]] ∧
    (∀ k, k ≠ 1 → get3 methane k 0 0 = -1 ∧ accepted_codes methane k = []) ∧
    main_loop generate_files 1 = methane := by
  refine ⟨methane_count, methane_codes, ?_, rfl⟩
  intro k hk
  have h : get3 methane k 0 0 = -1 := by
    rw [get3_methane]
    have e1 : ¬ (k = 1 ∧ 0 = 0 ∧ 0 = 0) := fun h => hk h.1
    have e2 : ¬ (k = 1 ∧ 0 = 1 ∧ 0 = 0) := fun h => hk h.1
    have e3 : ¬ (k = 1 ∧ 0 = 1 ∧ 0 = 1) := fun h => hk h.1
    rw [if_neg e1, if_neg e2, if_neg e3]
  refine ⟨h, ?_⟩
  unfold accepted_codes
  rw [h]
  rfl

/-! ## `check_Isomers` as a function of the digits and the earlier rows -/

theorem sort_insert_sentinel (i k : Nat) (m : Morgans) :
    getM (sort_insert i (k + 1) m) i 0 = getM m i (k + 1) := by
  unfold sort_insert
  simp only
  rw [(sort_shift_spec i k (setM m i 0 (getM m i (k + 1)))).2 i 0 (by omega), getM_setM,
    if_pos ⟨rfl, rfl⟩]

theorem sort_sentinel (i CA : Nat) (m : Morgans) (hCA : 2 ≤ CA) :
    getM (morgans_sort i CA m) i 0 = getM m i CA := by
  obtain ⟨n, rfl⟩ : ∃ n, CA = n + 2 := ⟨CA - 2, by omega⟩
  unfold morgans_sort
  have e : n + 2 - 1 = n + 1 := by omega
  rw [e, forLoop_succ_last]
  have e2 : 2 + n = (n + 1) + 1 := by omega
  rw [e2, sort_insert_sentinel, (sort_loop_spec i (n + 2) m n (by omega)).2 i (n + 1 + 1) (by omega)]

theorem sort_cells_above (i CA : Nat) (m : Morgans) (a b : Nat) (h : ¬ (a = i ∧ b ≤ CA)) :
    getM (morgans_sort i CA m) a b = getM m a b := by
  unfold morgans_sort
  cases CA with
  | zero => rfl
  | succ n =>
    rw [Nat.add_sub_cancel]
    exact (sort_loop_spec i (n + 1) m n (le_refl _)).2 a b h

theorem sort_small (i CA : Nat) (m : Morgans) (hCA : CA ≤ 1) : morgans_sort i CA m = m := by
  unfold morgans_sort
  have e : CA - 1 = 0 := by omega
  rw [e]
  rfl

theorem getM_of_row_values_eq (m m' : Morgans) (i CA : Nat)
    (h : row_values m i CA = row_values m' i CA) (b : Nat) (h1 : 1 ≤ b) (h2 : b ≤ CA) :
    getM m i b = getM m' i b :=
  (row_values_eq_iff m m' i i CA).mp h b h1 h2

/-- The cells of the table after `check_Isomers` outside row `isomer` and after
position `CarbonAmount` are those of the table before. -/
theorem check_Isomers_cells_frame (st : Store) (i CA : Nat) (m : Morgans) (a b : Nat)
    (h : ¬ (a = i ∧ b ≤ CA)) : getM (check_Isomers st i CA m).2 a b = getM m a b := by
  unfold check_Isomers
  simp only
  rw [sort_cells_above _ _ _ _ _ h, algorithm_frame _ _ _ _ _ _ (fun h' => h ⟨h'.1, h'.2.2⟩),
    morgans_splicing_eq]
  simp only
  rw [getM_seed_loop]
  have : ¬ (a = i ∧ 1 ≤ b ∧ b ≤ CA) := fun h' => h ⟨h'.1, h'.2.2⟩
  rw [if_neg this]

theorem check_Isomers_sentinel_small (st : Store) (i CA : Nat) (m : Morgans) (hCA : CA ≤ 1) :
    getM (check_Isomers st i CA m).2 i 0 = getM m i 0 := by
  unfold check_Isomers
  simp only
  rw [sort_small _ _ _ hCA, algorithm_frame _ _ _ _ _ _ (by omega), morgans_splicing_eq]
  simp only
  rw [getM_seed_loop]
  have : ¬ (i = i ∧ 1 ≤ 0 ∧ 0 ≤ CA) := by omega
  rw [if_neg this]

/-- The sort sentinel left by `check_Isomers` is the last value before sorting,
which the digits of the slot determine. -/
theorem check_Isomers_sentinel (st : Store) (i CA : Nat) (m m' : Morgans) (hCA : 2 ≤ CA) :
    getM (check_Isomers st i CA m).2 i 0 = getM (check_Isomers st i CA m').2 i 0 := by
  unfold check_Isomers
  simp only
  rw [sort_sentinel _ _ _ hCA, sort_sentinel _ _ _ hCA]
  apply getM_of_row_values_eq _ _ i CA _ CA (by omega) (le_refl _)
  rw [row_values_algorithm, row_values_algorithm, morgans_splicing_eq, morgans_splicing_eq]
  simp only
  rw [row_values_seed_loop, row_values_seed_loop]

/-- Two tables that agree outside the cells `0..CarbonAmount` of row `isomer`
(and on the sentinel cell when the sort makes no pass) are taken by
`check_Isomers` to the same result and to tables with equal cells. -/
theorem check_Isomers_congr (st : Store) (i CA : Nat) (m m' : Morgans) (hi : 1 ≤ i)
    (h : ∀ a b, ¬ (a = i ∧ b ≤ CA) → getM m a b = getM m' a b)
    (h0 : CA ≤ 1 → getM m i 0 = getM m' i 0) :
    (check_Isomers st i CA m).1 = (check_Isomers st i CA m').1 ∧
      ∀ a b, getM (check_Isomers st i CA m).2 a b = getM (check_Isomers st i CA m').2 a b := by
  have hcells : ∀ a b, getM (check_Isomers st i CA m).2 a b =
      getM (check_Isomers st i CA m').2 a b := by
    intro a b
    by_cases hab : a = i ∧ b ≤ CA
    · obtain ⟨rfl, hb⟩ := hab
      by_cases hb0 : b = 0
      · subst hb0
        by_cases hCA : 2 ≤ CA
        · exact check_Isomers_sentinel st a CA m m' hCA
        · rw [check_Isomers_sentinel_small st a CA m (by omega),
            check_Isomers_sentinel_small st a CA m' (by omega)]
          exact h0 (by omega)
      · apply getM_of_row_values_eq _ _ a CA _ b (by omega) hb
        rw [check_Isomers_row, check_Isomers_row]
    · rw [check_Isomers_cells_frame _ _ _ _ _ _ hab, check_Isomers_cells_frame _ _ _ _ _ _ hab]
      exact h a b hab
  refine ⟨?_, hcells⟩
  have hiff : (check_Isomers st i CA m).1 = 1 ↔ (check_Isomers st i CA m').1 = 1 := by
    rw [check_Isomers_result st i CA m hi, check_Isomers_result st i CA m' hi]
    constructor
    · intro hall j hj1 hj2
      rw [← row_values_congr m m' j j CA (fun b => h j b (by omega))]
      exact hall j hj1 hj2
    · intro hall j hj1 hj2
      rw [row_values_congr m m' j j CA (fun b => h j b (by omega))]
      exact hall j hj1 hj2
  rcases check_Isomers_zero_or_one st i CA m with h1 | h1
  · rw [h1, hiff.mp h1]
  · rcases check_Isomers_zero_or_one st i CA m' with h2 | h2
    · have := hiff.mpr h2
      rw [h1] at this
      exact absurd this (by decide)
    · rw [h1, h2]

/-! ## Results: frame of the generation -/

/-- C11: `generate_Isomers` for carbon count `k` changes only level `k`: for every
level `j` different from `k` the stored count, the list of accepted codes and
every other cell of level `j` are the same before and after the call. -/
theorem generate_Isomers_frame (st : Store) (k mx : Nat) (m0 : Morgans) (j : Nat)
    (hk : 1 ≤ k) (hj : j ≠ k) :
    get3 (generate_Isomers st k mx m0).isomers j 0 0 = get3 st j 0 0 ∧
    accepted_codes (generate_Isomers st k mx m0).isomers j = accepted_codes st j ∧
    ∀ b c, get3 (generate_Isomers st k mx m0).isomers j b c = get3 st j b c := by
  obtain ⟨_, _, _, _, hfr⟩ := generate_Isomers_represents st k mx m0 hk
  refine ⟨hfr j 0 0 hj, ?_, fun b c => hfr j b c hj⟩
  exact accepted_codes_congr _ _ j (hfr j 0 0 hj) (fun i b _ _ => hfr j i b hj)

set_option maxRecDepth 100000 in
theorem generate_Isomers_frame_witness :
    get3 (generate_Isomers (main_loop false 3) 4 maxIsomers []).isomers 3 0 0 =
      get3 (main_loop false 3) 3 0 0 ∧
    accepted_codes (generate_Isomers (main_loop false 3) 4 maxIsomers []).isomers 3 =
      accepted_codes (main_loop false 3) 3 ∧
    ∀ b c, get3 (generate_Isomers (main_loop false 3) 4 maxIsomers []).isomers 3 b c =
      get3 (main_loop false 3) 3 b c :=
  generate_Isomers_frame (main_loop false 3) 4 maxIsomers [] 3 (by decide) (by decide)

/-! ## Results: the examination of one candidate -/

/-- C12: a second run of `check_Isomers` on the same slot, started on the table
that the first run left, returns the decision of the first run and leaves every
cell of the table as the first run left it. -/
theorem check_Isomers_idempotent (st : Store) (isomer CarbonAmount : Nat) (m : Morgans)
    (hi : 1 ≤ isomer) :
    (check_Isomers st isomer CarbonAmount (check_Isomers st isomer CarbonAmount m).2).1 =
      (check_Isomers st isomer CarbonAmount m).1 ∧
    ∀ a b,
      getM (check_Isomers st isomer CarbonAmount (check_Isomers st isomer CarbonAmount m).2).2
          a b =
        getM (check_Isomers st isomer CarbonAmount m).2 a b := by
  have h := check_Isomers_congr st isomer CarbonAmount m
    (check_Isomers st isomer CarbonAmount m).2 hi
    (fun a b hab => (check_Isomers_cells_frame st isomer CarbonAmount m a b hab).symm)
    (fun hCA => (check_Isomers_sentinel_small st isomer CarbonAmount m hCA).symm)
  exact ⟨h.1.symm, fun a b => (h.2 a b).symm⟩

theorem check_Isomers_idempotent_witness :
    (check_Isomers (storeOf 4 [2, 0, 1, 0]) 1 4
        (check_Isomers (storeOf 4 [2, 0, 1, 0]) 1 4 [[], [7, 7, 7, 7, 7, 7]]).2).1 =
      (check_Isomers (storeOf 4 [2, 0, 1, 0]) 1 4 [[], [7, 7, 7, 7, 7, 7]]).1 ∧
    ∀ a b,
      getM (check_Isomers (storeOf 4 [2, 0, 1, 0]) 1 4
          (check_Isomers (storeOf 4 [2, 0, 1, 0]) 1 4 [[], [7, 7, 7, 7, 7, 7]]).2).2 a b =
        getM (check_Isomers (storeOf 4 [2, 0, 1, 0]) 1 4 [[], [7, 7, 7, 7, 7, 7]]).2 a b :=
  check_Isomers_idempotent (storeOf 4 [2, 0, 1, 0]) 1 4 [[], [7, 7, 7, 7, 7, 7]] (by decide)

/-! ## Results: the admissibility test and the candidate -/

/-- C13: `Isomer_digit_validity_check` returns 1 exactly when `C` is 1 and digit 1
of the parent is less than 4, or `C` is not 1, digit `C` is less than 3 and
digit `C` plus 1 is less than digit 1; in every other case it returns 0. -/
theorem validity_check_iff (isomers : Store) (previousC C I CarbonAmount : Nat) :
    (Isomer_digit_validity_check isomers previousC C I CarbonAmount = 1 ↔
      (C = 1 ∧ get3 isomers previousC I 1 < 4) ∨
        (C ≠ 1 ∧ get3 isomers previousC I C < 3 ∧
          get3 isomers previousC I C + 1 < get3 isomers previousC I 1)) ∧
    (Isomer_digit_validity_check isomers previousC C I CarbonAmount = 0 ↔
      ¬ ((C = 1 ∧ get3 isomers previousC I 1 < 4) ∨
        (C ≠ 1 ∧ get3 isomers previousC I C < 3 ∧
          get3 isomers previousC I C + 1 < get3 isomers previousC I 1))) := by
  unfold Isomer_digit_validity_check
  simp only
  by_cases h : (C = 1 ∧ get3 isomers previousC I 1 < 4) ∨
      (C ≠ 1 ∧ get3 isomers previousC I C < 3 ∧
        get3 isomers previousC I C + 1 < get3 isomers previousC I 1)
  · have hb : (decide (C = 1) && decide (get3 isomers previousC I 1 < 4) ||
        !(decide (C = 1)) && decide (get3 isomers previousC I C < 3) &&
          decide (get3 isomers previousC I C + 1 < get3 isomers previousC I 1)) = true := by
      simp only [Bool.or_eq_true, Bool.and_eq_true, decide_eq_true_eq, Bool.not_eq_true',
        decide_eq_false_iff_not, and_assoc]
      exact h
    rw [if_pos hb]
    simp only [h, true_iff, not_true_eq_false, iff_false]
    exact ⟨trivial, by decide⟩
  · have hb : ¬ ((decide (C = 1) && decide (get3 isomers previousC I 1 < 4) ||
        !(decide (C = 1)) && decide (get3 isomers previousC I C < 3) &&
          decide (get3 isomers previousC I C + 1 < get3 isomers previousC I 1)) = true) := by
      simp only [Bool.or_eq_true, Bool.and_eq_true, decide_eq_true_eq, Bool.not_eq_true',
        decide_eq_false_iff_not, and_assoc]
      exact h
    rw [if_neg hb]
    simp only [h, iff_false, not_false_eq_true, iff_true]
    exact ⟨by decide, trivial⟩

/-- C14: for a parent in slot `I` of carbon count `k - 1` and a position `p` of
it, the candidate that `generate_Isomers` writes into slot `isomer` of carbon
count `k` has the digits of the parent before `p`, the digit of the parent plus 1
at `p`, the digit 0 at `p + 1` and, at `i + 1`, the digit of the parent at `i`
for every `i` after `p`; as a list it is `extend` of the parent code. -/
theorem candidate_digits (st : Store) (k I p isomer : Nat) (hk : 2 ≤ k) (hp1 : 1 ≤ p)
    (hp : p ≤ k - 1) :
    (∀ i, 1 ≤ i → i < p →
      get3 (write_candidate st k (k - 1) I p isomer) k isomer i = get3 st (k - 1) I i) ∧
    get3 (write_candidate st k (k - 1) I p isomer) k isomer p = get3 st (k - 1) I p + 1 ∧
    get3 (write_candidate st k (k - 1) I p isomer) k isomer (p + 1) = 0 ∧
    (∀ i, p < i → i ≤ k - 1 →
      get3 (write_candidate st k (k - 1) I p isomer) k isomer (i + 1) = get3 st (k - 1) I i) ∧
    code_digits (write_candidate st k (k - 1) I p isomer) k isomer =
      extend (code_digits st (k - 1) I) p := by
  have hw := get3_write_candidate st k (k - 1) I p isomer (by omega) hp1 (by omega)
  refine ⟨?_, ?_, ?_, ?_, code_digits_write_candidate st k I p isomer (by omega) hp1 hp⟩
  · intro i hi1 hi2
    rw [hw, if_pos ⟨rfl, rfl, hi1, by omega⟩, if_pos hi2]
  · rw [hw, if_pos ⟨rfl, rfl, hp1, by omega⟩, if_neg (by omega), if_pos rfl]
  · rw [hw, if_pos ⟨rfl, rfl, by omega, by omega⟩, if_neg (by omega), if_neg (by omega),
      if_pos rfl]
  · intro i hi1 hi2
    rw [hw, if_pos ⟨rfl, rfl, by omega, by omega⟩, if_neg (by omega), if_neg (by omega),
      if_neg (by omega), Nat.add_sub_cancel]

set_option maxRecDepth 100000 in
theorem candidate_digits_witness :
    (∀ i, 1 ≤ i → i < 2 →
      get3 (write_candidate (main_loop false 3) 4 (4 - 1) 1 2 3) 4 3 i =
        get3 (main_loop false 3) (4 - 1) 1 i) ∧
    get3 (write_candidate (main_loop false 3) 4 (4 - 1) 1 2 3) 4 3 2 =
      get3 (main_loop false 3) (4 - 1) 1 2 + 1 ∧
    get3 (write_candidate (main_loop false 3) 4 (4 - 1) 1 2 3) 4 3 (2 + 1) = 0 ∧
    (∀ i, 2 < i → i ≤ 4 - 1 →
      get3 (write_candidate (main_loop false 3) 4 (4 - 1) 1 2 3) 4 3 (i + 1) =
        get3 (main_loop false 3) (4 - 1) 1 i) ∧
    code_digits (write_candidate (main_loop false 3) 4 (4 - 1) 1 2 3) 4 3 =
      extend (code_digits (main_loop false 3) (4 - 1) 1) 2 :=
  candidate_digits (main_loop false 3) 4 1 2 3 (by decide) (by decide) (by decide)

/-! ## Results: the rounds of `morgans_algorithm` -/

/-- C18: `morgans_algorithm` is `CarbonAmount / 3 + 1` passes of `morgans_round`
started with the given table; the values it leaves at the positions 1 to
`CarbonAmount` of the row are the values it found there after
`CarbonAmount / 3 + 1` synchronous rounds, where one round gives every atom the
sum of the values that the neighbour entries of its row of `connections` had
before the round; no other cell of the table changes. -/
theorem algorithm_rounds (isomer CarbonAmount : Nat) (morgans : Morgans)
    (connections : Connections) :
    morgans_algorithm isomer CarbonAmount morgans connections =
      (forLoop (fun _ mt => morgans_round isomer CarbonAmount connections mt)
        0 (CarbonAmount / 3 + 1) (morgans, [])).1 ∧
    row_values (morgans_algorithm isomer CarbonAmount morgans connections) isomer CarbonAmount =
      morgan_rounds connections CarbonAmount (CarbonAmount / 3 + 1)
        (row_values morgans isomer CarbonAmount) ∧
    (∀ v : List Int, morgan_round connections CarbonAmount v =
      (List.range' 1 CarbonAmount).map
        (fun p => ((neighbours connections p).map (fun q => getA 0 (0 :: v) q)).sum)) ∧
    (∀ m : Morgans,
      row_values (morgans_round isomer CarbonAmount connections (m, [])).1 isomer CarbonAmount =
        morgan_round connections CarbonAmount (row_values m isomer CarbonAmount)) ∧
    ∀ a b, ¬ (a = isomer ∧ 1 ≤ b ∧ b ≤ CarbonAmount) →
      getM (morgans_algorithm isomer CarbonAmount morgans connections) a b = getM morgans a b := by
  refine ⟨rfl, row_values_algorithm isomer CarbonAmount morgans connections, fun v => rfl, ?_,
    algorithm_frame isomer CarbonAmount morgans connections⟩
  intro m
  exact row_values_round isomer CarbonAmount connections m [] (fun q _ => getA_nil 0 q)

/-! ## Results: termination of the uniqueness scan -/

/-- C21: for a slot `isomer` of at least 1 and any table, the scan of
`check_morgan_uniqueness` leaves its loop within `isomer` passes, whatever
number of passes at least `isomer` it is allowed: it ends with `twin_found = 1`
at a row `j0` between 1 and `isomer`, the first row that agrees with row
`isomer` on the positions 1 to `CarbonAmount`. -/
theorem uniqueness_scan_terminates (isomer CarbonAmount : Nat) (morgans : Morgans) (fuel : Nat)
    (hi : 1 ≤ isomer) (hf : isomer ≤ fuel) :
    ∃ j0, 1 ≤ j0 ∧ j0 ≤ isomer ∧
      twin_scan isomer CarbonAmount morgans fuel 0 0 = (1, j0) ∧
      twin_scan isomer CarbonAmount morgans isomer 0 0 = (1, j0) ∧
      row_values morgans isomer CarbonAmount = row_values morgans j0 CarbonAmount ∧
      ∀ j, 1 ≤ j → j < j0 →
        row_values morgans isomer CarbonAmount ≠ row_values morgans j CarbonAmount := by
  obtain ⟨j0, h1, h2, h3, h4, h5⟩ := twin_scan_terminates isomer CarbonAmount morgans hi
  refine ⟨j0, h1, h2, ?_, h3, h4, h5⟩
  exact twin_scan_first isomer CarbonAmount morgans fuel 0 j0 (by omega) (by omega) h4
    (fun j hj1 hj2 => h5 j (by omega) hj2)

theorem uniqueness_scan_terminates_witness :
    ∃ j0, 1 ≤ j0 ∧ j0 ≤ 3 ∧
      twin_scan 3 2 [[], [0, 5, 3], [0, 4, 4], [0, 5, 3]] 10 0 0 = (1, j0) ∧
      twin_scan 3 2 [[], [0, 5, 3], [0, 4, 4], [0, 5, 3]] 3 0 0 = (1, j0) ∧
      row_values [[], [0, 5, 3], [0, 4, 4], [0, 5, 3]] 3 2 =
        row_values [[], [0, 5, 3], [0, 4, 4], [0, 5, 3]] j0 2 ∧
      ∀ j, 1 ≤ j → j < j0 →
        row_values [[], [0, 5, 3], [0, 4, 4], [0, 5, 3]] 3 2 ≠
          row_values [[], [0, 5, 3], [0, 4, 4], [0, 5, 3]] j 2 :=
  uniqueness_scan_terminates 3 2 [[], [0, 5, 3], [0, 4, 4], [0, 5, 3]] 10 (by decide) (by decide)

/-! ## Results: reuse of a slot -/

/-- C26: let two stores agree outside slot `isomer` of carbon count `k` and two
tables agree outside row `isomer`.  Then writing the candidate for parent `I`
and position `p` into slot `isomer` and examining it gives, on both, the same
digits 1 to `k` (the extension of the parent code), the same signature in row
`isomer`, and the same decision. -/
theorem slot_reuse (st st' : Store) (m m' : Morgans) (k I p isomer : Nat)
    (hk : 2 ≤ k) (hp1 : 1 ≤ p) (hp : p ≤ k - 1) (hi : 1 ≤ isomer)
    (hst : ∀ a b c, ¬ (a = k ∧ b = isomer) → get3 st a b c = get3 st' a b c)
    (hm : ∀ a b, a ≠ isomer → getM m a b = getM m' a b) :
    code_digits (write_candidate st k (k - 1) I p isomer) k isomer =
      extend (code_digits st (k - 1) I) p ∧
    code_digits (write_candidate st' k (k - 1) I p isomer) k isomer =
      code_digits (write_candidate st k (k - 1) I p isomer) k isomer ∧
    row_values (check_Isomers (write_candidate st k (k - 1) I p isomer) isomer k m).2 isomer k =
      signature k (extend (code_digits st (k - 1) I) p) ∧
    row_values (check_Isomers (write_candidate st' k (k - 1) I p isomer) isomer k m').2
        isomer k =
      row_values (check_Isomers (write_candidate st k (k - 1) I p isomer) isomer k m).2
        isomer k ∧
    ((check_Isomers (write_candidate st k (k - 1) I p isomer) isomer k m).1 = 1 ↔
      ∀ j, 1 ≤ j → j < isomer →
        row_values m j k ≠ signature k (extend (code_digits st (k - 1) I) p)) ∧
    (check_Isomers (write_candidate st' k (k - 1) I p isomer) isomer k m').1 =
      (check_Isomers (write_candidate st k (k - 1) I p isomer) isomer k m).1 := by
  have hpar : code_digits st (k - 1) I = code_digits st' (k - 1) I :=
    code_digits_congr st st' (k - 1) I I (fun b _ _ => hst (k - 1) I b (by omega))
  have hc := code_digits_write_candidate st k I p isomer (by omega) hp1 hp
  have hc' := code_digits_write_candidate st' k I p isomer (by omega) hp1 hp
  have hcc : code_digits (write_candidate st' k (k - 1) I p isomer) k isomer =
      code_digits (write_candidate st k (k - 1) I p isomer) k isomer := by
    rw [hc, hc', hpar]
  have hr := check_Isomers_result (write_candidate st k (k - 1) I p isomer) isomer k m hi
  have hr' := check_Isomers_result (write_candidate st' k (k - 1) I p isomer) isomer k m' hi
  rw [hc] at hr
  rw [hc', ← hpar] at hr'
  refine ⟨hc, hcc, ?_, ?_, hr, ?_⟩
  · rw [check_Isomers_row, hc]
  · rw [check_Isomers_row, check_Isomers_row, hcc]
  · have hiff : (check_Isomers (write_candidate st' k (k - 1) I p isomer) isomer k m').1 = 1 ↔
        (check_Isomers (write_candidate st k (k - 1) I p isomer) isomer k m).1 = 1 := by
      rw [hr, hr']
      constructor
      · intro hall j hj1 hj2
        rw [row_values_congr m m' j j k (fun b => hm j b (by omega))]
        exact hall j hj1 hj2
      · intro hall j hj1 hj2
        rw [← row_values_congr m m' j j k (fun b => hm j b (by omega))]
        exact hall j hj1 hj2
    rcases check_Isomers_zero_or_one (write_candidate st' k (k - 1) I p isomer) isomer k m'
      with h1 | h1
    · rw [h1, hiff.mp h1]
    · rcases check_Isomers_zero_or_one (write_candidate st k (k - 1) I p isomer) isomer k m
        with h2 | h2
      · have := hiff.mpr h2
        rw [h1] at this
        exact absurd this (by decide)
      · rw [h1, h2]

theorem slot_reuse_witness :
    code_digits (write_candidate methane 2 (2 - 1) 1 1 1) 2 1 =
      extend (code_digits methane (2 - 1) 1) 1 ∧
    code_digits (write_candidate (set3 methane 2 1 2 7) 2 (2 - 1) 1 1 1) 2 1 =
      code_digits (write_candidate methane 2 (2 - 1) 1 1 1) 2 1 ∧
    row_values (check_Isomers (write_candidate methane 2 (2 - 1) 1 1 1) 1 2 []).2 1 2 =
      signature 2 (extend (code_digits methane (2 - 1) 1) 1) ∧
    row_values
        (check_Isomers (write_candidate (set3 methane 2 1 2 7) 2 (2 - 1) 1 1 1) 1 2
          (setM [] 1 0 9)).2 1 2 =
      row_values (check_Isomers (write_candidate methane 2 (2 - 1) 1 1 1) 1 2 []).2 1 2 ∧
    ((check_Isomers (write_candidate methane 2 (2 - 1) 1 1 1) 1 2 []).1 = 1 ↔
      ∀ j, 1 ≤ j → j < 1 →
        row_values [] j 2 ≠ signature 2 (extend (code_digits methane (2 - 1) 1) 1)) ∧
    (check_Isomers (write_candidate (set3 methane 2 1 2 7) 2 (2 - 1) 1 1 1) 1 2
        (setM [] 1 0 9)).1 =
      (check_Isomers (write_candidate methane 2 (2 - 1) 1 1 1) 1 2 []).1 :=
  slot_reuse methane (set3 methane 2 1 2 7) [] (setM [] 1 0 9) 2 1 1 1
    (by decide) (by decide) (by decide) (by decide)
    (fun a b c h => by
      rw [get3_set3, if_neg (fun h2 => h ⟨h2.1, h2.2.1⟩)])
    (fun a b h => by
      rw [getM_setM, if_neg (fun h2 => h h2.1)])

/-! ## Codes of forests -/

theorem forest_length_code (F : Forest) : F.code.length = F.size := by
  induction F with
  | nil => rfl
  | cons ch sib ihc ihs =>
    simp only [Forest.code, Forest.size, List.length_cons, List.length_append, ihc, ihs]

theorem scan_children_nonpos (c f : Int) (digit : Nat) (l : List Int) (hc : ¬ 0 < c) :
    scan_children c f digit l = [] := by
  cases l with
  | nil => rfl
  | cons x rest => rw [scan_children, if_neg hc]

/-- The scan passes over the complete subtrees that are pending. -/
theorem scan_children_forest (G : Forest) (c g : Int) (hg : 0 ≤ g) (digit : Nat)
    (rest : List Int) :
    scan_children c ((G.count : Int) + g) digit (G.code ++ rest) =
      scan_children c g (digit + G.size) rest := by
  induction G generalizing c g digit rest with
  | nil => simp [Forest.count, Forest.code, Forest.size]
  | cons ch sib ihc ihs =>
    by_cases hc : 0 < c
    · have hf : ¬ (((Forest.cons ch sib).count : Int) + g = 0) := by
        simp only [Forest.count]
        push_cast
        omega
      simp only [Forest.code, List.cons_append]
      rw [scan_children, if_pos hc, if_neg hf]
      have e : ((Forest.cons ch sib).count : Int) + g + (ch.count : Int) - 1 =
          (ch.count : Int) + ((sib.count : Int) + g) := by
        simp only [Forest.count]
        push_cast
        omega
      rw [e, List.append_assoc, ihc c _ (by omega), ihs c g hg]
      simp only [Forest.size]
      congr 1
      omega
    · rw [scan_children_nonpos _ _ _ _ hc, scan_children_nonpos _ _ _ _ hc]

/-- The scan for the remaining subtrees of an atom records the roots of these
subtrees. -/
theorem scan_children_roots (G : Forest) (digit : Nat) (rest : List Int) :
    scan_children (G.count : Int) 0 digit (G.code ++ rest) = Forest.roots digit G := by
  induction G generalizing digit rest with
  | nil =>
    exact scan_children_nonpos _ _ _ _ (by simp [Forest.count])
  | cons ch sib _ ihs =>
    have hc : (0 : Int) < ((Forest.cons ch sib).count : Int) := by
      simp only [Forest.count]
      push_cast
      omega
    simp only [Forest.code, List.cons_append]
    rw [scan_children, if_pos hc, if_pos rfl]
    have e1 : ((Forest.cons ch sib).count : Int) - 1 = (sib.count : Int) := by
      simp only [Forest.count]
      push_cast
      omega
    have e2 : (0 : Int) + (ch.count : Int) = (ch.count : Int) + 0 := by omega
    rw [e1, e2, List.append_assoc, scan_children_forest ch _ 0 (le_refl 0), ihs]
    rfl

/-- The bonds recorded for an atom with the subtrees `ch` go to the roots of
these subtrees. -/
theorem children_forest (ch : Forest) (p : Nat) (rest : List Int) :
    children p (ch.count : Int) (ch.code ++ rest) = Forest.roots (p + 1) ch := by
  cases ch with
  | nil => simp [children, Forest.count, Forest.roots]
  | cons c1 s1 =>
    have hv : ¬ (((Forest.cons c1 s1).count : Int) = 0) := by
      simp only [Forest.count]
      push_cast
      omega
    unfold children
    rw [if_pos hv]
    simp only [Forest.code, List.cons_append]
    have e1 : ((Forest.cons c1 s1).count : Int) - 1 = (s1.count : Int) := by
      simp only [Forest.count]
      push_cast
      omega
    have e2 : (0 : Int) + (c1.count : Int) = (c1.count : Int) + 0 := by omega
    rw [e1, e2, List.append_assoc, scan_children_forest c1 _ 0 (le_refl 0), scan_children_roots]
    rfl

/-- The bonds recorded for the code of a forest are the bonds of the forest. -/
theorem bonds_from_forest (F : Forest) (s : Nat) (rest : List Int) :
    bonds_from s (F.code ++ rest) = Forest.bonds s F ++ bonds_from (s + F.size) rest := by
  induction F generalizing s rest with
  | nil => simp [Forest.code, Forest.bonds, Forest.size]
  | cons ch sib ihc ihs =>
    have e : (Forest.cons ch sib).code ++ rest =
        (ch.count : Int) :: (ch.code ++ (sib.code ++ rest)) := by
      simp only [Forest.code, List.cons_append, List.append_assoc]
    have e2 : s + 1 + ch.size + sib.size = s + (Forest.cons ch sib).size := by
      simp only [Forest.size]
      omega
    rw [e, bonds_from, children_forest, ihc, ihs, e2]
    simp only [Forest.bonds, List.append_assoc]

theorem well_formed_iff (d : List Int) :
    well_formed d ↔ ∃ F : Forest, d = (Forest.cons F Forest.nil).code := by
  unfold well_formed
  simp only [Forest.code, List.append_nil]

theorem bonds_from_tree (F : Forest) :
    bonds_from 1 ((F.count : Int) :: F.code) = Forest.bonds 1 (Forest.cons F Forest.nil) := by
  have h := bonds_from_forest (Forest.cons F Forest.nil) 1 []
  have e : (Forest.cons F Forest.nil).code ++ [] = (F.count : Int) :: F.code := by
    simp only [Forest.code, List.append_nil]
  rw [e] at h
  rw [h]
  simp only [bonds_from, List.append_nil]

/-! ## Extension of a forest -/

theorem forest_count_grow (F : Forest) (i : Nat) : (F.grow i).count = F.count := by
  induction F generalizing i with
  | nil => cases i <;> rfl
  | cons ch sib _ ihs =>
    cases i with
    | zero => rfl
    | succ i =>
      simp only [Forest.grow]
      split
      · rfl
      · simp only [Forest.count, ihs]

theorem forest_size_grow (F : Forest) (i : Nat) (hi : i < F.size) :
    (F.grow i).size = F.size + 1 := by
  induction F generalizing i with
  | nil => simp [Forest.size] at hi
  | cons ch sib ihc ihs =>
    cases i with
    | zero =>
      simp only [Forest.grow, Forest.size]
      omega
    | succ i =>
      simp only [Forest.grow]
      simp only [Forest.size] at hi
      split
      · rename_i h
        simp only [Forest.size, ihc i h]
        omega
      · rename_i h
        simp only [Forest.size, ihs (i - ch.size) (by omega)]
        omega

theorem extend_append_left (l1 l2 : List Int) (i : Nat) (hi : i < l1.length) :
    extend (l1 ++ l2) (i + 1) = extend l1 (i + 1) ++ l2 := by
  induction l1 generalizing i with
  | nil => simp at hi
  | cons a t ih =>
    cases i with
    | zero => simp [extend, digit, getA]
    | succ i =>
      rw [List.cons_append, extend_cons_succ, extend_cons_succ, ih i (by simpa using hi),
        List.cons_append]

theorem extend_append_right (l1 l2 : List Int) (i : Nat) :
    extend (l1 ++ l2) (l1.length + i + 1) = l1 ++ extend l2 (i + 1) := by
  induction l1 with
  | nil => simp
  | cons a t ih =>
    have e : (a :: t).length + i + 1 = (t.length + i) + 2 := by
      simp only [List.length_cons]
      omega
    rw [List.cons_append, e, extend_cons_succ, ih, List.cons_append]

/-- Extending the code of a forest at the position of one of its atoms gives
the code of the forest with a leaf attached to that atom. -/
theorem code_grow (F : Forest) (i : Nat) (hi : i < F.size) :
    (F.grow i).code = extend F.code (i + 1) := by
  induction F generalizing i with
  | nil => simp [Forest.size] at hi
  | cons ch sib ihc ihs =>
    cases i with
    | zero =>
      simp only [Forest.grow, Forest.code, Forest.count, extend, digit, getA]
      simp
    | succ i =>
      simp only [Forest.size] at hi
      simp only [Forest.grow]
      split
      · rename_i h
        simp only [Forest.code]
        rw [extend_cons_succ, ihc i h, forest_count_grow,
          extend_append_left _ _ _ (by rw [forest_length_code]; exact h)]
      · rename_i h
        simp only [Forest.code]
        rw [extend_cons_succ, ihs (i - ch.size) (by omega)]
        have e : i = ch.code.length + (i - ch.size) := by
          rw [forest_length_code]
          omega
        conv_rhs => rw [e]
        rw [extend_append_right]

theorem well_formed_length (d : List Int) (h : well_formed d) : 1 ≤ d.length := by
  obtain ⟨F, rfl⟩ := h
  simp

/-- The extension of a well-formed code at one of its positions is well formed. -/
theorem well_formed_extend (d : List Int) (C : Nat) (h1 : 1 ≤ C) (h2 : C ≤ d.length)
    (h : well_formed d) : well_formed (extend d C) := by
  rw [well_formed_iff] at h ⊢
  obtain ⟨F, rfl⟩ := h
  obtain ⟨i, rfl⟩ : ∃ i, C = i + 1 := ⟨C - 1, by omega⟩
  rw [forest_length_code] at h2
  rw [← code_grow _ i (by omega)]
  cases i with
  | zero => exact ⟨Forest.cons Forest.nil F, rfl⟩
  | succ i =>
    simp only [Forest.size] at h2
    simp only [Forest.grow]
    rw [if_pos (by omega)]
    exact ⟨F.grow i, rfl⟩

theorem level_well_formed (n : Nat) : ∀ d, d ∈ level n → well_formed d := by
  induction n with
  | zero =>
    intro d hd
    have : d = [0] := by simpa [level] using hd
    subst this
    exact ⟨Forest.nil, rfl⟩
  | succ n ih =>
    intro d hd
    rw [level, generate_codes] at hd
    have hd2 := (first_of_each_sublist (signature (n + 2)) [] _).subset hd
    rw [mem_candidates] at hd2
    obtain ⟨d0, hd0, C, hC1, hC2, _, rfl⟩ := hd2
    have hl := (level_ok n d0 hd0).1
    exact well_formed_extend d0 C hC1 (by omega) (ih d0 hd0)

/-! ## Positions in a forest -/

theorem roots_bounds (F : Forest) (s q : Nat) (h : q ∈ Forest.roots s F) :
    s ≤ q ∧ q < s + F.size := by
  induction F generalizing s with
  | nil => simp [Forest.roots] at h
  | cons ch sib _ ihs =>
    simp only [Forest.roots, List.mem_cons] at h
    simp only [Forest.size]
    rcases h with h | h
    · omega
    · have := ihs _ h
      omega

theorem roots_length (F : Forest) (s : Nat) : (Forest.roots s F).length = F.count := by
  induction F generalizing s with
  | nil => rfl
  | cons ch sib _ ihs => simp only [Forest.roots, Forest.count, List.length_cons, ihs]

theorem roots_nodup (F : Forest) (s : Nat) : (Forest.roots s F).Nodup := by
  induction F generalizing s with
  | nil => exact List.nodup_nil
  | cons ch sib _ ihs =>
    simp only [Forest.roots]
    rw [List.nodup_cons]
    refine ⟨fun h => ?_, ihs _⟩
    have := roots_bounds _ _ _ h
    omega

theorem roots_head (F : Forest) (s q : Nat) (l : List Nat) (h : Forest.roots s F = q :: l) :
    q = s := by
  cases F with
  | nil => simp [Forest.roots] at h
  | cons ch sib =>
    simp only [Forest.roots, List.cons.injEq] at h
    exact h.1.symm

theorem forest_bonds_bounds (F : Forest) (s : Nat) (ab : Nat × Nat)
    (h : ab ∈ Forest.bonds s F) : s ≤ ab.1 ∧ ab.1 < ab.2 ∧ ab.2 < s + F.size := by
  induction F generalizing s with
  | nil => simp [Forest.bonds] at h
  | cons ch sib ihc ihs =>
    simp only [Forest.bonds, List.mem_append, List.mem_map] at h
    simp only [Forest.size]
    rcases h with (⟨q, hq, rfl⟩ | h) | h
    · have := roots_bounds _ _ _ hq
      simp only
      omega
    · have := ihc _ h
      omega
    · have := ihs _ h
      omega

/-- The atoms that occur as the later end of a bond of a forest are the atoms
of the forest that are not roots of its trees. -/
theorem mem_snd_forest_bonds (F : Forest) (s q : Nat) :
    q ∈ (Forest.bonds s F).map Prod.snd ↔
      s ≤ q ∧ q < s + F.size ∧ q ∉ Forest.roots s F := by
  induction F generalizing s with
  | nil =>
    simp only [Forest.bonds, Forest.size, List.map_nil, List.not_mem_nil, false_iff]
    intro h
    omega
  | cons ch sib ihc ihs =>
    simp only [Forest.bonds, List.map_append, List.mem_append, List.map_map, Forest.size,
      Forest.roots, List.mem_cons, not_or]
    rw [ihc, ihs]
    have hmap : q ∈ List.map (Prod.snd ∘ fun q => (s, q)) (Forest.roots (s + 1) ch) ↔
        q ∈ Forest.roots (s + 1) ch := by
      simp [List.mem_map]
    rw [hmap]
    constructor
    · rintro ((h | h) | h)
      · have := roots_bounds _ _ _ h
        refine ⟨by omega, by omega, by omega, fun h2 => ?_⟩
        have := roots_bounds _ _ _ h2
        omega
      · refine ⟨by omega, by omega, by omega, fun h2 => ?_⟩
        have := roots_bounds _ _ _ h2
        omega
      · exact ⟨by omega, by omega, by omega, h.2.2⟩
    · rintro ⟨h1, h2, h3, h4⟩
      by_cases hq : q < s + 1 + ch.size
      · by_cases hr : q ∈ Forest.roots (s + 1) ch
        · exact Or.inl (Or.inl hr)
        · exact Or.inl (Or.inr ⟨by omega, by omega, hr⟩)
      · exact Or.inr ⟨by omega, by omega, h4⟩

/-- No atom is the later end of two bonds of a forest. -/
theorem nodup_snd_forest_bonds (F : Forest) (s : Nat) :
    ((Forest.bonds s F).map Prod.snd).Nodup := by
  induction F generalizing s with
  | nil => exact List.nodup_nil
  | cons ch sib ihc ihs =>
    simp only [Forest.bonds, List.map_append, List.map_map]
    have hmap : List.map (Prod.snd ∘ fun q => (s, q)) (Forest.roots (s + 1) ch) =
        Forest.roots (s + 1) ch := by
      simp [Function.comp_def]
    rw [hmap]
    rw [List.nodup_append]
    refine ⟨?_, ihs _, ?_⟩
    · rw [List.nodup_append]
      refine ⟨roots_nodup _ _, ihc _, ?_⟩
      intro q h1 h2
      rw [mem_snd_forest_bonds] at h2
      exact h2.2.2 h1
    · intro q h1 h2
      rw [mem_snd_forest_bonds] at h2
      rw [List.mem_append, mem_snd_forest_bonds] at h1
      rcases h1 with h1 | h1
      · have := roots_bounds _ _ _ h1
        omega
      · omega

/-! ## Digit sums -/

theorem forest_sum_code (F : Forest) : F.code.sum + (F.count : Int) = (F.size : Int) := by
  induction F with
  | nil => rfl
  | cons ch sib ihc ihs =>
    simp only [Forest.code, Forest.count, Forest.size, List.sum_cons, List.sum_append]
    push_cast
    omega

/-- Every proper initial part of the code of a forest leaves a subtree open. -/
theorem forest_sum_take (F : Forest) (i : Nat) (hi : i < F.size) :
    (i : Int) + 1 ≤ (F.code.take i).sum + (F.count : Int) := by
  induction F generalizing i with
  | nil => simp [Forest.size] at hi
  | cons ch sib ihc ihs =>
    simp only [Forest.size] at hi
    cases i with
    | zero =>
      simp only [List.take_zero, List.sum_nil, Forest.count]
      push_cast
      omega
    | succ j =>
      simp only [Forest.code, List.take_succ_cons, List.sum_cons, Forest.count]
      by_cases hj : j < ch.size
      · have h1 := ihc j hj
        rw [List.take_append_of_le_length (by rw [forest_length_code]; omega)]
        push_cast
        omega
      · have h1 := ihs (j - ch.size) (by omega)
        have h2 := forest_sum_code ch
        have e : j = ch.code.length + (j - ch.size) := by
          rw [forest_length_code]
          omega
        rw [e, List.take_append, List.sum_append]
        push_cast
        have e3 : ((j - ch.size : Nat) : Int) = (j : Int) - (ch.size : Int) := by omega
        rw [forest_length_code]
        push_cast at h1 ⊢
        omega

theorem forest_last_digit (F : Forest) (h : F ≠ Forest.nil) :
    getA (-1) F.code (F.size - 1) = 0 := by
  induction F with
  | nil => exact absurd rfl h
  | cons ch sib ihc ihs =>
    rw [getA_eq_getD]
    simp only [Forest.code, Forest.size]
    by_cases hs : sib = Forest.nil
    · subst hs
      by_cases hc : ch = Forest.nil
      · subst hc
        rfl
      · have h1 := ihc hc
        rw [getA_eq_getD] at h1
        have hpos : 1 ≤ ch.size := by
          cases ch with
          | nil => exact absurd rfl hc
          | cons a b => simp only [Forest.size]; omega
        simp only [Forest.code, Forest.size, List.append_nil]
        have e : ch.size + 0 + 1 - 1 = (ch.size - 1) + 1 := by omega
        rw [e, List.getD_cons_succ]
        exact h1
    · have h1 := ihs hs
      rw [getA_eq_getD] at h1
      have hpos : 1 ≤ sib.size := by
        cases sib with
        | nil => exact absurd rfl hs
        | cons a b => simp only [Forest.size]; omega
      have e : ch.size + sib.size + 1 - 1 = (ch.code.length + (sib.size - 1)) + 1 := by
        rw [forest_length_code]
        omega
      rw [e, List.getD_cons_succ, List.getD_append_right _ _ _ _ (by omega)]
      simpa using h1

/-! ## The subtree at a position -/

/-- Every position of the code of a forest starts the code of a tree: the number
of its subtrees followed by their codes. -/
theorem forest_at (F : Forest) (i : Nat) (hi : i < F.size) :
    ∃ (ch : Forest) (rest : List Int), F.code.drop i = (ch.count : Int) :: (ch.code ++ rest) := by
  induction F generalizing i with
  | nil => simp [Forest.size] at hi
  | cons ch sib ihc ihs =>
    simp only [Forest.size] at hi
    cases i with
    | zero => exact ⟨ch, sib.code, rfl⟩
    | succ j =>
      simp only [Forest.code, List.drop_succ_cons]
      by_cases hj : j < ch.size
      · obtain ⟨c, rest, h⟩ := ihc j hj
        refine ⟨c, rest ++ sib.code, ?_⟩
        rw [List.drop_append_of_le_length (by rw [forest_length_code]; omega), h]
        simp
      · obtain ⟨c, rest, h⟩ := ihs (j - ch.size) (by omega)
        refine ⟨c, rest, ?_⟩
        have e : j = ch.code.length + (j - ch.size) := by
          rw [forest_length_code]
          omega
        rw [e, List.drop_append, h]

theorem skip_subtrees_nonpos (c : Int) (pos : Nat) (l : List Int) (hc : ¬ 0 < c) :
    skip_subtrees c pos l = pos := by
  cases l with
  | nil => rfl
  | cons x rest => rw [skip_subtrees, if_neg hc]

theorem skip_subtrees_forest (G : Forest) (g : Int) (hg : 0 ≤ g) (pos : Nat) (rest : List Int) :
    skip_subtrees ((G.count : Int) + g) pos (G.code ++ rest) =
      skip_subtrees g (pos + G.size) rest := by
  induction G generalizing g pos rest with
  | nil => simp [Forest.count, Forest.code, Forest.size]
  | cons ch sib ihc ihs =>
    have hf : (0 : Int) < ((Forest.cons ch sib).count : Int) + g := by
      simp only [Forest.count]
      push_cast
      omega
    simp only [Forest.code, List.cons_append]
    rw [skip_subtrees, if_pos hf]
    have e : ((Forest.cons ch sib).count : Int) + g - 1 + (ch.count : Int) =
        (ch.count : Int) + ((sib.count : Int) + g) := by
      simp only [Forest.count]
      push_cast
      omega
    have e2 : pos + 1 + ch.size + sib.size = pos + (Forest.cons ch sib).size := by
      simp only [Forest.size]
      omega
    rw [e, List.append_assoc, ihc _ (by omega), ihs g hg, e2]

/-- The subtree of an atom with the subtrees `ch` ends after the atoms of `ch`. -/
theorem skip_subtrees_tree (ch : Forest) (pos : Nat) (rest : List Int) :
    skip_subtrees 1 pos ((ch.count : Int) :: (ch.code ++ rest)) = pos + 1 + ch.size := by
  rw [skip_subtrees, if_pos (by decide)]
  have e : (1 : Int) - 1 + (ch.count : Int) = (ch.count : Int) + 0 := by omega
  rw [e, skip_subtrees_forest ch 0 (le_refl 0), skip_subtrees_nonpos _ _ _ (by decide)]

/-! ## Neighbour lists of a list of bonds -/

theorem mem_adjacency (B : List (Nat × Nat)) (p q : Nat) :
    q ∈ adjacency B p ↔ (p, q) ∈ B ∨ (q, p) ∈ B := by
  induction B with
  | nil => simp [adjacency_nil]
  | cons ab B ih =>
    obtain ⟨a, b⟩ := ab
    rw [adjacency_cons, List.mem_append, ih]
    simp only [List.mem_cons, Prod.mk.injEq]
    by_cases h1 : a = p
    · rw [if_pos h1]
      simp only [List.mem_singleton]
      constructor
      · rintro (h | h | h)
        · exact Or.inl (Or.inl ⟨h1.symm, h⟩)
        · exact Or.inl (Or.inr h)
        · exact Or.inr (Or.inr h)
      · rintro ((⟨_, h⟩ | h) | (⟨h2, h3⟩ | h))
        · exact Or.inl h
        · exact Or.inr (Or.inl h)
        · exact Or.inl (by omega)
        · exact Or.inr (Or.inr h)
    · rw [if_neg h1]
      by_cases h2 : b = p
      · rw [if_pos h2]
        simp only [List.mem_singleton]
        constructor
        · rintro (h | h | h)
          · exact Or.inr (Or.inl ⟨h, h2.symm⟩)
          · exact Or.inl (Or.inr h)
          · exact Or.inr (Or.inr h)
        · rintro ((⟨h3, _⟩ | h) | (⟨h3, _⟩ | h))
          · exact absurd h3.symm h1
          · exact Or.inr (Or.inl h)
          · exact Or.inl h3
          · exact Or.inr (Or.inr h)
      · rw [if_neg h2]
        simp only [List.not_mem_nil, false_or]
        constructor
        · rintro (h | h)
          · exact Or.inl (Or.inr h)
          · exact Or.inr (Or.inr h)
        · rintro ((⟨h3, _⟩ | h) | (⟨_, h3⟩ | h))
          · exact absurd h3.symm h1
          · exact Or.inl h
          · exact absurd h3.symm h2
          · exact Or.inr h

theorem adjacency_symm (B : List (Nat × Nat)) (p q : Nat) :
    q ∈ adjacency B p ↔ p ∈ adjacency B q := by
  rw [mem_adjacency, mem_adjacency]
  exact Or.comm

theorem adjacency_length_le (B : List (Nat × Nat)) (p : Nat) :
    (adjacency B p).length ≤ B.length := by
  unfold adjacency
  exact List.length_filterMap_le _ _

theorem adjacency_nodup (B : List (Nat × Nat)) (p : Nat)
    (hlt : ∀ ab, ab ∈ B → ab.1 < ab.2) (hnd : (B.map Prod.snd).Nodup) :
    (adjacency B p).Nodup := by
  induction B with
  | nil => exact List.nodup_nil
  | cons ab B ih =>
    obtain ⟨a, b⟩ := ab
    rw [List.map_cons, List.nodup_cons] at hnd
    have hlt0 := hlt (a, b) (List.mem_cons_self _ _)
    simp only at hlt0
    have ih2 := ih (fun ab h => hlt ab (List.mem_cons_of_mem _ h)) hnd.2
    have hsnd : ∀ x y, (x, y) ∈ B → y ∈ B.map Prod.snd :=
      fun x y h => List.mem_map.mpr ⟨(x, y), h, rfl⟩
    rw [adjacency_cons]
    by_cases h1 : a = p
    · rw [if_pos h1]
      simp only [List.singleton_append]
      rw [List.nodup_cons]
      refine ⟨fun h => ?_, ih2⟩
      rw [mem_adjacency] at h
      rcases h with h | h
      · exact hnd.1 (hsnd _ _ h)
      · have := hlt (b, p) (List.mem_cons_of_mem _ h)
        simp only at this
        omega
    · rw [if_neg h1]
      by_cases h2 : b = p
      · rw [if_pos h2]
        simp only [List.singleton_append]
        rw [List.nodup_cons]
        refine ⟨fun h => ?_, ih2⟩
        rw [mem_adjacency] at h
        rcases h with h | h
        · have := hlt (p, a) (List.mem_cons_of_mem _ h)
          simp only at this
          omega
        · have := hsnd _ _ h
          rw [← h2] at this
          exact hnd.1 this
      · rw [if_neg h2]
        exact ih2

/-- The neighbours at later positions are the later ends of the bonds that start
at the atom. -/
theorem adjacency_later (B : List (Nat × Nat)) (p : Nat) (hlt : ∀ ab, ab ∈ B → ab.1 < ab.2) :
    (adjacency B p).filter (fun q => decide (p < q)) =
      (B.filter (fun ab => decide (ab.1 = p))).map Prod.snd := by
  induction B with
  | nil => rfl
  | cons ab B ih =>
    obtain ⟨a, b⟩ := ab
    have hlt0 := hlt (a, b) (List.mem_cons_self _ _)
    simp only at hlt0
    have ih2 := ih (fun ab h => hlt ab (List.mem_cons_of_mem _ h))
    rw [adjacency_cons, List.filter_append, ih2, List.filter_cons]
    by_cases h1 : a = p
    · simp only [h1, if_true, decide_True, List.map_cons]
      subst h1
      simp [List.filter_cons, hlt0]
    · have h3 : ¬ (p < a ∧ b = p) := by omega
      by_cases h2 : b = p
      · subst h2
        have : ¬ b < a := by omega
        simp [h1, List.filter_cons, this]
      · simp [h1, h2]

/-- The neighbours at earlier positions are the earlier ends of the bonds that
end at the atom. -/
theorem adjacency_earlier (B : List (Nat × Nat)) (p : Nat)
    (hlt : ∀ ab, ab ∈ B → ab.1 < ab.2) :
    (adjacency B p).filter (fun q => decide (q < p)) =
      (B.filter (fun ab => decide (ab.2 = p))).map Prod.fst := by
  induction B with
  | nil => rfl
  | cons ab B ih =>
    obtain ⟨a, b⟩ := ab
    have hlt0 := hlt (a, b) (List.mem_cons_self _ _)
    simp only at hlt0
    have ih2 := ih (fun ab h => hlt ab (List.mem_cons_of_mem _ h))
    rw [adjacency_cons, List.filter_append, ih2, List.filter_cons]
    by_cases h1 : a = p
    · subst h1
      have h2 : ¬ b = a := by omega
      have h3 : ¬ b < a := by omega
      simp [List.filter_cons, h2, h3]
    · by_cases h2 : b = p
      · subst h2
        simp [h1, List.filter_cons, hlt0]
      · simp [h1, h2]

theorem adjacency_split_length (B : List (Nat × Nat)) (p : Nat)
    (hlt : ∀ ab, ab ∈ B → ab.1 < ab.2) :
    (adjacency B p).length =
      ((adjacency B p).filter (fun q => decide (p < q))).length +
        ((adjacency B p).filter (fun q => decide (q < p))).length := by
  have hne : ∀ q, q ∈ adjacency B p → q ≠ p := by
    intro q hq
    rw [mem_adjacency] at hq
    rcases hq with h | h
    · have := hlt _ h
      simp only at this
      omega
    · have := hlt _ h
      simp only at this
      omega
  generalize adjacency B p = l at hne
  induction l with
  | nil => rfl
  | cons q l ih =>
    have h1 := hne q (List.mem_cons_self _ _)
    have ih2 := ih (fun x hx => hne x (List.mem_cons_of_mem _ hx))
    rw [List.filter_cons, List.filter_cons]
    by_cases h2 : p < q
    · have h3 : ¬ q < p := by omega
      simp only [h2, h3, decide_True, decide_False, if_true, List.length_cons]
      simp only [Bool.false_eq_true, if_false]
      omega
    · have h3 : q < p := by omega
      simp only [h2, h3, decide_True, decide_False, if_true, List.length_cons]
      simp only [Bool.false_eq_true, if_false]
      omega

theorem length_filter_snd (B : List (Nat × Nat)) (p : Nat) :
    (B.filter (fun ab => decide (ab.2 = p))).length = (B.map Prod.snd).count p := by
  induction B with
  | nil => rfl
  | cons ab B ih =>
    rw [List.filter_cons, List.map_cons, List.count_cons]
    by_cases h : ab.2 = p
    · simp [h, ih]
    · simp [h, ih]

/-- The bonds that start at position `p` are the bonds that the pass of
`morgans_splicing` for `p` records. -/
theorem bonds_from_filter (d : List Int) (s p : Nat) :
    (bonds_from s d).filter (fun ab => decide (ab.1 = p)) =
      if s ≤ p ∧ p < s + d.length then
        (children p (getA (-1) d (p - s)) (d.drop (p - s + 1))).map (fun q => (p, q))
      else [] := by
  induction d generalizing s with
  | nil =>
    have : ¬ (s ≤ p ∧ p < s + ([] : List Int).length) := by
      simp only [List.length_nil]
      omega
    rw [if_neg this]
    rfl
  | cons v rest ih =>
    rw [bonds_from, List.filter_append, ih]
    by_cases hsp : s = p
    · subst hsp
      have h1 : s ≤ s ∧ s < s + (v :: rest).length := by
        simp only [List.length_cons]
        omega
      have h2 : ¬ (s + 1 ≤ s ∧ s < s + 1 + rest.length) := by omega
      rw [if_pos h1, if_neg h2, List.append_nil, Nat.sub_self]
      have h3 : List.filter (fun ab => decide (ab.1 = s))
          (List.map (fun q => (s, q)) (children s v rest)) =
          List.map (fun q => (s, q)) (children s v rest) := by
        rw [List.filter_eq_self]
        intro ab hab
        rw [List.mem_map] at hab
        obtain ⟨q, _, rfl⟩ := hab
        simp
      rw [h3]
      rfl
    · have h3 : List.filter (fun ab => decide (ab.1 = p))
          (List.map (fun q => (s, q)) (children s v rest)) = [] := by
        rw [List.filter_eq_nil_iff]
        intro ab hab
        rw [List.mem_map] at hab
        obtain ⟨q, _, rfl⟩ := hab
        simp [hsp]
      rw [h3, List.nil_append]
      by_cases h1 : s + 1 ≤ p ∧ p < s + 1 + rest.length
      · have h2 : s ≤ p ∧ p < s + (v :: rest).length := by
          simp only [List.length_cons]
          omega
        rw [if_pos h1, if_pos h2]
        have e1 : p - s = (p - (s + 1)) + 1 := by omega
        rw [e1]
        rfl
      · have h2 : ¬ (s ≤ p ∧ p < s + (v :: rest).length) := by
          simp only [List.length_cons]
          omega
        rw [if_neg h1, if_neg h2]

/-! ## The connectivity of a well-formed code -/

theorem forest_bonds_length (F : Forest) (s : Nat) :
    (Forest.bonds s F).length + F.count = F.size := by
  induction F generalizing s with
  | nil => rfl
  | cons ch sib ihc ihs =>
    simp only [Forest.bonds, Forest.count, Forest.size, List.length_append, List.length_map,
      roots_length]
    have h1 := ihc (s + 1)
    have h2 := ihs (s + 1 + ch.size)
    omega

theorem splicing_neighbours (st : Store) (i k : Nat) (m : Morgans) (q : Nat) :
    neighbours (morgans_splicing st i k m []).2 q =
      adjacency (bonds_from 1 (code_digits st k i)) q := by
  rw [morgans_splicing_eq]
  simp only
  rw [connections_eq_connOf, neighbours_connOf _ _ (length_code_digits st k i)]

theorem length_neighbours (T : Connections) (p : Nat) : (neighbours T p).length = getC T p 0 := by
  unfold neighbours
  rw [List.length_map, List.length_range']

theorem tree_bonds_lt (F : Forest) (ab : Nat × Nat)
    (h : ab ∈ bonds_from 1 ((F.count : Int) :: F.code)) :
    1 ≤ ab.1 ∧ ab.1 < ab.2 ∧ ab.2 ≤ F.size + 1 := by
  rw [bonds_from_tree] at h
  have := forest_bonds_bounds _ _ _ h
  simp only [Forest.size] at this
  omega

theorem tree_bonds_length (F : Forest) :
    (bonds_from 1 ((F.count : Int) :: F.code)).length = F.size := by
  rw [bonds_from_tree]
  have := forest_bonds_length (Forest.cons F Forest.nil) 1
  simp only [Forest.count, Forest.size] at this
  omega

theorem tree_adjacency_range (F : Forest) (p q : Nat)
    (h : q ∈ adjacency (bonds_from 1 ((F.count : Int) :: F.code)) p) :
    1 ≤ p ∧ p ≤ F.size + 1 ∧ 1 ≤ q ∧ q ≤ F.size + 1 ∧ q ≠ p := by
  rw [mem_adjacency] at h
  rcases h with h | h
  · have := tree_bonds_lt F _ h
    simp only at this
    omega
  · have := tree_bonds_lt F _ h
    simp only at this
    omega

theorem tree_adjacency_nodup (F : Forest) (p : Nat) :
    (adjacency (bonds_from 1 ((F.count : Int) :: F.code)) p).Nodup := by
  apply adjacency_nodup
  · intro ab h
    exact (tree_bonds_lt F ab h).2.1
  · rw [bonds_from_tree]
    exact nodup_snd_forest_bonds _ _

/-- In the code of a tree every position starts the code of a subtree. -/
theorem tree_at (F : Forest) (p : Nat) (h1 : 1 ≤ p) (h2 : p ≤ F.size + 1) :
    ∃ (ch : Forest) (rest : List Int),
      ((F.count : Int) :: F.code).drop (p - 1) = (ch.count : Int) :: (ch.code ++ rest) := by
  have h := forest_at (Forest.cons F Forest.nil) (p - 1) (by simp only [Forest.size]; omega)
  simp only [Forest.code, List.append_nil] at h
  exact h

theorem drop_of_drop_pred (d : List Int) (p : Nat) (h1 : 1 ≤ p) (x : Int) (l : List Int)
    (h : d.drop (p - 1) = x :: l) : getA (-1) d (p - 1) = x ∧ d.drop p = l := by
  constructor
  · rw [getA_eq_getD]
    have := congrArg (fun t => t.getD 0 (-1)) h
    simp only [List.getD_cons_zero] at this
    rw [← this, List.getD_eq_getElem?_getD, List.getD_eq_getElem?_getD, List.getElem?_drop]
    simp
  · have := congrArg (fun t => t.drop 1) h
    simp only [List.drop_drop, List.drop_succ_cons, List.drop_zero] at this
    rw [← this]
    congr 1
    omega

/-- The later neighbours of a position of a tree code: the bonds recorded by the
pass for this position, which go to the roots of its subtrees. -/
theorem tree_later (F : Forest) (p : Nat) (h1 : 1 ≤ p) (h2 : p ≤ F.size + 1) :
    ∃ (ch : Forest) (rest : List Int),
      ((F.count : Int) :: F.code).drop (p - 1) = (ch.count : Int) :: (ch.code ++ rest) ∧
      digit ((F.count : Int) :: F.code) p = (ch.count : Int) ∧
      (adjacency (bonds_from 1 ((F.count : Int) :: F.code)) p).filter (fun q => decide (p < q)) =
        Forest.roots (p + 1) ch := by
  obtain ⟨ch, rest, h⟩ := tree_at F p h1 h2
  refine ⟨ch, rest, h, ?_, ?_⟩
  · obtain ⟨j, rfl⟩ : ∃ j, p = j + 1 := ⟨p - 1, by omega⟩
    rw [digit_succ]
    exact (drop_of_drop_pred _ (j + 1) h1 _ _ h).1
  · rw [adjacency_later _ _ (fun ab hab => (tree_bonds_lt F ab hab).2.1), bonds_from_filter]
    have hr : 1 ≤ p ∧ p < 1 + ((F.count : Int) :: F.code).length := by
      simp only [List.length_cons, forest_length_code]
      omega
    rw [if_pos hr]
    have e : p - 1 + 1 = p := by omega
    obtain ⟨hx, hl⟩ := drop_of_drop_pred _ p h1 _ _ h
    rw [e, hx, hl, children_forest, List.map_map]
    simp [Function.comp_def]

/-- The earlier neighbours of a position of a tree code: one for every position
but the first. -/
theorem tree_earlier (F : Forest) (p : Nat) (h1 : 1 ≤ p) (h2 : p ≤ F.size + 1) :
    ((adjacency (bonds_from 1 ((F.count : Int) :: F.code)) p).filter
      (fun q => decide (q < p))).length = if p = 1 then 0 else 1 := by
  rw [adjacency_earlier _ _ (fun ab hab => (tree_bonds_lt F ab hab).2.1), List.length_map,
    length_filter_snd, bonds_from_tree]
  have hmem := mem_snd_forest_bonds (Forest.cons F Forest.nil) 1 p
  simp only [Forest.roots, Forest.size, List.mem_cons, List.not_mem_nil, or_false] at hmem
  by_cases hp : p = 1
  · rw [if_pos hp]
    apply List.count_eq_zero_of_not_mem
    rw [hmem]
    intro h
    exact h.2.2 hp
  · rw [if_neg hp]
    apply List.count_eq_one_of_mem (nodup_snd_forest_bonds _ _)
    rw [hmem]
    exact ⟨h1, by omega, hp⟩

/-- The number of neighbours of a position of a tree code is its seed value. -/
theorem tree_degree (F : Forest) (p : Nat) (h1 : 1 ≤ p) (h2 : p ≤ F.size + 1) :
    ((adjacency (bonds_from 1 ((F.count : Int) :: F.code)) p).length : Int) =
      if p = 1 then digit ((F.count : Int) :: F.code) p
      else digit ((F.count : Int) :: F.code) p + 1 := by
  rw [adjacency_split_length _ _ (fun ab hab => (tree_bonds_lt F ab hab).2.1),
    tree_earlier F p h1 h2]
  obtain ⟨ch, rest, _, hd, hl⟩ := tree_later F p h1 h2
  rw [hl, roots_length, hd]
  by_cases hp : p = 1
  · rw [if_pos hp, if_pos hp]
    simp
  · rw [if_neg hp, if_neg hp]
    push_cast
    rfl

/-- Consecutive roots of a forest inside a code: each is the end of the subtree
of the one before. -/
theorem roots_chain (G : Forest) (d : List Int) (s : Nat) (hs : 1 ≤ s) (rest : List Int)
    (h : d.drop (s - 1) = G.code ++ rest) :
    List.Chain' (fun q q' => q' = subtree_end d q) (Forest.roots s G) := by
  induction G generalizing s rest with
  | nil => exact List.chain'_nil
  | cons ch sib _ ihs =>
    simp only [Forest.roots]
    rw [List.chain'_cons']
    have hd : d.drop (s - 1) = (ch.count : Int) :: (ch.code ++ (sib.code ++ rest)) := by
      rw [h]
      simp only [Forest.code, List.cons_append, List.append_assoc]
    constructor
    · intro y hy
      have hy2 : ∃ l, Forest.roots (s + 1 + ch.size) sib = y :: l := by
        cases hr : Forest.roots (s + 1 + ch.size) sib with
        | nil => rw [hr] at hy; simp at hy
        | cons a l =>
          rw [hr] at hy
          simp only [List.head?_cons, Option.mem_def, Option.some.injEq] at hy
          exact ⟨l, by rw [hy]⟩
      obtain ⟨l, hl⟩ := hy2
      rw [roots_head _ _ _ _ hl]
      unfold subtree_end
      rw [hd, skip_subtrees_tree]
    · apply ihs (s + 1 + ch.size) (by omega) rest
      have := congrArg (fun t => t.drop (1 + ch.size)) hd
      simp only [List.drop_drop] at this
      have e : s + 1 + ch.size - 1 = s - 1 + (1 + ch.size) := by omega
      rw [e, this]
      rw [show (1 + ch.size) = ch.size + 1 from by omega, List.drop_succ_cons]
      rw [List.drop_append_of_le_length (by rw [forest_length_code])]
      rw [List.drop_of_length_le (by rw [forest_length_code]), List.nil_append]

/-- The digit sums of a well-formed code. -/
theorem well_formed_sums (e : List Int) (h : well_formed e) :
    e.sum = (e.length : Int) - 1 ∧ (∀ i, i < e.length → (i : Int) ≤ (e.take i).sum) ∧
      digit e e.length = 0 := by
  obtain ⟨F, rfl⟩ := h
  have hs := forest_sum_code F
  refine ⟨?_, ?_, ?_⟩
  · simp only [List.sum_cons, List.length_cons, forest_length_code]
    push_cast
    omega
  · intro i hi
    simp only [List.length_cons, forest_length_code] at hi
    cases i with
    | zero => simp
    | succ j =>
      have := forest_sum_take F j (by omega)
      simp only [List.take_succ_cons, List.sum_cons]
      push_cast
      omega
  · simp only [List.length_cons, forest_length_code]
    rw [digit_succ]
    by_cases hF : F = Forest.nil
    · subst hF
      rfl
    · have hpos : 1 ≤ F.size := by
        cases F with
        | nil => exact absurd rfl hF
        | cons a b => simp only [Forest.size]; omega
      have e : F.size = (F.size - 1) + 1 := by omega
      rw [e]
      show getA (-1) F.code (F.size - 1) = 0
      exact forest_last_digit F hF

/-- The accepted codes of the main loop are well formed and keep the degree
invariants. -/
theorem accepted_tree (gf : Bool) (last k i : Nat) (hk1 : 1 ≤ k) (hk : k ≤ last) (hi1 : 1 ≤ i)
    (hi : (i : Int) ≤ get3 (main_loop gf last) k 0 0) :
    ∃ F : Forest, code_digits (main_loop gf last) k i = (F.count : Int) :: F.code ∧
      F.size + 1 = k ∧ code_ok (code_digits (main_loop gf last) k i) := by
  have hlev := (main_loop_levels gf last k hk1 hk).2
  have hmem := mem_accepted_codes _ k i hi1 hi
  rw [hlev] at hmem
  obtain ⟨F, hF⟩ := level_well_formed (k - 1) _ hmem
  refine ⟨F, hF, ?_, (level_ok (k - 1) _ hmem).2⟩
  have := congrArg List.length hF
  rw [length_code_digits, List.length_cons, forest_length_code] at this
  omega

/-! ## Results: the connectivity table of an accepted code -/

/-- C15: for an accepted code in slot `i` of carbon count `k` and a position `p`
of it, the table built by `morgans_splicing` gives `p` as many neighbours at
later positions as the digit at `p` says; the first of them is `p + 1` when the
digit is positive, and each further one is the first position after the complete
subtree of the one before; `p` has exactly one neighbour at an earlier position
unless it is the root, which has none; no neighbour of `p` is `p` itself. -/
theorem splicing_neighbour_structure (gf : Bool) (last k i p : Nat) (m : Morgans)
    (hk1 : 1 ≤ k) (hk : k ≤ last) (hi1 : 1 ≤ i)
    (hi : (i : Int) ≤ get3 (main_loop gf last) k 0 0) (hp1 : 1 ≤ p) (hp : p ≤ k) :
    (((neighbours (morgans_splicing (main_loop gf last) i k m []).2 p).filter
        (fun q => decide (p < q))).length : Int) = get3 (main_loop gf last) k i p ∧
    (0 < get3 (main_loop gf last) k i p →
      ((neighbours (morgans_splicing (main_loop gf last) i k m []).2 p).filter
        (fun q => decide (p < q))).head? = some (p + 1)) ∧
    List.Chain' (fun q q' => q' = subtree_end (code_digits (main_loop gf last) k i) q)
      ((neighbours (morgans_splicing (main_loop gf last) i k m []).2 p).filter
        (fun q => decide (p < q))) ∧
    ((neighbours (morgans_splicing (main_loop gf last) i k m []).2 p).filter
        (fun q => decide (q < p))).length = (if p = 1 then 0 else 1) ∧
    (neighbours (morgans_splicing (main_loop gf last) i k m []).2 p).length =
      ((neighbours (morgans_splicing (main_loop gf last) i k m []).2 p).filter
        (fun q => decide (p < q))).length +
      ((neighbours (morgans_splicing (main_loop gf last) i k m []).2 p).filter
        (fun q => decide (q < p))).length := by
  obtain ⟨F, hF, hsize, _⟩ := accepted_tree gf last k i hk1 hk hi1 hi
  rw [splicing_neighbours, hF]
  obtain ⟨ch, rest, hdrop, hdig, hlater⟩ := tree_later F p hp1 (by omega)
  have hget : get3 (main_loop gf last) k i p = (ch.count : Int) := by
    rw [← digit_code_digits _ _ _ _ hp1 hp, hF, hdig]
  refine ⟨?_, ?_, ?_, tree_earlier F p hp1 (by omega),
    adjacency_split_length _ _ (fun ab hab => (tree_bonds_lt F ab hab).2.1)⟩
  · rw [hlater, roots_length, hget]
  · intro hpos
    rw [hlater]
    cases ch with
    | nil =>
      rw [hget] at hpos
      simp [Forest.count] at hpos
    | cons c1 s1 => rfl
  · rw [hlater]
    apply roots_chain ch _ (p + 1) (by omega) rest
    exact (drop_of_drop_pred _ p hp1 _ _ hdrop).2

set_option maxRecDepth 100000 in
theorem splicing_neighbour_structure_witness :
    (((neighbours (morgans_splicing (main_loop false 4) 2 4 [] []).2 1).filter
        (fun q => decide (1 < q))).length : Int) = get3 (main_loop false 4) 4 2 1 ∧
    (0 < get3 (main_loop false 4) 4 2 1 →
      ((neighbours (morgans_splicing (main_loop false 4) 2 4 [] []).2 1).filter
        (fun q => decide (1 < q))).head? = some (1 + 1)) ∧
    List.Chain' (fun q q' => q' = subtree_end (code_digits (main_loop false 4) 4 2) q)
      ((neighbours (morgans_splicing (main_loop false 4) 2 4 [] []).2 1).filter
        (fun q => decide (1 < q))) ∧
    ((neighbours (morgans_splicing (main_loop false 4) 2 4 [] []).2 1).filter
        (fun q => decide (q < 1))).length = (if 1 = 1 then 0 else 1) ∧
    (neighbours (morgans_splicing (main_loop false 4) 2 4 [] []).2 1).length =
      ((neighbours (morgans_splicing (main_loop false 4) 2 4 [] []).2 1).filter
        (fun q => decide (1 < q))).length +
      ((neighbours (morgans_splicing (main_loop false 4) 2 4 [] []).2 1).filter
        (fun q => decide (q < 1))).length :=
  splicing_neighbour_structure false 4 4 2 1 [] (by decide) (by decide) (by decide) (by decide!)
    (by decide) (by decide)

/-- C16: for an accepted code in slot `i` of carbon count `k`, the table built by
`morgans_splicing` is symmetric, its entries are positions between 1 and `k`
other than the atom itself, no row lists a neighbour twice, the bonds (every
bond counted at its earlier end) number `k - 1`, and every position is linked to
position 1 by a chain of neighbours. -/
theorem splicing_table_is_tree (gf : Bool) (last k i : Nat) (m : Morgans)
    (hk1 : 1 ≤ k) (hk : k ≤ last) (hi1 : 1 ≤ i)
    (hi : (i : Int) ≤ get3 (main_loop gf last) k 0 0) :
    (∀ a b, b ∈ neighbours (morgans_splicing (main_loop gf last) i k m []).2 a ↔
      a ∈ neighbours (morgans_splicing (main_loop gf last) i k m []).2 b) ∧
    (∀ a b, b ∈ neighbours (morgans_splicing (main_loop gf last) i k m []).2 a →
      1 ≤ a ∧ a ≤ k ∧ 1 ≤ b ∧ b ≤ k ∧ b ≠ a) ∧
    (∀ a, (neighbours (morgans_splicing (main_loop gf last) i k m []).2 a).Nodup) ∧
    ((List.range' 1 k).map
      (fun a => ((neighbours (morgans_splicing (main_loop gf last) i k m []).2 a).filter
        (fun b => decide (a < b))).length)).sum = k - 1 ∧
    ∀ a, 1 ≤ a → a ≤ k →
      Relation.ReflTransGen
        (fun x y => y ∈ neighbours (morgans_splicing (main_loop gf last) i k m []).2 x) a 1 := by
  obtain ⟨F, hF, hsize, _⟩ := accepted_tree gf last k i hk1 hk hi1 hi
  have hN : ∀ q, neighbours (morgans_splicing (main_loop gf last) i k m []).2 q =
      adjacency (bonds_from 1 ((F.count : Int) :: F.code)) q := by
    intro q
    rw [splicing_neighbours, hF]
  have hrange : ∀ a b, b ∈ neighbours (morgans_splicing (main_loop gf last) i k m []).2 a →
      1 ≤ a ∧ a ≤ k ∧ 1 ≤ b ∧ b ≤ k ∧ b ≠ a := by
    intro a b h
    rw [hN] at h
    have := tree_adjacency_range F a b h
    omega
  refine ⟨?_, hrange, ?_, ?_, ?_⟩
  · intro a b
    rw [hN, hN]
    exact adjacency_symm _ _ _
  · intro a
    rw [hN]
    exact tree_adjacency_nodup F a
  · have hcast : (((List.range' 1 k).map
        (fun a => ((neighbours (morgans_splicing (main_loop gf last) i k m []).2 a).filter
          (fun b => decide (a < b))).length)).sum : Int) = ((k - 1 : Nat) : Int) := by
      rw [Nat.cast_list_sum, List.map_map]
      have hmap : (List.range' 1 k).map
          (Nat.cast ∘ fun a =>
            ((neighbours (morgans_splicing (main_loop gf last) i k m []).2 a).filter
              (fun b => decide (a < b))).length) =
          ((F.count : Int) :: F.code) := by
        apply list_ext_getA (-1)
        · rw [List.length_map, List.length_range', List.length_cons, forest_length_code]
          omega
        · intro j hj
          rw [List.length_map, List.length_range'] at hj
          rw [getA_map_range' _ _ _ _ _ hj]
          simp only [Function.comp_apply]
          rw [hN]
          obtain ⟨ch, rest, _, hdig, hlater⟩ := tree_later F (1 + j) (by omega) (by omega)
          rw [hlater, roots_length, ← hdig, show 1 + j = j + 1 from by omega, digit_succ]
      rw [hmap]
      have h1 := (well_formed_sums _ ⟨F, rfl⟩).1
      rw [h1]
      simp only [List.length_cons, forest_length_code]
      push_cast
      omega
    exact_mod_cast hcast
  · have hall : ∀ n a, a ≤ n → 1 ≤ a → a ≤ k →
        Relation.ReflTransGen
          (fun x y => y ∈ neighbours (morgans_splicing (main_loop gf last) i k m []).2 x) a 1 := by
      intro n
      induction n with
      | zero =>
        intro a h0 h1 _
        omega
      | succ n ih =>
        intro a han ha1 hak
        by_cases ha : a = 1
        · rw [ha]
        · have hlen := tree_earlier F a ha1 (by omega)
          rw [if_neg ha] at hlen
          have hex : ∃ q, q ∈ (adjacency (bonds_from 1 ((F.count : Int) :: F.code)) a).filter
              (fun q => decide (q < a)) := by
            cases hl : (adjacency (bonds_from 1 ((F.count : Int) :: F.code)) a).filter
                (fun q => decide (q < a)) with
            | nil => rw [hl] at hlen; simp at hlen
            | cons q l => exact ⟨q, List.mem_cons_self _ _⟩
          obtain ⟨q, hq⟩ := hex
          rw [List.mem_filter] at hq
          have hqa : q < a := by simpa using hq.2
          have hqn : q ∈ neighbours (morgans_splicing (main_loop gf last) i k m []).2 a := by
            rw [hN]
            exact hq.1
          have hr := hrange a q hqn
          exact Relation.ReflTransGen.head hqn (ih q (by omega) hr.2.2.1 hr.2.2.2.1)
    intro a
    exact hall a a (le_refl _)

set_option maxRecDepth 100000 in
theorem splicing_table_is_tree_witness :
    (∀ a b, b ∈ neighbours (morgans_splicing (main_loop false 4) 2 4 [] []).2 a ↔
      a ∈ neighbours (morgans_splicing (main_loop false 4) 2 4 [] []).2 b) ∧
    (∀ a b, b ∈ neighbours (morgans_splicing (main_loop false 4) 2 4 [] []).2 a →
      1 ≤ a ∧ a ≤ 4 ∧ 1 ≤ b ∧ b ≤ 4 ∧ b ≠ a) ∧
    (∀ a, (neighbours (morgans_splicing (main_loop false 4) 2 4 [] []).2 a).Nodup) ∧
    ((List.range' 1 4).map
      (fun a => ((neighbours (morgans_splicing (main_loop false 4) 2 4 [] []).2 a).filter
        (fun b => decide (a < b))).length)).sum = 4 - 1 ∧
    ∀ a, 1 ≤ a → a ≤ 4 →
      Relation.ReflTransGen
        (fun x y => y ∈ neighbours (morgans_splicing (main_loop false 4) 2 4 [] []).2 x) a 1 :=
  splicing_table_is_tree false 4 4 2 [] (by decide) (by decide) (by decide) (by decide!)

/-! ## Results: the candidates are well formed -/

/-- C17: the candidate that `generate_Isomers` builds from an accepted code of
carbon count `k - 1` at any of its positions is the depth-first sequence of
child counts of a tree: its `k` digits sum to `k - 1`, the digits of every
initial part of length `j < k` sum to at least `j`, and its last digit is 0. -/
theorem candidate_well_formed (gf : Bool) (last k I p isomer : Nat)
    (hk2 : 2 ≤ k) (hk : k - 1 ≤ last) (hI1 : 1 ≤ I)
    (hI : (I : Int) ≤ get3 (main_loop gf last) (k - 1) 0 0) (hp1 : 1 ≤ p) (hp : p ≤ k - 1) :
    well_formed
      (code_digits (write_candidate (main_loop gf last) k (k - 1) I p isomer) k isomer) ∧
    (code_digits (write_candidate (main_loop gf last) k (k - 1) I p isomer) k isomer).sum =
      (k : Int) - 1 ∧
    (∀ j : Nat, j < k →
      (j : Int) ≤
        ((code_digits (write_candidate (main_loop gf last) k (k - 1) I p isomer) k isomer).take
          j).sum) ∧
    get3 (write_candidate (main_loop gf last) k (k - 1) I p isomer) k isomer k = 0 := by
  obtain ⟨F, hF, hsize, _⟩ := accepted_tree gf last (k - 1) I (by omega) hk hI1 hI
  have hwf : well_formed
      (code_digits (write_candidate (main_loop gf last) k (k - 1) I p isomer) k isomer) := by
    rw [code_digits_write_candidate _ k I p isomer (by omega) hp1 hp]
    apply well_formed_extend _ _ hp1
    · rw [length_code_digits]
      exact hp
    · exact ⟨F, hF⟩
  obtain ⟨h1, h2, h3⟩ := well_formed_sums _ hwf
  rw [length_code_digits] at h1 h2 h3
  refine ⟨hwf, h1, h2, ?_⟩
  rw [← digit_code_digits _ k isomer k (by omega) (le_refl _)]
  exact h3

set_option maxRecDepth 100000 in
theorem candidate_well_formed_witness :
    well_formed
      (code_digits (write_candidate (main_loop false 3) 4 (4 - 1) 1 2 3) 4 3) ∧
    (code_digits (write_candidate (main_loop false 3) 4 (4 - 1) 1 2 3) 4 3).sum =
      ((4 : Nat) : Int) - 1 ∧
    (∀ j : Nat, j < 4 →
      (j : Int) ≤
        ((code_digits (write_candidate (main_loop false 3) 4 (4 - 1) 1 2 3) 4 3).take j).sum) ∧
    get3 (write_candidate (main_loop false 3) 4 (4 - 1) 1 2 3) 4 3 4 = 0 :=
  candidate_well_formed false 3 4 1 2 3 (by decide) (by decide) (by decide) (by decide!)
    (by decide) (by decide)

/-! ## Results: seeds and table indices -/

/-- C20: for an accepted code in slot `i` of carbon count `k` and a position `p`,
the seed that `morgans_splicing` stores for `p` (the digit for the root, the
digit plus 1 otherwise) is the number of neighbour entries that the same call
records for `p`, which is the counter `connections[p][0]`. -/
theorem seed_is_bond_count (gf : Bool) (last k i p : Nat) (m : Morgans)
    (hk1 : 1 ≤ k) (hk : k ≤ last) (hi1 : 1 ≤ i)
    (hi : (i : Int) ≤ get3 (main_loop gf last) k 0 0) (hp1 : 1 ≤ p) (hp : p ≤ k) :
    getM (morgans_splicing (main_loop gf last) i k m []).1 i p =
      (if p = 1 then get3 (main_loop gf last) k i p else get3 (main_loop gf last) k i p + 1) ∧
    getM (morgans_splicing (main_loop gf last) i k m []).1 i p =
      ((neighbours (morgans_splicing (main_loop gf last) i k m []).2 p).length : Int) ∧
    getM (morgans_splicing (main_loop gf last) i k m []).1 i p =
      (getC (morgans_splicing (main_loop gf last) i k m []).2 p 0 : Int) := by
  obtain ⟨F, hF, hsize, _⟩ := accepted_tree gf last k i hk1 hk hi1 hi
  have hseed : getM (morgans_splicing (main_loop gf last) i k m []).1 i p =
      (if p = 1 then get3 (main_loop gf last) k i p
        else get3 (main_loop gf last) k i p + 1) := by
    rw [morgans_splicing_eq]
    simp only
    rw [getM_seed_loop, if_pos ⟨rfl, hp1, hp⟩]
  have hdeg : getM (morgans_splicing (main_loop gf last) i k m []).1 i p =
      ((neighbours (morgans_splicing (main_loop gf last) i k m []).2 p).length : Int) := by
    rw [hseed, splicing_neighbours, hF, tree_degree F p hp1 (by omega), ← hF,
      digit_code_digits _ _ _ _ hp1 hp]
  refine ⟨hseed, hdeg, ?_⟩
  rw [hdeg, length_neighbours]

set_option maxRecDepth 100000 in
theorem seed_is_bond_count_witness :
    getM (morgans_splicing (main_loop false 4) 2 4 [] []).1 2 3 =
      (if 3 = 1 then get3 (main_loop false 4) 4 2 3 else get3 (main_loop false 4) 4 2 3 + 1) ∧
    getM (morgans_splicing (main_loop false 4) 2 4 [] []).1 2 3 =
      ((neighbours (morgans_splicing (main_loop false 4) 2 4 [] []).2 3).length : Int) ∧
    getM (morgans_splicing (main_loop false 4) 2 4 [] []).1 2 3 =
      (getC (morgans_splicing (main_loop false 4) 2 4 [] []).2 3 0 : Int) :=
  seed_is_bond_count false 4 4 2 3 [] (by decide) (by decide) (by decide) (by decide!)
    (by decide) (by decide)

/-- C25: for an accepted code in slot `i` of carbon count `k ≥ 2`, the table built
by `morgans_splicing` gives no atom more than 4 and no more than `k - 1`
neighbour entries, every entry and every row with an entry is a position
between 1 and `k`, and the digit is 0 at position `k`, so that the statements
guarded by a digit different from 0, which write row `main_digit + 1` and read
the digit at `main_digit + 1`, are only executed for `main_digit < k`. -/
theorem splicing_indices_in_range (gf : Bool) (last k i : Nat) (m : Morgans)
    (hk2 : 2 ≤ k) (hk : k ≤ last) (hi1 : 1 ≤ i)
    (hi : (i : Int) ≤ get3 (main_loop gf last) k 0 0) :
    (∀ p, getC (morgans_splicing (main_loop gf last) i k m []).2 p 0 ≤ 4 ∧
      getC (morgans_splicing (main_loop gf last) i k m []).2 p 0 ≤ k - 1) ∧
    (∀ p q, q ∈ neighbours (morgans_splicing (main_loop gf last) i k m []).2 p →
      1 ≤ p ∧ p ≤ k ∧ 1 ≤ q ∧ q ≤ k) ∧
    (∀ p, 1 ≤ p → p ≤ k → get3 (main_loop gf last) k i p ≠ 0 → p < k) := by
  obtain ⟨F, hF, hsize, hok⟩ := accepted_tree gf last k i (by omega) hk hi1 hi
  have hN : ∀ q, neighbours (morgans_splicing (main_loop gf last) i k m []).2 q =
      adjacency (bonds_from 1 ((F.count : Int) :: F.code)) q := by
    intro q
    rw [splicing_neighbours, hF]
  have hrange : ∀ p q, q ∈ neighbours (morgans_splicing (main_loop gf last) i k m []).2 p →
      1 ≤ p ∧ p ≤ k ∧ 1 ≤ q ∧ q ≤ k := by
    intro p q h
    rw [hN] at h
    have := tree_adjacency_range F p q h
    omega
  refine ⟨?_, hrange, ?_⟩
  · intro p
    rw [← length_neighbours]
    constructor
    · by_cases hp : 1 ≤ p ∧ p ≤ k
      · have hdeg := tree_degree F p hp.1 (by omega)
        rw [← hN] at hdeg
        obtain ⟨_, h4, hrest⟩ := hok
        rw [length_code_digits] at hrest
        rw [← hF] at hdeg
        by_cases hp1 : p = 1
        · rw [if_pos hp1, hp1] at hdeg
          rw [hp1]
          omega
        · rw [if_neg hp1] at hdeg
          have := hrest p (by omega) hp.2
          omega
      · cases hl : neighbours (morgans_splicing (main_loop gf last) i k m []).2 p with
        | nil => simp
        | cons q l =>
          have := hrange p q (by rw [hl]; exact List.mem_cons_self _ _)
          exact absurd ⟨this.1, this.2.1⟩ hp
    · rw [hN]
      have := adjacency_length_le (bonds_from 1 ((F.count : Int) :: F.code)) p
      rw [tree_bonds_length] at this
      omega
  · intro p hp1 hp hne
    have h3 := (well_formed_sums _ ⟨F, hF⟩).2.2
    rw [length_code_digits, digit_code_digits _ _ _ _ (by omega) (le_refl _)] at h3
    by_contra hlt
    have : p = k := by omega
    rw [this] at hne
    exact hne h3

set_option maxRecDepth 100000 in
theorem splicing_indices_in_range_witness :
    (∀ p, getC (morgans_splicing (main_loop false 4) 2 4 [] []).2 p 0 ≤ 4 ∧
      getC (morgans_splicing (main_loop false 4) 2 4 [] []).2 p 0 ≤ 4 - 1) ∧
    (∀ p q, q ∈ neighbours (morgans_splicing (main_loop false 4) 2 4 [] []).2 p →
      1 ≤ p ∧ p ≤ 4 ∧ 1 ≤ q ∧ q ≤ 4) ∧
    (∀ p, 1 ≤ p → p ≤ 4 → get3 (main_loop false 4) 4 2 p ≠ 0 → p < 4) :=
  splicing_indices_in_range false 4 4 2 [] (by decide) (by decide) (by decide) (by decide!)

/-! ## The insertion sort -/

theorem insert_rev_perm (x : Int) (l : List Int) : List.Perm (insert_rev x l) (x :: l) := by
  induction l with
  | nil => exact List.Perm.refl _
  | cons a l ih =>
    rw [insert_rev]
    split
    · exact ((List.Perm.cons a ih).trans (List.Perm.swap x a l))
    · exact List.Perm.refl _

theorem insert_rev_sorted (x : Int) (l : List Int) (h : List.Sorted (· ≤ ·) l) :
    List.Sorted (· ≤ ·) (insert_rev x l) := by
  induction l with
  | nil => exact List.sorted_singleton x
  | cons a l ih =>
    rw [insert_rev]
    have h2 := List.sorted_cons.mp h
    split
    · rename_i hx
      apply List.sorted_cons.mpr
      refine ⟨?_, ih h2.2⟩
      intro b hb
      have := (insert_rev_perm x l).subset hb
      rw [List.mem_cons] at this
      rcases this with rfl | hb2
      · omega
      · exact h2.1 b hb2
    · rename_i hx
      apply List.sorted_cons.mpr
      refine ⟨?_, h⟩
      intro b hb
      rw [List.mem_cons] at hb
      rcases hb with rfl | hb2
      · omega
      · have := h2.1 b hb2
        omega

theorem sort_rev_perm (acc l : List Int) : List.Perm (sort_rev acc l) (l ++ acc) := by
  induction l generalizing acc with
  | nil => exact List.Perm.refl _
  | cons x l ih =>
    rw [sort_rev]
    refine (ih (insert_rev x acc)).trans ?_
    refine (List.Perm.append_left l (insert_rev_perm x acc)).trans ?_
    exact (List.perm_middle).trans (List.Perm.refl _)

theorem sort_rev_sorted (acc l : List Int) (h : List.Sorted (· ≤ ·) acc) :
    List.Sorted (· ≤ ·) (sort_rev acc l) := by
  induction l generalizing acc with
  | nil => exact h
  | cons x l ih =>
    rw [sort_rev]
    exact ih _ (insert_rev_sorted x acc h)

theorem sort_desc_perm (v : List Int) : List.Perm (sort_desc v) v := by
  unfold sort_desc
  refine (List.reverse_perm _).trans ?_
  have := sort_rev_perm [] v
  rwa [List.append_nil] at this

theorem sort_desc_sorted (v : List Int) : List.Sorted (· ≥ ·) (sort_desc v) := by
  unfold sort_desc
  have h := sort_rev_sorted [] v List.sorted_nil
  unfold List.Sorted at h ⊢
  rw [List.pairwise_reverse]
  exact h

/-- Lists with the same elements, counted with multiplicity, are sorted to the
same list. -/
theorem sort_desc_congr (v w : List Int) (h : List.Perm v w) : sort_desc v = sort_desc w := by
  apply List.eq_of_perm_of_sorted _ (sort_desc_sorted v) (sort_desc_sorted w)
  exact ((sort_desc_perm v).trans h).trans (sort_desc_perm w).symm

/-! ## Results: the sort -/

/-- C19: after `morgans_sort` the positions 1 to `CarbonAmount` of the row hold
the values they held before, each as often as before, in non-increasing order;
the other rows are unchanged. -/
theorem morgans_sort_sorts (isomer CarbonAmount : Nat) (morgans : Morgans) :
    List.Perm (row_values (morgans_sort isomer CarbonAmount morgans) isomer CarbonAmount)
      (row_values morgans isomer CarbonAmount) ∧
    List.Sorted (· ≥ ·) (row_values (morgans_sort isomer CarbonAmount morgans) isomer CarbonAmount) ∧
    (∀ a b : Nat, 1 ≤ a → a ≤ b → b ≤ CarbonAmount →
      getM (morgans_sort isomer CarbonAmount morgans) isomer b ≤
        getM (morgans_sort isomer CarbonAmount morgans) isomer a) ∧
    ∀ a b, a ≠ isomer → getM (morgans_sort isomer CarbonAmount morgans) a b = getM morgans a b := by
  have hs : List.Sorted (· ≥ ·)
      (row_values (morgans_sort isomer CarbonAmount morgans) isomer CarbonAmount) := by
    rw [row_values_sort]
    exact sort_desc_sorted _
  refine ⟨?_, hs, ?_, fun a b h => sort_frame isomer CarbonAmount morgans a b h⟩
  · rw [row_values_sort]
    exact sort_desc_perm _
  · intro a b ha hab hb
    by_cases hab2 : a = b
    · rw [hab2]
    · have hp : List.Pairwise (· ≥ ·)
          (row_values (morgans_sort isomer CarbonAmount morgans) isomer CarbonAmount) := hs
      rw [List.pairwise_iff_getElem] at hp
      have hlen := length_row_values (morgans_sort isomer CarbonAmount morgans) isomer CarbonAmount
      have := hp (a - 1) (b - 1) (by omega) (by omega) (by omega)
      have e1 : ∀ c, 1 ≤ c → c ≤ CarbonAmount →
          ∀ h : c - 1 <
            (row_values (morgans_sort isomer CarbonAmount morgans) isomer CarbonAmount).length,
          (row_values (morgans_sort isomer CarbonAmount morgans) isomer CarbonAmount)[c - 1] =
            getM (morgans_sort isomer CarbonAmount morgans) isomer c := by
        intro c hc1 hc h
        unfold row_values
        rw [List.getElem_map, List.getElem_range']
        congr 1
        omega
      rw [e1 a ha (by omega) (by omega), e1 b (by omega) hb (by omega)] at this
      exact this

/-! ## Rounds on isomorphic tables -/

theorem temp_value_round (T : Connections) (C : Nat) (v : List Int) (a : Nat)
    (h1 : 1 ≤ a) (h2 : a ≤ C) :
    temp_value (morgan_round T C v) a = ((neighbours T a).map (temp_value v)).sum := by
  obtain ⟨j, rfl⟩ : ∃ j, a = j + 1 := ⟨a - 1, by omega⟩
  unfold temp_value morgan_round
  show getA 0 _ j = _
  rw [getA_map_range' _ _ _ _ _ (by omega)]
  have e : 1 + j = j + 1 := by omega
  rw [e]
  rfl

theorem length_morgan_round (T : Connections) (C : Nat) (v : List Int) :
    (morgan_round T C v).length = C := by
  unfold morgan_round
  rw [List.length_map, List.length_range']

theorem length_morgan_rounds (T : Connections) (C n : Nat) (v : List Int) (h : v.length = C) :
    (morgan_rounds T C n v).length = C := by
  induction n generalizing v with
  | zero => exact h
  | succ n ih =>
    rw [morgan_rounds]
    exact ih _ (length_morgan_round T C v)

theorem eq_map_temp_value (v : List Int) (C : Nat) (h : v.length = C) :
    v = (List.range' 1 C).map (temp_value v) := by
  apply list_ext_getA 0
  · rw [List.length_map, List.length_range', h]
  · intro j hj
    rw [getA_map_range' _ _ _ _ _ (by omega)]
    have e : 1 + j = j + 1 := by omega
    rw [e]
    rfl

/-- An isomorphism maps the neighbour list of an atom onto the neighbour list of
its image, up to the order of the entries. -/
theorem neighbours_perm (C : Nat) (T1 T2 : Connections) (f g : Nat → Nat)
    (hf : ∀ a, 1 ≤ a → a ≤ C → 1 ≤ f a ∧ f a ≤ C ∧ g (f a) = a)
    (hg : ∀ b, 1 ≤ b → b ≤ C → 1 ≤ g b ∧ g b ≤ C ∧ f (g b) = b)
    (hadj : ∀ a b, 1 ≤ a → a ≤ C → 1 ≤ b → b ≤ C →
      (b ∈ neighbours T1 a ↔ f b ∈ neighbours T2 (f a)))
    (hr1 : ∀ a b, b ∈ neighbours T1 a → 1 ≤ b ∧ b ≤ C)
    (hr2 : ∀ a b, b ∈ neighbours T2 a → 1 ≤ b ∧ b ≤ C)
    (hn1 : ∀ a, (neighbours T1 a).Nodup) (hn2 : ∀ a, (neighbours T2 a).Nodup)
    (a : Nat) (ha1 : 1 ≤ a) (ha : a ≤ C) :
    List.Perm (neighbours T2 (f a)) ((neighbours T1 a).map f) := by
  have hnm : ((neighbours T1 a).map f).Nodup := by
    apply List.Nodup.map_on _ (hn1 a)
    intro x hx y hy hxy
    have h1 := hr1 a x hx
    have h2 := hr1 a y hy
    rw [← (hf x h1.1 h1.2).2.2, ← (hf y h2.1 h2.2).2.2, hxy]
  rw [List.perm_ext_iff_of_nodup (hn2 (f a)) hnm]
  intro b
  constructor
  · intro hb
    have hbr := hr2 _ _ hb
    have hgb := hg b hbr.1 hbr.2
    rw [List.mem_map]
    refine ⟨g b, ?_, hgb.2.2⟩
    rw [hadj a (g b) ha1 ha hgb.1 hgb.2.1, hgb.2.2]
    exact hb
  · intro hb
    rw [List.mem_map] at hb
    obtain ⟨x, hx, rfl⟩ := hb
    have hxr := hr1 _ _ hx
    exact (hadj a x ha1 ha hxr.1 hxr.2).mp hx

theorem rounds_iso (C : Nat) (T1 T2 : Connections) (f : Nat → Nat)
    (hfr : ∀ a, 1 ≤ a → a ≤ C → 1 ≤ f a ∧ f a ≤ C)
    (hr1 : ∀ a b, b ∈ neighbours T1 a → 1 ≤ b ∧ b ≤ C)
    (hperm : ∀ a, 1 ≤ a → a ≤ C →
      List.Perm (neighbours T2 (f a)) ((neighbours T1 a).map f))
    (n : Nat) (u1 u2 : List Int)
    (h : ∀ a, 1 ≤ a → a ≤ C → temp_value u2 (f a) = temp_value u1 a) :
    ∀ a, 1 ≤ a → a ≤ C →
      temp_value (morgan_rounds T2 C n u2) (f a) = temp_value (morgan_rounds T1 C n u1) a := by
  induction n generalizing u1 u2 with
  | zero => exact h
  | succ n ih =>
    rw [morgan_rounds, morgan_rounds]
    apply ih
    intro a ha1 ha
    have hfa := hfr a ha1 ha
    rw [temp_value_round _ _ _ _ hfa.1 hfa.2, temp_value_round _ _ _ _ ha1 ha,
      ((hperm a ha1 ha).map (temp_value u2)).sum_eq, List.map_map]
    congr 1
    apply List.map_congr_left
    intro b hb
    have hbr := hr1 a b hb
    exact h b hbr.1 hbr.2

/-- Value lists that correspond under a bijection of the atoms have the same
elements, counted with multiplicity. -/
theorem values_perm (C : Nat) (f g : Nat → Nat)
    (hf : ∀ a, 1 ≤ a → a ≤ C → 1 ≤ f a ∧ f a ≤ C ∧ g (f a) = a)
    (hg : ∀ b, 1 ≤ b → b ≤ C → 1 ≤ g b ∧ g b ≤ C ∧ f (g b) = b)
    (v1 v2 : List Int) (hl1 : v1.length = C) (hl2 : v2.length = C)
    (h : ∀ a, 1 ≤ a → a ≤ C → temp_value v2 (f a) = temp_value v1 a) :
    List.Perm v1 v2 := by
  have e1 : v1 = ((List.range' 1 C).map f).map (temp_value v2) := by
    rw [List.map_map]
    conv_lhs => rw [eq_map_temp_value v1 C hl1]
    apply List.map_congr_left
    intro a ha
    rw [List.mem_range'_1] at ha
    exact (h a ha.1 (by omega)).symm
  have hp : List.Perm ((List.range' 1 C).map f) (List.range' 1 C) := by
    rw [List.perm_ext_iff_of_nodup]
    · intro b
      rw [List.mem_map, List.mem_range'_1]
      constructor
      · rintro ⟨a, ha, rfl⟩
        rw [List.mem_range'_1] at ha
        have := hf a ha.1 (by omega)
        omega
      · intro hb
        have := hg b hb.1 (by omega)
        exact ⟨g b, by rw [List.mem_range'_1]; omega, this.2.2⟩
    · apply List.Nodup.map_on _ (List.nodup_range' 1 C)
      intro x hx y hy hxy
      rw [List.mem_range'_1] at hx hy
      rw [← (hf x hx.1 (by omega)).2.2, ← (hf y hy.1 (by omega)).2.2, hxy]
    · exact List.nodup_range' 1 C
  rw [e1]
  conv_rhs => rw [eq_map_temp_value v2 C hl2]
  exact hp.map _

theorem temp_value_seed (F : Forest) (a : Nat) (h1 : 1 ≤ a) (h2 : a ≤ F.size + 1) :
    temp_value (seed_values ((F.count : Int) :: F.code)) a =
      ((adjacency (bonds_from 1 ((F.count : Int) :: F.code)) a).length : Int) := by
  rw [tree_degree F a h1 h2]
  obtain ⟨j, rfl⟩ : ∃ j, a = j + 1 := ⟨a - 1, by omega⟩
  unfold temp_value
  show getA 0 _ j = _
  rw [getA_seed_values _ _ (by simp only [List.length_cons, forest_length_code]; omega),
    digit_succ]
  by_cases hj : j = 0
  · subst hj
    simp
  · have : ¬ (j + 1 = 1) := by omega
    rw [if_neg hj, if_neg this]

/-- The signatures of two well-formed codes with isomorphic tables are equal. -/
theorem signature_iso (C : Nat) (d1 d2 : List Int) (hl1 : d1.length = C) (hl2 : d2.length = C)
    (h1 : well_formed d1) (h2 : well_formed d2)
    (hiso : isomorphic C (connOf C d1) (connOf C d2)) :
    signature C d1 = signature C d2 := by
  obtain ⟨F1, rfl⟩ := h1
  obtain ⟨F2, rfl⟩ := h2
  obtain ⟨f, g, hf, hg, hadj⟩ := hiso
  have hs1 : F1.size + 1 = C := by
    rw [← hl1, List.length_cons, forest_length_code]
  have hs2 : F2.size + 1 = C := by
    rw [← hl2, List.length_cons, forest_length_code]
  have hN1 : ∀ q, neighbours (connOf C ((F1.count : Int) :: F1.code)) q =
      adjacency (bonds_from 1 ((F1.count : Int) :: F1.code)) q :=
    fun q => neighbours_connOf C _ hl1 q
  have hN2 : ∀ q, neighbours (connOf C ((F2.count : Int) :: F2.code)) q =
      adjacency (bonds_from 1 ((F2.count : Int) :: F2.code)) q :=
    fun q => neighbours_connOf C _ hl2 q
  have hr1 : ∀ a b, b ∈ neighbours (connOf C ((F1.count : Int) :: F1.code)) a →
      1 ≤ b ∧ b ≤ C := by
    intro a b hb
    rw [hN1] at hb
    have := tree_adjacency_range F1 a b hb
    omega
  have hr2 : ∀ a b, b ∈ neighbours (connOf C ((F2.count : Int) :: F2.code)) a →
      1 ≤ b ∧ b ≤ C := by
    intro a b hb
    rw [hN2] at hb
    have := tree_adjacency_range F2 a b hb
    omega
  have hperm := neighbours_perm C _ _ f g hf hg hadj hr1 hr2
    (fun a => by rw [hN1]; exact tree_adjacency_nodup F1 a)
    (fun a => by rw [hN2]; exact tree_adjacency_nodup F2 a)
  have hseed : ∀ a, 1 ≤ a → a ≤ C →
      temp_value (seed_values ((F2.count : Int) :: F2.code)) (f a) =
        temp_value (seed_values ((F1.count : Int) :: F1.code)) a := by
    intro a ha1 ha
    have hfa := hf a ha1 ha
    rw [temp_value_seed F2 (f a) hfa.1 (by omega), temp_value_seed F1 a ha1 (by omega),
      ← hN1, ← hN2, (hperm a ha1 ha).length_eq, List.length_map]
  have hval := rounds_iso C _ _ f (fun a h1 h2 => ⟨(hf a h1 h2).1, (hf a h1 h2).2.1⟩) hr1 hperm
    (C / 3 + 1) _ _ hseed
  unfold signature
  apply sort_desc_congr
  apply values_perm C f g hf hg _ _ _ _ hval
  · apply length_morgan_rounds
    rw [length_seed_values, hl1]
  · apply length_morgan_rounds
    rw [length_seed_values, hl2]

/-! ## Results: invariance of the signature -/

/-- C4: if the codes in two slots of carbon count `C` are well formed and the
tables that `morgans_splicing` builds from them are isomorphic as graphs, then
`morgans_splicing`, `morgans_algorithm` and `morgans_sort` leave the same values
at the positions 1 to `C` of the two rows. -/
theorem signature_invariant (C : Nat) (st1 st2 : Store) (i1 i2 : Nat) (m1 m2 : Morgans)
    (h1 : well_formed (code_digits st1 C i1)) (h2 : well_formed (code_digits st2 C i2))
    (hiso : isomorphic C (morgans_splicing st1 i1 C m1 []).2 (morgans_splicing st2 i2 C m2 []).2) :
    row_values
        (morgans_sort i1 C
          (morgans_algorithm i1 C (morgans_splicing st1 i1 C m1 []).1
            (morgans_splicing st1 i1 C m1 []).2)) i1 C =
      row_values
        (morgans_sort i2 C
          (morgans_algorithm i2 C (morgans_splicing st2 i2 C m2 []).1
            (morgans_splicing st2 i2 C m2 []).2)) i2 C := by
  have e1 := check_Isomers_row st1 i1 C m1
  have e2 := check_Isomers_row st2 i2 C m2
  unfold check_Isomers at e1 e2
  simp only at e1 e2
  rw [e1, e2]
  apply signature_iso C _ _ (length_code_digits _ _ _) (length_code_digits _ _ _) h1 h2
  have c1 : (morgans_splicing st1 i1 C m1 []).2 = connOf C (code_digits st1 C i1) := by
    rw [morgans_splicing_eq]
    exact connections_eq_connOf st1 i1 C
  have c2 : (morgans_splicing st2 i2 C m2 []).2 = connOf C (code_digits st2 C i2) := by
    rw [morgans_splicing_eq]
    exact connections_eq_connOf st2 i2 C
  rw [← c1, ← c2]
  exact hiso

set_option maxRecDepth 100000 in
theorem signature_invariant_witness :
    row_values
        (morgans_sort 1 4
          (morgans_algorithm 1 4 (morgans_splicing (storeOf 4 [2, 1, 0, 0]) 1 4 [] []).1
            (morgans_splicing (storeOf 4 [2, 1, 0, 0]) 1 4 [] []).2)) 1 4 =
      row_values
        (morgans_sort 1 4
          (morgans_algorithm 1 4 (morgans_splicing (storeOf 4 [2, 0, 1, 0]) 1 4 [] []).1
            (morgans_splicing (storeOf 4 [2, 0, 1, 0]) 1 4 [] []).2)) 1 4 :=
  signature_invariant 4 (storeOf 4 [2, 1, 0, 0]) (storeOf 4 [2, 0, 1, 0]) 1 1 [] []
    ⟨Forest.cons (Forest.cons Forest.nil Forest.nil) (Forest.cons Forest.nil Forest.nil), by decide⟩
    ⟨Forest.cons Forest.nil (Forest.cons (Forest.cons Forest.nil Forest.nil) Forest.nil),
      by decide⟩
    ⟨fun a => if a = 1 then 3 else if a = 2 then 1 else if a = 3 then 2 else a,
      fun b => if b = 1 then 2 else if b = 2 then 3 else if b = 3 then 1 else b,
      by
        intro a ha1 ha
        interval_cases a <;> decide,
      by
        intro b hb1 hb
        interval_cases b <;> decide,
      by
        intro a b ha1 ha hb1 hb
        interval_cases a <;> interval_cases b <;> decide⟩

/-! ## Walks -/

theorem mem_walks (T : Connections) (n a : Nat) (w : List Nat) :
    w ∈ walks T n a ↔
      w.length = n + 1 ∧ w.head? = some a ∧
        List.Chain' (fun x y => y ∈ neighbours T x) w := by
  induction n generalizing a w with
  | zero =>
    simp only [walks, List.mem_singleton]
    constructor
    · rintro rfl
      exact ⟨rfl, rfl, List.chain'_singleton a⟩
    · rintro ⟨hl, hh, _⟩
      cases w with
      | nil => simp at hl
      | cons x l =>
        cases l with
        | nil =>
          simp only [List.head?_cons, Option.some.injEq] at hh
          rw [hh]
        | cons y l => simp at hl
  | succ n ih =>
    simp only [walks, List.mem_flatMap, List.mem_map]
    constructor
    · rintro ⟨b, hb, w', hw', rfl⟩
      obtain ⟨h1, h2, h3⟩ := (ih b w').mp hw'
      refine ⟨by simp [h1], rfl, ?_⟩
      apply List.Chain'.cons' h3
      intro y hy
      rw [h2] at hy
      simp only [Option.mem_def, Option.some.injEq] at hy
      rw [← hy]
      exact hb
    · rintro ⟨hl, hh, hc⟩
      cases w with
      | nil => simp at hl
      | cons x w' =>
        simp only [List.head?_cons, Option.some.injEq] at hh
        subst hh
        cases w' with
        | nil => simp at hl
        | cons b l =>
          rw [List.chain'_cons'] at hc
          refine ⟨b, hc.1 b rfl, b :: l, ?_, rfl⟩
          rw [ih]
          refine ⟨by simpa using hl, rfl, hc.2⟩

theorem walks_nodup (T : Connections) (hn : ∀ a, (neighbours T a).Nodup) (n a : Nat) :
    (walks T n a).Nodup := by
  induction n generalizing a with
  | zero => exact List.nodup_singleton _
  | succ n ih =>
    rw [walks, List.nodup_flatMap]
    constructor
    · intro b _
      apply List.Nodup.map _ (ih b)
      intro w1 w2 h
      exact List.tail_eq_of_cons_eq h
    · apply List.Nodup.pairwise_of_forall_ne (hn a)
      intro b _ c _ hbc
      intro w h1 h2
      rw [List.mem_map] at h1 h2
      obtain ⟨w1, hw1, rfl⟩ := h1
      obtain ⟨w2, hw2, he⟩ := h2
      have e : w2 = w1 := List.tail_eq_of_cons_eq he
      subst e
      have hb := ((mem_walks T n b w2).mp hw1).2.1
      have hc := ((mem_walks T n c w2).mp hw2).2.1
      rw [hb] at hc
      exact hbc (Option.some.inj hc)

theorem length_walks_succ (T : Connections) (n a : Nat) :
    ((walks T (n + 1) a).length : Int) =
      ((neighbours T a).map (fun b => ((walks T n b).length : Int))).sum := by
  rw [walks, List.length_flatMap, Nat.cast_list_sum, List.map_map]
  congr 1
  apply List.map_congr_left
  intro b _
  simp

/-- The rounds count walks: values that count the walks of `j + 1` steps count
the walks of `j + n + 1` steps after `n` rounds. -/
theorem rounds_walks (T : Connections) (C : Nat)
    (hr : ∀ a b, b ∈ neighbours T a → 1 ≤ b ∧ b ≤ C) (n j : Nat) (u : List Int)
    (h : ∀ a, 1 ≤ a → a ≤ C → temp_value u a = ((walks T (j + 1) a).length : Int)) :
    ∀ a, 1 ≤ a → a ≤ C →
      temp_value (morgan_rounds T C n u) a = ((walks T (j + n + 1) a).length : Int) := by
  induction n generalizing j u with
  | zero => exact h
  | succ n ih =>
    rw [morgan_rounds]
    intro a ha1 ha
    have e : j + (n + 1) + 1 = (j + 1) + n + 1 := by omega
    rw [e]
    apply ih (j + 1) _ _ a ha1 ha
    intro b hb1 hb
    rw [temp_value_round _ _ _ _ hb1 hb, length_walks_succ]
    congr 1
    apply List.map_congr_left
    intro c hc
    have := hr b c hc
    exact h c this.1 this.2

theorem length_walks_one (T : Connections) (a : Nat) :
    (walks T 1 a).length = (neighbours T a).length := by
  have h : ∀ l : List Nat,
      (l.flatMap (fun b => (walks T 0 b).map (fun w => a :: w))).length = l.length := by
    intro l
    induction l with
    | nil => rfl
    | cons b l ih =>
      rw [List.flatMap_cons, List.length_append, ih]
      simp only [walks, List.map_cons, List.map_nil, List.length_singleton, List.length_cons,
        List.length_nil]
      omega
  rw [walks]
  exact h _

theorem temp_value_row_values (M : Morgans) (i k a : Nat) (h1 : 1 ≤ a) (h2 : a ≤ k) :
    temp_value (row_values M i k) a = getM M i a := by
  obtain ⟨j, rfl⟩ : ∃ j, a = j + 1 := ⟨a - 1, by omega⟩
  unfold temp_value row_values
  show getA 0 _ j = _
  rw [getA_map_range' _ _ _ _ _ (by omega)]
  congr 1
  omega

/-! ## Results: the values count walks -/

/-- C24: for an accepted code in slot `i` of carbon count `k`, an atom `a` and any
number `r` of passes of the loop of `morgans_algorithm`, the value of `a` after
`r` passes is the number of walks of `r + 1` steps that start at `a` in the table
built by `morgans_splicing`; the list `walks` holds every such walk exactly once.
The value that `morgans_algorithm` leaves is therefore the number of walks of
`k / 3 + 2` steps. -/
theorem values_count_walks (gf : Bool) (last k i a r : Nat) (m : Morgans)
    (hk1 : 1 ≤ k) (hk : k ≤ last) (hi1 : 1 ≤ i)
    (hi : (i : Int) ≤ get3 (main_loop gf last) k 0 0) (ha1 : 1 ≤ a) (ha : a ≤ k) :
    getM (forLoop
        (fun _ mt => morgans_round i k (morgans_splicing (main_loop gf last) i k m []).2 mt)
        0 r ((morgans_splicing (main_loop gf last) i k m []).1, [])).1 i a =
      ((walks (morgans_splicing (main_loop gf last) i k m []).2 (r + 1) a).length : Int) ∧
    (walks (morgans_splicing (main_loop gf last) i k m []).2 (r + 1) a).Nodup ∧
    (∀ w, w ∈ walks (morgans_splicing (main_loop gf last) i k m []).2 (r + 1) a ↔
      w.length = r + 1 + 1 ∧ w.head? = some a ∧
        List.Chain'
          (fun x y => y ∈ neighbours (morgans_splicing (main_loop gf last) i k m []).2 x) w) ∧
    getM (morgans_algorithm i k (morgans_splicing (main_loop gf last) i k m []).1
        (morgans_splicing (main_loop gf last) i k m []).2) i a =
      ((walks (morgans_splicing (main_loop gf last) i k m []).2 (k / 3 + 2) a).length : Int) := by
  obtain ⟨F, hF, hsize, _⟩ := accepted_tree gf last k i hk1 hk hi1 hi
  have hN : ∀ q, neighbours (morgans_splicing (main_loop gf last) i k m []).2 q =
      adjacency (bonds_from 1 ((F.count : Int) :: F.code)) q := by
    intro q
    rw [splicing_neighbours, hF]
  have hr : ∀ x y, y ∈ neighbours (morgans_splicing (main_loop gf last) i k m []).2 x →
      1 ≤ y ∧ y ≤ k := by
    intro x y h
    rw [hN] at h
    have := tree_adjacency_range F x y h
    omega
  have hnd : ∀ x, (neighbours (morgans_splicing (main_loop gf last) i k m []).2 x).Nodup := by
    intro x
    rw [hN]
    exact tree_adjacency_nodup F x
  have hrow : row_values (morgans_splicing (main_loop gf last) i k m []).1 i k =
      seed_values ((F.count : Int) :: F.code) := by
    rw [morgans_splicing_eq]
    simp only
    rw [row_values_seed_loop, hF]
  have hseed : ∀ b, 1 ≤ b → b ≤ k →
      temp_value (seed_values ((F.count : Int) :: F.code)) b =
        ((walks (morgans_splicing (main_loop gf last) i k m []).2 (0 + 1) b).length : Int) := by
    intro b hb1 hb
    rw [temp_value_seed F b hb1 (by omega), ← hN, Nat.zero_add, length_walks_one]
  have hall : ∀ n,
      getM (forLoop
          (fun _ mt => morgans_round i k (morgans_splicing (main_loop gf last) i k m []).2 mt)
          0 n ((morgans_splicing (main_loop gf last) i k m []).1, [])).1 i a =
        ((walks (morgans_splicing (main_loop gf last) i k m []).2 (n + 1) a).length : Int) := by
    intro n
    rw [← temp_value_row_values _ i k a ha1 ha,
      (rounds_loop i k _ n 0 _ [] (fun q _ => getA_nil 0 q)).1, hrow,
      rounds_walks _ k hr n 0 _ hseed a ha1 ha]
    congr 3
    omega
  refine ⟨hall r, walks_nodup _ hnd _ _, fun w => mem_walks _ _ _ w, ?_⟩
  exact hall (k / 3 + 1)

set_option maxRecDepth 100000 in
theorem values_count_walks_witness :
    getM (forLoop
        (fun _ mt => morgans_round 2 4 (morgans_splicing (main_loop false 4) 2 4 [] []).2 mt)
        0 2 ((morgans_splicing (main_loop false 4) 2 4 [] []).1, [])).1 2 3 =
      ((walks (morgans_splicing (main_loop false 4) 2 4 [] []).2 (2 + 1) 3).length : Int) ∧
    (walks (morgans_splicing (main_loop false 4) 2 4 [] []).2 (2 + 1) 3).Nodup ∧
    (∀ w, w ∈ walks (morgans_splicing (main_loop false 4) 2 4 [] []).2 (2 + 1) 3 ↔
      w.length = 2 + 1 + 1 ∧ w.head? = some 3 ∧
        List.Chain'
          (fun x y => y ∈ neighbours (morgans_splicing (main_loop false 4) 2 4 [] []).2 x) w) ∧
    getM (morgans_algorithm 2 4 (morgans_splicing (main_loop false 4) 2 4 [] []).1
        (morgans_splicing (main_loop false 4) 2 4 [] []).2) 2 3 =
      ((walks (morgans_splicing (main_loop false 4) 2 4 [] []).2 (4 / 3 + 2) 3).length : Int) :=
  values_count_walks false 4 4 2 3 2 [] (by decide) (by decide) (by decide) (by decide!)
    (by decide) (by decide)

/-! ## Atoms within a distance -/

theorem tree_reaches_root (F : Forest) (a : Nat) (ha1 : 1 ≤ a) (ha : a ≤ F.size + 1) :
    Relation.ReflTransGen
      (fun x y => y ∈ adjacency (bonds_from 1 ((F.count : Int) :: F.code)) x) a 1 := by
  have hall : ∀ n a, a ≤ n → 1 ≤ a → a ≤ F.size + 1 →
      Relation.ReflTransGen
        (fun x y => y ∈ adjacency (bonds_from 1 ((F.count : Int) :: F.code)) x) a 1 := by
    intro n
    induction n with
    | zero =>
      intro a h0 h1 _
      omega
    | succ n ih =>
      intro a han ha1 hak
      by_cases ha : a = 1
      · rw [ha]
      · have hlen := tree_earlier F a ha1 hak
        rw [if_neg ha] at hlen
        have hex : ∃ q, q ∈ (adjacency (bonds_from 1 ((F.count : Int) :: F.code)) a).filter
            (fun q => decide (q < a)) := by
          cases hl : (adjacency (bonds_from 1 ((F.count : Int) :: F.code)) a).filter
              (fun q => decide (q < a)) with
          | nil => rw [hl] at hlen; simp at hlen
          | cons q l => exact ⟨q, List.mem_cons_self _ _⟩
        obtain ⟨q, hq⟩ := hex
        rw [List.mem_filter] at hq
        have hqa : q < a := by simpa using hq.2
        have hr := tree_adjacency_range F a q hq.1
        exact Relation.ReflTransGen.head hq.1 (ih q (by omega) hr.2.2.1 hr.2.2.2.1)
  exact hall a a (le_refl _) ha1 ha

theorem tree_connected (F : Forest) (a p : Nat) (ha1 : 1 ≤ a) (ha : a ≤ F.size + 1)
    (hp1 : 1 ≤ p) (hp : p ≤ F.size + 1) :
    Relation.ReflTransGen
      (fun x y => y ∈ adjacency (bonds_from 1 ((F.count : Int) :: F.code)) x) a p := by
  have hsym : Symmetric
      (fun x y => y ∈ adjacency (bonds_from 1 ((F.count : Int) :: F.code)) x) :=
    fun x y h => (adjacency_symm _ x y).mp h
  exact (tree_reaches_root F a ha1 ha).trans
    (Relation.ReflTransGen.symmetric hsym (tree_reaches_root F p hp1 hp))

theorem mem_ball_self (T : Connections) (r a : Nat) : a ∈ ball T r a := by
  induction r with
  | zero => exact List.mem_singleton_self a
  | succ r ih =>
    rw [ball]
    exact List.mem_append_left _ ih

theorem mem_ball_succ (T : Connections) (r a x : Nat) :
    x ∈ ball T (r + 1) a ↔ x ∈ ball T r a ∨ ∃ y, y ∈ ball T r a ∧ x ∈ neighbours T y := by
  rw [ball, List.mem_append, List.mem_flatMap]

theorem within_eq_card (T : Connections) (r a : Nat) :
    within T r a = (ball T r a).toFinset.card := by
  unfold within
  rw [List.card_toFinset]

/-- In a connected table on `C` atoms the number of atoms within distance `r`
grows with `r` until all atoms are reached. -/
theorem within_lower_bound (T : Connections) (C a : Nat)
    (hconn : ∀ p, 1 ≤ p → p ≤ C →
      Relation.ReflTransGen (fun x y => y ∈ neighbours T x) a p)
    (r : Nat) : min C (r + 1) ≤ within T r a := by
  induction r with
  | zero =>
    have : within T 0 a = 1 := by
      unfold within
      simp [ball]
    rw [this]
    omega
  | succ r ih =>
    have hsub : (ball T r a).toFinset ⊆ (ball T (r + 1) a).toFinset := by
      intro x hx
      rw [List.mem_toFinset] at hx ⊢
      rw [mem_ball_succ]
      exact Or.inl hx
    have hle := Finset.card_le_card hsub
    rw [within_eq_card] at ih ⊢
    by_cases hgrow : (ball T r a).toFinset.card < (ball T (r + 1) a).toFinset.card
    · omega
    · have heq : (ball T r a).toFinset = (ball T (r + 1) a).toFinset :=
        Finset.eq_of_subset_of_card_le hsub (by omega)
      have hclosed : ∀ y, y ∈ ball T r a → ∀ x, x ∈ neighbours T y → x ∈ ball T r a := by
        intro y hy x hx
        have : x ∈ (ball T (r + 1) a).toFinset := by
          rw [List.mem_toFinset, mem_ball_succ]
          exact Or.inr ⟨y, hy, hx⟩
        rw [← heq, List.mem_toFinset] at this
        exact this
      have hall : ∀ p, Relation.ReflTransGen (fun x y => y ∈ neighbours T x) a p →
          p ∈ ball T r a := by
        intro p hp
        induction hp with
        | refl => exact mem_ball_self T r a
        | tail _ hbc ih2 => exact hclosed _ ih2 _ hbc
      have hIcc : Finset.Icc 1 C ⊆ (ball T r a).toFinset := by
        intro p hp
        rw [Finset.mem_Icc] at hp
        rw [List.mem_toFinset]
        exact hall p (hconn p hp.1 hp.2)
      have hC := Finset.card_le_card hIcc
      rw [Nat.card_Icc] at hC
      omega

/-! ## The reach of `C / 2 + 1` rounds -/

/-- For a well-formed code of length `C`, every atom has at least `min C (r + 1)`
atoms within distance `r`, itself included; with `r = C / 2 + 1`, the number of
iterations named in the comments of `check_Isomers` and `morgans_algorithm`,
these are at least half of the atoms. -/
theorem half_reached_by_half_rounds (C : Nat) (d : List Int) (a r : Nat) (hl : d.length = C)
    (h : well_formed d) (ha1 : 1 ≤ a) (ha : a ≤ C) :
    min C (r + 1) ≤ within (connOf C d) r a ∧
    C ≤ 2 * within (connOf C d) (C / 2 + 1) a := by
  obtain ⟨F, rfl⟩ := h
  have hs : F.size + 1 = C := by
    rw [← hl, List.length_cons, forest_length_code]
  have hconn : ∀ p, 1 ≤ p → p ≤ C →
      Relation.ReflTransGen
        (fun x y => y ∈ neighbours (connOf C ((F.count : Int) :: F.code)) x) a p := by
    intro p hp1 hp
    have e : (fun x y => y ∈ neighbours (connOf C ((F.count : Int) :: F.code)) x) =
        (fun x y => y ∈ adjacency (bonds_from 1 ((F.count : Int) :: F.code)) x) := by
      funext x y
      rw [neighbours_connOf C _ hl x]
    rw [e]
    exact tree_connected F a p ha1 (by omega) hp1 (by omega)
  have h1 := within_lower_bound _ C a hconn r
  have h2 := within_lower_bound _ C a hconn (C / 2 + 1)
  refine ⟨h1, ?_⟩
  omega

/-! ## The bonds of an extended forest -/

theorem roots_shift (F : Forest) (s : Nat) :
    Forest.roots (s + 1) F = (Forest.roots s F).map (fun q => q + 1) := by
  induction F generalizing s with
  | nil => rfl
  | cons ch sib _ ihs =>
    simp only [Forest.roots, List.map_cons]
    rw [← ihs]
    congr 2
    omega

theorem bonds_shift (F : Forest) (s : Nat) :
    Forest.bonds (s + 1) F = (Forest.bonds s F).map (fun ab => (ab.1 + 1, ab.2 + 1)) := by
  induction F generalizing s with
  | nil => rfl
  | cons ch sib ihc ihs =>
    simp only [Forest.bonds, List.map_append, List.map_map]
    rw [← ihc, ← ihs, roots_shift ch (s + 1)]
    rw [List.map_map]
    have e : s + 1 + 1 + ch.size = s + 1 + ch.size + 1 := by omega
    rw [e]
    rfl

theorem roots_renumber_above (F : Forest) (s P : Nat) (h : P < s) :
    (Forest.roots s F).map (renumber P) = Forest.roots (s + 1) F := by
  rw [roots_shift]
  apply List.map_congr_left
  intro q hq
  have := roots_bounds _ _ _ hq
  unfold renumber
  rw [if_pos (by omega)]

theorem roots_renumber_below (F : Forest) (s P : Nat) (h : s + F.size ≤ P + 1) :
    (Forest.roots s F).map (renumber P) = Forest.roots s F := by
  conv_rhs => rw [← List.map_id (Forest.roots s F)]
  apply List.map_congr_left
  intro q hq
  have := roots_bounds _ _ _ hq
  unfold renumber
  rw [if_neg (by omega)]
  rfl

theorem bonds_renumber_above (F : Forest) (s P : Nat) (h : P < s) :
    (Forest.bonds s F).map (fun ab => (renumber P ab.1, renumber P ab.2)) =
      Forest.bonds (s + 1) F := by
  rw [bonds_shift]
  apply List.map_congr_left
  intro ab hab
  have := forest_bonds_bounds _ _ _ hab
  unfold renumber
  rw [if_pos (by omega), if_pos (by omega)]

theorem bonds_renumber_below (F : Forest) (s P : Nat) (h : s + F.size ≤ P + 1) :
    (Forest.bonds s F).map (fun ab => (renumber P ab.1, renumber P ab.2)) =
      Forest.bonds s F := by
  conv_rhs => rw [← List.map_id (Forest.bonds s F)]
  apply List.map_congr_left
  intro ab hab
  have := forest_bonds_bounds _ _ _ hab
  unfold renumber
  rw [if_neg (by omega), if_neg (by omega)]
  rfl

/-- The roots of an extended forest are the renumbered roots of the forest. -/
theorem grow_roots (F : Forest) (i s : Nat) (hi : i < F.size) :
    Forest.roots s (F.grow i) = (Forest.roots s F).map (renumber (s + i)) := by
  induction F generalizing i s with
  | nil => simp [Forest.size] at hi
  | cons ch sib _ ihs =>
    simp only [Forest.size] at hi
    have hs : ∀ P, P ≥ s → renumber P s = s := by
      intro P hP
      unfold renumber
      rw [if_neg (by omega)]
    cases i with
    | zero =>
      simp only [Forest.grow, Forest.roots, List.map_cons, Forest.size]
      rw [hs _ (by omega), roots_renumber_above _ _ _ (by omega)]
      congr 2
      omega
    | succ j =>
      simp only [Forest.grow]
      split
      · rename_i h
        simp only [Forest.roots, List.map_cons]
        rw [hs _ (by omega), roots_renumber_above _ _ _ (by omega), forest_size_grow _ _ h]
        congr 2
      · rename_i h
        simp only [Forest.roots, List.map_cons]
        have e : s + 1 + ch.size + (j - ch.size) = s + (j + 1) := by omega
        rw [hs _ (by omega), ihs (j - ch.size) (s + 1 + ch.size) (by omega), e]

/-- The bonds of an extended forest are the renumbered bonds of the forest and
the bond of the new leaf. -/
theorem grow_bonds (F : Forest) (i s : Nat) (hi : i < F.size) :
    List.Perm (Forest.bonds s (F.grow i))
      ((s + i, s + i + 1) ::
        (Forest.bonds s F).map (fun ab => (renumber (s + i) ab.1, renumber (s + i) ab.2))) := by
  induction F generalizing i s with
  | nil => simp [Forest.size] at hi
  | cons ch sib ihc ihs =>
    simp only [Forest.size] at hi
    have hs : ∀ P, P ≥ s → renumber P s = s := by
      intro P hP
      unfold renumber
      rw [if_neg (by omega)]
    have hmap : ∀ (P : Nat) (l : List Nat), P ≥ s →
        (l.map (fun q => (s, q))).map (fun ab => (renumber P ab.1, renumber P ab.2)) =
          (l.map (renumber P)).map (fun q => (s, q)) := by
      intro P l hP
      rw [List.map_map, List.map_map]
      apply List.map_congr_left
      intro q _
      simp only [Function.comp_apply, hs P hP]
    cases i with
    | zero =>
      simp only [Forest.grow, Forest.bonds, Forest.roots, Forest.size, List.map_append,
        List.map_cons, List.map_nil, List.nil_append, List.cons_append, Nat.add_zero]
      rw [hmap s _ (le_refl _), roots_renumber_above _ _ _ (by omega),
        bonds_renumber_above _ _ _ (by omega), bonds_renumber_above _ _ _ (by omega)]
      have e1 : s + 1 + 1 + 0 = s + 1 + 1 := by omega
      have e2 : s + 1 + (0 + ch.size + 1) = s + 1 + ch.size + 1 := by omega
      rw [e1, e2]
    | succ j =>
      simp only [Forest.grow]
      split
      · rename_i h
        simp only [Forest.bonds, List.map_append]
        rw [hmap (s + (j + 1)) _ (by omega), grow_roots _ _ _ h, forest_size_grow _ _ h,
          bonds_renumber_above sib (s + 1 + ch.size) (s + (j + 1)) (by omega)]
        have e : s + 1 + j = s + (j + 1) := by omega
        have ih := ihc j (s + 1) h
        rw [e] at ih ⊢
        have eZ : s + 1 + (ch.size + 1) = s + 1 + ch.size + 1 := by omega
        rw [eZ]
        refine ((List.Perm.append_left _ ih).append_right _).trans ?_
        rw [List.append_assoc, List.cons_append, List.append_assoc]
        exact List.perm_middle
      · rename_i h
        simp only [Forest.bonds, List.map_append]
        rw [hmap _ _ (by omega), roots_renumber_below _ _ _ (by omega),
          bonds_renumber_below ch _ _ (by omega)]
        have ih := ihs (j - ch.size) (s + 1 + ch.size) (by omega)
        have e : s + 1 + ch.size + (j - ch.size) = s + (j + 1) := by omega
        rw [e] at ih
        refine (List.Perm.append_left _ ih).trans ?_
        exact List.perm_middle

/-- The bonds recorded for the extension of a tree code at position `p` are the
renumbered bonds of the tree code and the bond from `p` to `p + 1`. -/
theorem extend_bonds (F : Forest) (p : Nat) (hp1 : 1 ≤ p) (hp : p ≤ F.size + 1) :
    List.Perm (bonds_from 1 (extend ((F.count : Int) :: F.code) p))
      ((p, p + 1) ::
        (bonds_from 1 ((F.count : Int) :: F.code)).map
          (fun ab => (renumber p ab.1, renumber p ab.2))) := by
  obtain ⟨i, rfl⟩ : ∃ i, p = i + 1 := ⟨p - 1, by omega⟩
  have hsz : i < (Forest.cons F Forest.nil).size := by
    simp only [Forest.size]
    omega
  have hc : (Forest.cons F Forest.nil).code = (F.count : Int) :: F.code := by
    simp only [Forest.code, List.append_nil]
  have h1 := bonds_from_forest ((Forest.cons F Forest.nil).grow i) 1 []
  rw [List.append_nil, code_grow _ i hsz, hc] at h1
  have h2 := bonds_from_forest (Forest.cons F Forest.nil) 1 []
  rw [List.append_nil, hc] at h2
  have hb : ∀ s, bonds_from s ([] : List Int) = [] := fun s => rfl
  rw [hb, List.append_nil] at h1 h2
  rw [h1, h2]
  have h3 := grow_bonds (Forest.cons F Forest.nil) i 1 hsz
  have e : 1 + i = i + 1 := by omega
  rw [e] at h3
  exact h3

theorem renumber_ne_succ (p x : Nat) : renumber p x ≠ p + 1 := by
  unfold renumber
  split <;> omega

/-! ## Results: extension attaches a leaf -/

/-- C23: if the code in slot `I` of carbon count `k - 1` is well formed, the table
that `morgans_splicing` builds from the candidate written for position `p` holds
exactly the bonds of the table of the parent, with every position after `p`
renumbered to the next position, and the bond between `p` and `p + 1`; the new
atom `p + 1` has `p` as its only neighbour. -/
theorem extension_attaches_leaf (st : Store) (k I p isomer : Nat) (m m0 : Morgans)
    (hk : 2 ≤ k) (hp1 : 1 ≤ p) (hp : p ≤ k - 1)
    (hwf : well_formed (code_digits st (k - 1) I)) :
    (∀ a b,
      b ∈ neighbours
          (morgans_splicing (write_candidate st k (k - 1) I p isomer) isomer k m []).2 a ↔
        (a = p ∧ b = p + 1) ∨ (a = p + 1 ∧ b = p) ∨
          ∃ a0 b0, b0 ∈ neighbours (morgans_splicing st I (k - 1) m0 []).2 a0 ∧
            a = renumber p a0 ∧ b = renumber p b0) ∧
    ∀ b,
      b ∈ neighbours
          (morgans_splicing (write_candidate st k (k - 1) I p isomer) isomer k m []).2
          (p + 1) ↔ b = p := by
  obtain ⟨F, hF⟩ := hwf
  have hsize : F.size + 1 = k - 1 := by
    have := congrArg List.length hF
    rw [length_code_digits, List.length_cons, forest_length_code] at this
    omega
  have hperm := extend_bonds F p hp1 (by omega)
  have hmem : ∀ a b, (a, b) ∈ bonds_from 1 (extend ((F.count : Int) :: F.code) p) ↔
      (a = p ∧ b = p + 1) ∨
        ∃ a0 b0, (a0, b0) ∈ bonds_from 1 ((F.count : Int) :: F.code) ∧
          a = renumber p a0 ∧ b = renumber p b0 := by
    intro a b
    rw [hperm.mem_iff, List.mem_cons, List.mem_map]
    constructor
    · rintro (h | ⟨ab0, h0, h1⟩)
      · simp only [Prod.mk.injEq] at h
        exact Or.inl h
      · simp only [Prod.mk.injEq] at h1
        exact Or.inr ⟨ab0.1, ab0.2, h0, h1.1.symm, h1.2.symm⟩
    · rintro (h | ⟨a0, b0, h0, h1, h2⟩)
      · exact Or.inl (by rw [h.1, h.2])
      · exact Or.inr ⟨(a0, b0), h0, by rw [h1, h2]⟩
  have hfirst : ∀ a b,
      b ∈ neighbours
          (morgans_splicing (write_candidate st k (k - 1) I p isomer) isomer k m []).2 a ↔
        (a = p ∧ b = p + 1) ∨ (a = p + 1 ∧ b = p) ∨
          ∃ a0 b0, b0 ∈ neighbours (morgans_splicing st I (k - 1) m0 []).2 a0 ∧
            a = renumber p a0 ∧ b = renumber p b0 := by
    intro a b
    rw [splicing_neighbours, code_digits_write_candidate st k I p isomer (by omega) hp1 hp, hF,
      mem_adjacency, hmem, hmem]
    constructor
    · rintro ((h | ⟨a0, b0, h0, h1, h2⟩) | (h | ⟨a0, b0, h0, h1, h2⟩))
      · exact Or.inl h
      · refine Or.inr (Or.inr ⟨a0, b0, ?_, h1, h2⟩)
        rw [splicing_neighbours, hF, mem_adjacency]
        exact Or.inl h0
      · exact Or.inr (Or.inl ⟨h.2, h.1⟩)
      · refine Or.inr (Or.inr ⟨b0, a0, ?_, h2, h1⟩)
        rw [splicing_neighbours, hF, mem_adjacency]
        exact Or.inr h0
    · rintro (h | h | ⟨a0, b0, h0, h1, h2⟩)
      · exact Or.inl (Or.inl h)
      · exact Or.inr (Or.inl ⟨h.2, h.1⟩)
      · rw [splicing_neighbours, hF, mem_adjacency] at h0
        rcases h0 with h0 | h0
        · exact Or.inl (Or.inr ⟨a0, b0, h0, h1, h2⟩)
        · exact Or.inr (Or.inr ⟨b0, a0, h0, h2, h1⟩)
  refine ⟨hfirst, ?_⟩
  intro b
  rw [hfirst]
  constructor
  · rintro (h | h | ⟨a0, b0, _, h1, _⟩)
    · omega
    · exact h.2
    · exact absurd h1.symm (renumber_ne_succ p a0)
  · intro h
    exact Or.inr (Or.inl ⟨rfl, h⟩)

theorem extension_attaches_leaf_witness :
    (∀ a b,
      b ∈ neighbours
          (morgans_splicing (write_candidate (storeOf 3 [1, 1, 0]) 4 (4 - 1) 1 2 1) 1 4 [] []).2
          a ↔
        (a = 2 ∧ b = 2 + 1) ∨ (a = 2 + 1 ∧ b = 2) ∨
          ∃ a0 b0, b0 ∈ neighbours (morgans_splicing (storeOf 3 [1, 1, 0]) 1 (4 - 1) [] []).2 a0 ∧
            a = renumber 2 a0 ∧ b = renumber 2 b0) ∧
    ∀ b,
      b ∈ neighbours
          (morgans_splicing (write_candidate (storeOf 3 [1, 1, 0]) 4 (4 - 1) 1 2 1) 1 4 [] []).2
          (2 + 1) ↔ b = 2 :=
  extension_attaches_leaf (storeOf 3 [1, 1, 0]) 4 1 2 1 [] [] (by decide) (by decide) (by decide)
    ⟨Forest.cons (Forest.cons Forest.nil Forest.nil) Forest.nil, by decide⟩

/-! ## Graphs given by neighbour lists -/

theorem sum_range_eq_sum_Icc (f : Nat → Nat) (n : Nat) :
    ((List.range' 1 n).map f).sum = Finset.sum (Finset.Icc 1 n) f := by
  induction n with
  | zero => simp
  | succ n ih =>
    rw [List.range'_concat, List.map_append, List.sum_append, ih,
      Finset.sum_Icc_succ_top (by omega)]
    simp [Nat.add_comm]

theorem isomorphic_iff_graph_iso (C : Nat) (T1 T2 : Connections) :
    isomorphic C T1 T2 ↔ graph_iso C (neighbours T1) (neighbours T2) := Iff.rfl

theorem graph_iso_trans (C : Nat) (N1 N2 N3 : Nat → List Nat)
    (h12 : graph_iso C N1 N2) (h23 : graph_iso C N2 N3) : graph_iso C N1 N3 := by
  obtain ⟨f1, g1, hf1, hg1, ha1⟩ := h12
  obtain ⟨f2, g2, hf2, hg2, ha2⟩ := h23
  refine ⟨fun a => f2 (f1 a), fun b => g1 (g2 b), ?_, ?_, ?_⟩
  · intro a h1 h2
    have h := hf1 a h1 h2
    have h' := hf2 (f1 a) h.1 h.2.1
    refine ⟨h'.1, h'.2.1, ?_⟩
    simp only
    rw [h'.2.2, h.2.2]
  · intro b h1 h2
    have h := hg2 b h1 h2
    have h' := hg1 (g2 b) h.1 h.2.1
    refine ⟨h'.1, h'.2.1, ?_⟩
    simp only
    rw [h'.2.2, h.2.2]
  · intro a b h1 h2 h3 h4
    have ha := hf1 a h1 h2
    have hb := hf1 b h3 h4
    rw [ha1 a b h1 h2 h3 h4, ha2 (f1 a) (f1 b) ha.1 ha.2.1 hb.1 hb.2.1]

/-- An isomorphism preserves the number of neighbours. -/
theorem iso_degree (C : Nat) (N1 N2 : Nat → List Nat) (f g : Nat → Nat)
    (hf : ∀ a, 1 ≤ a → a ≤ C → 1 ≤ f a ∧ f a ≤ C ∧ g (f a) = a)
    (hg : ∀ b, 1 ≤ b → b ≤ C → 1 ≤ g b ∧ g b ≤ C ∧ f (g b) = b)
    (hadj : ∀ a b, 1 ≤ a → a ≤ C → 1 ≤ b → b ≤ C → (b ∈ N1 a ↔ f b ∈ N2 (f a)))
    (hr1 : ∀ a b, b ∈ N1 a → 1 ≤ b ∧ b ≤ C)
    (hr2 : ∀ a b, b ∈ N2 a → 1 ≤ b ∧ b ≤ C)
    (hn1 : ∀ a, (N1 a).Nodup) (hn2 : ∀ a, (N2 a).Nodup)
    (a : Nat) (ha1 : 1 ≤ a) (ha : a ≤ C) :
    (N2 (f a)).length = (N1 a).length := by
  have hnm : ((N1 a).map f).Nodup := by
    apply List.Nodup.map_on _ (hn1 a)
    intro x hx y hy hxy
    have h1 := hr1 a x hx
    have h2 := hr1 a y hy
    rw [← (hf x h1.1 h1.2).2.2, ← (hf y h2.1 h2.2).2.2, hxy]
  have hp : List.Perm (N2 (f a)) ((N1 a).map f) := by
    rw [List.perm_ext_iff_of_nodup (hn2 (f a)) hnm]
    intro b
    constructor
    · intro hb
      have hbr := hr2 _ _ hb
      have hgb := hg b hbr.1 hbr.2
      rw [List.mem_map]
      refine ⟨g b, ?_, hgb.2.2⟩
      rw [hadj a (g b) ha1 ha hgb.1 hgb.2.1, hgb.2.2]
      exact hb
    · intro hb
      rw [List.mem_map] at hb
      obtain ⟨x, hx, rfl⟩ := hb
      have hxr := hr1 _ _ hx
      exact (hadj a x ha1 ha hxr.1 hxr.2).mp hx
  rw [hp.length_eq, List.length_map]

/-! ## Leaves of a tree -/

theorem tree_degree_pos (n : Nat) (N : Nat → List Nat) (hN : is_tree n N) (hn : 2 ≤ n)
    (a : Nat) (ha1 : 1 ≤ a) (ha : a ≤ n) : 1 ≤ (N a).length := by
  obtain ⟨_, _, _, hconn, _⟩ := hN
  have hb : ∃ b, 1 ≤ b ∧ b ≤ n ∧ a ≠ b := by
    by_cases h : a = 1
    · exact ⟨2, by omega, hn, by omega⟩
    · exact ⟨1, le_refl _, by omega, h⟩
  obtain ⟨b, hb1, hb2, hab⟩ := hb
  rcases (hconn a b ha1 ha hb1 hb2).cases_head with h | ⟨c, hc, _⟩
  · exact absurd h hab
  · exact List.length_pos_of_mem hc

theorem tree_sum_degrees (n : Nat) (N : Nat → List Nat) (hN : is_tree n N) :
    Finset.sum (Finset.Icc 1 n) (fun a => (N a).length) = 2 * (n - 1) := by
  rw [← sum_range_eq_sum_Icc]
  exact hN.2.2.2.2

theorem exists_leaf (n : Nat) (N : Nat → List Nat) (hN : is_tree n N) (hn : 2 ≤ n) :
    ∃ l, 1 ≤ l ∧ l ≤ n ∧ (N l).length = 1 := by
  by_contra hno
  have h2 : ∀ a, a ∈ Finset.Icc 1 n → 2 ≤ (N a).length := by
    intro a ha
    rw [Finset.mem_Icc] at ha
    have h1 := tree_degree_pos n N hN hn a ha.1 ha.2
    by_contra hlt
    exact hno ⟨a, ha.1, ha.2, by omega⟩
  have hs := Finset.sum_le_sum h2
  rw [tree_sum_degrees n N hN, Finset.sum_const, Nat.card_Icc] at hs
  simp only [smul_eq_mul] at hs
  omega

theorem leaf_neighbour (N : Nat → List Nat) (l : Nat) (h : (N l).length = 1) :
    ∃ w, N l = [w] := List.length_eq_one.mp h

/-! ## Stars -/

theorem card_filter_mem_neighbours (n : Nat) (N : Nat → List Nat) (hN : is_tree n N) (u : Nat) :
    (Finset.filter (fun a => a ∈ N u) (Finset.Icc 1 n)).card = (N u).length := by
  obtain ⟨hrange, _, hnd, _, _⟩ := hN
  rw [← List.toFinset_card_of_nodup (hnd u)]
  congr 1
  ext a
  rw [Finset.mem_filter, Finset.mem_Icc, List.mem_toFinset]
  constructor
  · exact fun h => h.2
  · intro h
    have := hrange u a h
    exact ⟨⟨this.2.2.1, this.2.2.2.1⟩, h⟩

/-- If every leaf of a tree on at least 3 atoms is a neighbour of `u`, all
neighbours of `u` are leaves. -/
theorem star_neighbours_are_leaves (n : Nat) (N : Nat → List Nat) (hN : is_tree n N)
    (hn : 3 ≤ n) (u : Nat) (hu1 : 1 ≤ u) (hu : u ≤ n)
    (hall : ∀ l, 1 ≤ l → l ≤ n → (N l).length = 1 → u ∈ N l) :
    ∀ x, x ∈ N u → (N x).length = 1 := by
  have hN' := hN
  obtain ⟨hrange, hsymm, hnd, hconn, _⟩ := hN
  intro x hx
  by_contra hx1
  have hxr := hrange u x hx
  have hxpos := tree_degree_pos n N hN' (by omega) x hxr.2.2.1 hxr.2.2.2.1
  have hineq : ∀ a, a ∈ Finset.Icc 1 n →
      2 + (if a = x then 1 else 0) + (if a = u then (N u).length else 0) ≤
        (N a).length + (if a ∈ N u then 1 else 0) + (if a = u then 2 else 0) := by
    intro a ha
    rw [Finset.mem_Icc] at ha
    have hapos := tree_degree_pos n N hN' (by omega) a ha.1 ha.2
    by_cases hau : a = u
    · subst hau
      have h1 : ¬ (a = x) := fun h => hxr.2.2.2.2 h.symm
      have h2 : a ∉ N a := fun h => (hrange a a h).2.2.2.2 rfl
      rw [if_neg h1, if_pos rfl, if_neg h2, if_pos rfl]
      omega
    · rw [if_neg hau, if_neg hau]
      by_cases hax : a = x
      · subst hax
        rw [if_pos rfl, if_pos hx]
        omega
      · rw [if_neg hax]
        by_cases hmem : a ∈ N u
        · rw [if_pos hmem]
          omega
        · rw [if_neg hmem]
          have : (N a).length ≠ 1 := by
            intro h1
            exact hmem (hsymm a u (hall a ha.1 ha.2 h1))
          omega
  have hs := Finset.sum_le_sum hineq
  rw [Finset.sum_add_distrib, Finset.sum_add_distrib, Finset.sum_add_distrib,
    Finset.sum_add_distrib, tree_sum_degrees n N hN', Finset.sum_const, Nat.card_Icc,
    Finset.sum_ite_eq', Finset.sum_ite_eq', Finset.sum_ite_eq', Finset.sum_boole,
    card_filter_mem_neighbours n N hN' u] at hs
  have hxm : x ∈ Finset.Icc 1 n := Finset.mem_Icc.mpr ⟨hxr.2.2.1, hxr.2.2.2.1⟩
  have hum : u ∈ Finset.Icc 1 n := Finset.mem_Icc.mpr ⟨hu1, hu⟩
  rw [if_pos hxm, if_pos hum, if_pos hum] at hs
  simp only [smul_eq_mul, Nat.cast_id] at hs
  omega

/-- If every leaf of a tree on at least 3 atoms is a neighbour of `u`, the tree is
the star with centre `u`. -/
theorem star_of_leaves (n : Nat) (N : Nat → List Nat) (hN : is_tree n N)
    (hn : 3 ≤ n) (u : Nat) (hu1 : 1 ≤ u) (hu : u ≤ n)
    (hall : ∀ l, 1 ≤ l → l ≤ n → (N l).length = 1 → u ∈ N l) :
    (∀ a, 1 ≤ a → a ≤ n → a ≠ u → N a = [u]) ∧ (N u).length = n - 1 := by
  have hleaf := star_neighbours_are_leaves n N hN hn u hu1 hu hall
  obtain ⟨hrange, hsymm, hnd, hconn, _⟩ := hN
  have hone : ∀ x, x ∈ N u → N x = [u] := by
    intro x hx
    obtain ⟨w, hw⟩ := leaf_neighbour N x (hleaf x hx)
    have := hsymm u x hx
    rw [hw, List.mem_singleton] at this
    rw [hw, this]
  have hclosed : ∀ a, Relation.ReflTransGen (fun x y => y ∈ N x) u a → a = u ∨ a ∈ N u := by
    intro a h
    induction h with
    | refl => exact Or.inl rfl
    | tail _ hbc ih =>
      rcases ih with h1 | h1
      · rw [h1] at hbc
        exact Or.inr hbc
      · rw [hone _ h1, List.mem_singleton] at hbc
        exact Or.inl hbc
  have hmem : ∀ a, 1 ≤ a → a ≤ n → a ≠ u → a ∈ N u := by
    intro a ha1 ha hau
    rcases hclosed a (hconn u a hu1 hu ha1 ha) with h | h
    · exact absurd h hau
    · exact h
  refine ⟨fun a ha1 ha hau => hone a (hmem a ha1 ha hau), ?_⟩
  rw [← List.toFinset_card_of_nodup (hnd u)]
  have : (N u).toFinset = (Finset.Icc 1 n).erase u := by
    ext a
    rw [List.mem_toFinset, Finset.mem_erase, Finset.mem_Icc]
    constructor
    · intro h
      have := hrange u a h
      exact ⟨this.2.2.2.2, this.2.2.1, this.2.2.2.1⟩
    · intro h
      exact hmem a h.2.1 h.2.2 h.1
  rw [this, Finset.card_erase_of_mem (Finset.mem_Icc.mpr ⟨hu1, hu⟩), Nat.card_Icc]
  omega

/-! ## The choice of a leaf -/

/-- In a tree on `n ≥ 2` atoms, `n ≠ 3`, there is a leaf `l` with neighbour `w`
such that some atom other than `w` and `l` has at least as many neighbours as
`w`, or every atom other than `w` and `l` has fewer neighbours than `w` by at
least 2. -/
theorem choose_leaf (n : Nat) (N : Nat → List Nat) (hN : is_tree n N) (hn : 2 ≤ n)
    (hn3 : n ≠ 3) :
    ∃ l w, 1 ≤ l ∧ l ≤ n ∧ N l = [w] ∧
      ((∃ u, 1 ≤ u ∧ u ≤ n ∧ u ≠ w ∧ u ≠ l ∧ (N w).length ≤ (N u).length) ∨
        (∀ u, 1 ≤ u → u ≤ n → u ≠ w → u ≠ l → (N u).length + 1 < (N w).length)) := by
  have hN' := hN
  obtain ⟨hrange, hsymm, hnd, hconn, _⟩ := hN
  obtain ⟨l0, hl01, hl0n, hl0⟩ := exists_leaf n N hN' hn
  obtain ⟨w0, hw0⟩ := leaf_neighbour N l0 hl0
  have hw0r := hrange l0 w0 (by rw [hw0]; exact List.mem_singleton_self _)
  by_cases hn2 : n = 2
  · refine ⟨l0, w0, hl01, hl0n, hw0, Or.inr ?_⟩
    intro u hu1 hu huw hul
    omega
  · have hn4 : 4 ≤ n := by omega
    obtain ⟨us, hus, hmax⟩ := Finset.exists_max_image (Finset.Icc 1 n)
      (fun a => (N a).length) ⟨1, Finset.mem_Icc.mpr ⟨le_refl _, by omega⟩⟩
    rw [Finset.mem_Icc] at hus
    have hmax2 : ∀ a, 1 ≤ a → a ≤ n → (N a).length ≤ (N us).length :=
      fun a h1 h2 => hmax a (Finset.mem_Icc.mpr ⟨h1, h2⟩)
    have husdeg : 2 ≤ (N us).length := by
      by_contra hlt
      have hle : ∀ a, a ∈ Finset.Icc 1 n → (N a).length ≤ 1 := by
        intro a ha
        rw [Finset.mem_Icc] at ha
        have := hmax2 a ha.1 ha.2
        omega
      have hs := Finset.sum_le_sum hle
      rw [tree_sum_degrees n N hN', Finset.sum_const, Nat.card_Icc] at hs
      simp only [smul_eq_mul] at hs
      omega
    by_cases hex : ∃ l, 1 ≤ l ∧ l ≤ n ∧ (N l).length = 1 ∧ us ∉ N l
    · obtain ⟨l, hl1, hln, hl, hnot⟩ := hex
      obtain ⟨w, hw⟩ := leaf_neighbour N l hl
      have hwr := hrange l w (by rw [hw]; exact List.mem_singleton_self _)
      refine ⟨l, w, hl1, hln, hw, Or.inl ⟨us, hus.1, hus.2, ?_, ?_, hmax2 w hwr.2.2.1 hwr.2.2.2.1⟩⟩
      · intro h
        apply hnot
        rw [hw, h]
        exact List.mem_singleton_self _
      · intro h
        rw [h] at husdeg
        omega
    · have hall : ∀ l, 1 ≤ l → l ≤ n → (N l).length = 1 → us ∈ N l := by
        intro l hl1 hln hl
        by_contra hnot
        exact hex ⟨l, hl1, hln, hl, hnot⟩
      obtain ⟨hstar, hdeg⟩ := star_of_leaves n N hN' (by omega) us hus.1 hus.2 hall
      have hl0u : l0 ≠ us := by
        intro h
        rw [h] at hl0
        omega
      have hw0u : w0 = us := by
        have := hstar l0 hl01 hl0n hl0u
        rw [hw0] at this
        exact List.singleton_injective this
      refine ⟨l0, w0, hl01, hl0n, hw0, Or.inr ?_⟩
      intro u hu1 hu huw hul
      rw [hw0u] at huw ⊢
      rw [hstar u hu1 hu huw, hdeg]
      simp only [List.length_singleton]
      omega

/-! ## Exchange of two atoms -/

theorem swap_swap (x y a : Nat) : swap_atoms x y (swap_atoms x y a) = a := by
  unfold swap_atoms
  split_ifs <;> omega

theorem swap_range (n x y a : Nat) (hx1 : 1 ≤ x) (hx : x ≤ n) (hy1 : 1 ≤ y) (hy : y ≤ n)
    (ha1 : 1 ≤ a) (ha : a ≤ n) : 1 ≤ swap_atoms x y a ∧ swap_atoms x y a ≤ n := by
  unfold swap_atoms
  split_ifs <;> omega

theorem swap_range_inv (n x y a : Nat) (hx1 : 1 ≤ x) (hx : x ≤ n) (hy1 : 1 ≤ y) (hy : y ≤ n)
    (h : 1 ≤ swap_atoms x y a ∧ swap_atoms x y a ≤ n) : 1 ≤ a ∧ a ≤ n := by
  have := swap_range n x y (swap_atoms x y a) hx1 hx hy1 hy h.1 h.2
  rw [swap_swap] at this
  exact this

theorem swap_injective (x y : Nat) : Function.Injective (swap_atoms x y) := by
  intro a b h
  have := congrArg (swap_atoms x y) h
  rw [swap_swap, swap_swap] at this
  exact this

theorem mem_swap_graph (x y : Nat) (N : Nat → List Nat) (a b : Nat) :
    b ∈ swap_graph x y N a ↔ swap_atoms x y b ∈ N (swap_atoms x y a) := by
  unfold swap_graph
  rw [List.mem_map]
  constructor
  · rintro ⟨c, hc, rfl⟩
    rw [swap_swap]
    exact hc
  · intro h
    exact ⟨_, h, swap_swap x y b⟩

theorem length_swap_graph (x y : Nat) (N : Nat → List Nat) (a : Nat) :
    (swap_graph x y N a).length = (N (swap_atoms x y a)).length := by
  unfold swap_graph
  rw [List.length_map]

theorem range_map_swap_perm (n x y : Nat) (hx1 : 1 ≤ x) (hx : x ≤ n) (hy1 : 1 ≤ y)
    (hy : y ≤ n) : List.Perm ((List.range' 1 n).map (swap_atoms x y)) (List.range' 1 n) := by
  rw [List.perm_ext_iff_of_nodup ((List.nodup_range' 1 n).map (swap_injective x y))
    (List.nodup_range' 1 n)]
  intro b
  rw [List.mem_map, List.mem_range'_1]
  constructor
  · rintro ⟨a, ha, rfl⟩
    rw [List.mem_range'_1] at ha
    have := swap_range n x y a hx1 hx hy1 hy ha.1 (by omega)
    omega
  · intro hb
    have := swap_range n x y b hx1 hx hy1 hy hb.1 (by omega)
    exact ⟨swap_atoms x y b, by rw [List.mem_range'_1]; omega, swap_swap x y b⟩

theorem is_tree_swap (n x y : Nat) (N : Nat → List Nat) (hN : is_tree n N)
    (hx1 : 1 ≤ x) (hx : x ≤ n) (hy1 : 1 ≤ y) (hy : y ≤ n) : is_tree n (swap_graph x y N) := by
  obtain ⟨hrange, hsymm, hnd, hconn, hsum⟩ := hN
  refine ⟨?_, ?_, ?_, ?_, ?_⟩
  · intro a b h
    rw [mem_swap_graph] at h
    have hr := hrange _ _ h
    have ha := swap_range_inv n x y a hx1 hx hy1 hy ⟨hr.1, hr.2.1⟩
    have hb := swap_range_inv n x y b hx1 hx hy1 hy ⟨hr.2.2.1, hr.2.2.2.1⟩
    refine ⟨ha.1, ha.2, hb.1, hb.2, ?_⟩
    intro hab
    rw [hab] at hr
    exact hr.2.2.2.2 rfl
  · intro a b h
    rw [mem_swap_graph] at h ⊢
    exact hsymm _ _ h
  · intro a
    exact (hnd _).map (swap_injective x y)
  · intro a b ha1 ha hb1 hb
    have hsa := swap_range n x y a hx1 hx hy1 hy ha1 ha
    have hsb := swap_range n x y b hx1 hx hy1 hy hb1 hb
    have h := hconn _ _ hsa.1 hsa.2 hsb.1 hsb.2
    have h2 := Relation.ReflTransGen.lift (p := fun u v => v ∈ swap_graph x y N u)
      (swap_atoms x y) (fun c d hcd => by
        show swap_atoms x y d ∈ swap_graph x y N (swap_atoms x y c)
        rw [mem_swap_graph, swap_swap, swap_swap]
        exact hcd) h
    rw [swap_swap, swap_swap] at h2
    exact h2
  · rw [← hsum]
    have e : (List.range' 1 n).map (fun a => (swap_graph x y N a).length) =
        ((List.range' 1 n).map (swap_atoms x y)).map (fun a => (N a).length) := by
      rw [List.map_map]
      apply List.map_congr_left
      intro a _
      exact length_swap_graph x y N a
    rw [e]
    exact ((range_map_swap_perm n x y hx1 hx hy1 hy).map _).sum_eq

theorem graph_iso_swap (n x y : Nat) (N : Nat → List Nat)
    (hx1 : 1 ≤ x) (hx : x ≤ n) (hy1 : 1 ≤ y) (hy : y ≤ n) :
    graph_iso n N (swap_graph x y N) := by
  refine ⟨swap_atoms x y, swap_atoms x y, ?_, ?_, ?_⟩
  · intro a h1 h2
    have := swap_range n x y a hx1 hx hy1 hy h1 h2
    exact ⟨this.1, this.2, swap_swap x y a⟩
  · intro a h1 h2
    have := swap_range n x y a hx1 hx hy1 hy h1 h2
    exact ⟨this.1, this.2, swap_swap x y a⟩
  · intro a b _ _ _ _
    rw [mem_swap_graph, swap_swap, swap_swap]

/-! ## Removal of a leaf -/

theorem mem_remove_last (n : Nat) (N : Nat → List Nat) (a b : Nat) :
    b ∈ remove_last n N a ↔ a < n ∧ b ∈ N a ∧ b ≠ n := by
  unfold remove_last
  by_cases h : a < n
  · rw [if_pos h, List.mem_filter]
    simp [h]
  · rw [if_neg h]
    simp [h]

theorem length_filter_ne (l : List Nat) (x : Nat) (h : l.Nodup) :
    (l.filter (fun b => decide (b ≠ x))).length + (if x ∈ l then 1 else 0) = l.length := by
  induction l with
  | nil => simp
  | cons a l ih =>
    rw [List.nodup_cons] at h
    have ih2 := ih h.2
    by_cases hax : a = x
    · subst hax
      rw [if_neg h.1] at ih2
      rw [List.filter_cons_of_neg (by simp), if_pos (List.mem_cons_self a l), List.length_cons]
      omega
    · rw [List.filter_cons_of_pos (by simp [hax]), List.length_cons, List.length_cons]
      by_cases hx : x ∈ l
      · rw [if_pos hx] at ih2
        rw [if_pos (List.mem_cons_of_mem a hx)]
        omega
      · rw [if_neg hx] at ih2
        have hx2 : ¬ (x ∈ a :: l) := by
          rw [List.mem_cons]
          rintro (h1 | h1)
          · exact hax h1.symm
          · exact hx h1
        rw [if_neg hx2]
        omega

theorem leaf_mem_iff (n : Nat) (N : Nat → List Nat) (hN : is_tree n N) (w : Nat)
    (hw : N n = [w]) (a : Nat) : n ∈ N a ↔ a = w := by
  obtain ⟨_, hsymm, _, _, _⟩ := hN
  constructor
  · intro h
    have := hsymm a n h
    rw [hw, List.mem_singleton] at this
    exact this
  · intro h
    rw [h]
    apply hsymm n w
    rw [hw]
    exact List.mem_singleton_self _

theorem length_remove_last (n : Nat) (N : Nat → List Nat) (hN : is_tree n N) (w : Nat)
    (hw : N n = [w]) (a : Nat) (ha : a < n) :
    (remove_last n N a).length + (if a = w then 1 else 0) = (N a).length := by
  have h := length_filter_ne (N a) n (hN.2.2.1 a)
  unfold remove_last
  rw [if_pos ha]
  by_cases haw : a = w
  · rw [if_pos haw]
    rw [if_pos ((leaf_mem_iff n N hN w hw a).mpr haw)] at h
    exact h
  · rw [if_neg haw]
    rw [if_neg (fun hm => haw ((leaf_mem_iff n N hN w hw a).mp hm))] at h
    exact h

/-- A tree without a leaf is a tree. -/
theorem is_tree_remove_last (n : Nat) (N : Nat → List Nat) (hN : is_tree n N) (hn : 2 ≤ n)
    (w : Nat) (hw : N n = [w]) : is_tree (n - 1) (remove_last n N) := by
  have hN' := hN
  obtain ⟨hrange, hsymm, hnd, hconn, hsum⟩ := hN
  have hwr := hrange n w (by rw [hw]; exact List.mem_singleton_self _)
  have hwn : w < n := by omega
  refine ⟨?_, ?_, ?_, ?_, ?_⟩
  · intro a b h
    rw [mem_remove_last] at h
    have := hrange a b h.2.1
    omega
  · intro a b h
    rw [mem_remove_last] at h ⊢
    have := hrange a b h.2.1
    exact ⟨by omega, hsymm a b h.2.1, by omega⟩
  · intro a
    unfold remove_last
    split
    · exact (hnd a).filter _
    · exact List.nodup_nil
  · intro a b ha1 ha hb1 hb
    have hinv : ∀ z, Relation.ReflTransGen (fun x y => y ∈ N x) a z →
        (z ≠ n → Relation.ReflTransGen (fun x y => y ∈ remove_last n N x) a z) ∧
        (z = n → Relation.ReflTransGen (fun x y => y ∈ remove_last n N x) a w) := by
      intro z hz
      induction hz with
      | refl =>
        refine ⟨fun _ => Relation.ReflTransGen.refl, fun h => ?_⟩
        omega
      | @tail z1 z2 _ hbc ih =>
        have hr := hrange z1 z2 hbc
        constructor
        · intro hz2
          by_cases hz1 : z1 = n
          · have h1 := ih.2 hz1
            rw [hz1, hw, List.mem_singleton] at hbc
            rw [hbc]
            exact h1
          · refine Relation.ReflTransGen.tail (ih.1 hz1) ?_
            show z2 ∈ remove_last n N z1
            rw [mem_remove_last]
            exact ⟨by omega, hbc, hz2⟩
        · intro hz2
          have hz1 : z1 = w := by
            rw [hz2] at hbc
            exact (leaf_mem_iff n N hN' w hw z1).mp hbc
          have : z1 ≠ n := by omega
          rw [← hz1]
          exact ih.1 this
    exact (hinv b (hconn a b ha1 (by omega) hb1 (by omega))).1 (by omega)
  · obtain ⟨m, rfl⟩ : ∃ m, n = m + 1 := ⟨n - 1, by omega⟩
    rw [Nat.add_sub_cancel, sum_range_eq_sum_Icc]
    have h1 : Finset.sum (Finset.Icc 1 m)
        (fun a => (remove_last (m + 1) N a).length + (if a = w then 1 else 0)) =
        Finset.sum (Finset.Icc 1 m) (fun a => (N a).length) := by
      apply Finset.sum_congr rfl
      intro a ha
      rw [Finset.mem_Icc] at ha
      exact length_remove_last (m + 1) N hN' w hw a (by omega)
    have h2 := tree_sum_degrees (m + 1) N hN'
    rw [Finset.sum_Icc_succ_top (by omega), hw] at h2
    rw [Finset.sum_add_distrib, Finset.sum_ite_eq',
      if_pos (Finset.mem_Icc.mpr ⟨hwr.2.2.1, by omega⟩)] at h1
    simp only [List.length_singleton, Nat.add_sub_cancel] at h2
    omega

/-! ## The table of an extended code -/

theorem renumber_injective (p x y : Nat) (h : renumber p x = renumber p y) : x = y := by
  unfold renumber at h
  split_ifs at h <;> omega

theorem renumber_eq_self_iff (p x : Nat) : renumber p x = p ↔ x = p := by
  unfold renumber
  split_ifs <;> omega

theorem renumber_range (p x n : Nat) (hx1 : 1 ≤ x) (hx : x + 1 ≤ n) :
    1 ≤ renumber p x ∧ renumber p x ≤ n := by
  unfold renumber
  split_ifs <;> omega

/-- The neighbour entries of the table of a tree code extended at position `p`. -/
theorem mem_neighbours_extend (F : Forest) (p : Nat) (hp1 : 1 ≤ p) (hp : p ≤ F.size + 1)
    (a b : Nat) :
    b ∈ neighbours (connOf (F.size + 1 + 1) (extend ((F.count : Int) :: F.code) p)) a ↔
      (a = p ∧ b = p + 1) ∨ (a = p + 1 ∧ b = p) ∨
        ∃ a0 b0, b0 ∈ neighbours (connOf (F.size + 1) ((F.count : Int) :: F.code)) a0 ∧
          a = renumber p a0 ∧ b = renumber p b0 := by
  have hlen : ((F.count : Int) :: F.code).length = F.size + 1 := by
    rw [List.length_cons, forest_length_code]
  have hlen2 : (extend ((F.count : Int) :: F.code) p).length = F.size + 1 + 1 := by
    rw [length_extend _ _ hp1 (by rw [hlen]; exact hp), hlen]
  have hperm := extend_bonds F p hp1 hp
  have hmem : ∀ a b, (a, b) ∈ bonds_from 1 (extend ((F.count : Int) :: F.code) p) ↔
      (a = p ∧ b = p + 1) ∨
        ∃ a0 b0, (a0, b0) ∈ bonds_from 1 ((F.count : Int) :: F.code) ∧
          a = renumber p a0 ∧ b = renumber p b0 := by
    intro a b
    rw [hperm.mem_iff, List.mem_cons, List.mem_map]
    constructor
    · rintro (h | ⟨ab0, h0, h1⟩)
      · simp only [Prod.mk.injEq] at h
        exact Or.inl h
      · simp only [Prod.mk.injEq] at h1
        exact Or.inr ⟨ab0.1, ab0.2, h0, h1.1.symm, h1.2.symm⟩
    · rintro (h | ⟨a0, b0, h0, h1, h2⟩)
      · exact Or.inl (by rw [h.1, h.2])
      · exact Or.inr ⟨(a0, b0), h0, by rw [h1, h2]⟩
  rw [neighbours_connOf _ _ hlen2, mem_adjacency, hmem, hmem]
  constructor
  · rintro ((h | ⟨a0, b0, h0, h1, h2⟩) | (h | ⟨a0, b0, h0, h1, h2⟩))
    · exact Or.inl h
    · refine Or.inr (Or.inr ⟨a0, b0, ?_, h1, h2⟩)
      rw [neighbours_connOf _ _ hlen, mem_adjacency]
      exact Or.inl h0
    · exact Or.inr (Or.inl ⟨h.2, h.1⟩)
    · refine Or.inr (Or.inr ⟨b0, a0, ?_, h2, h1⟩)
      rw [neighbours_connOf _ _ hlen, mem_adjacency]
      exact Or.inr h0
  · rintro (h | h | ⟨a0, b0, h0, h1, h2⟩)
    · exact Or.inl (Or.inl h)
    · exact Or.inr (Or.inl ⟨h.2, h.1⟩)
    · rw [neighbours_connOf _ _ hlen, mem_adjacency] at h0
      rcases h0 with h0 | h0
      · exact Or.inl (Or.inr ⟨a0, b0, h0, h1, h2⟩)
      · exact Or.inr (Or.inr ⟨b0, a0, h0, h2, h1⟩)

/-- A tree whose last atom is a leaf at `w` is isomorphic to the table of the
code that extends, at the image of `w`, a tree code isomorphic to the tree
without the leaf. -/
theorem iso_extend (n : Nat) (hn : 2 ≤ n) (N : Nat → List Nat) (hN : is_tree n N) (w : Nat)
    (hw : N n = [w]) (F : Forest) (hF : F.size + 1 = n - 1) (f g : Nat → Nat)
    (hf : ∀ a, 1 ≤ a → a ≤ n - 1 → 1 ≤ f a ∧ f a ≤ n - 1 ∧ g (f a) = a)
    (hg : ∀ b, 1 ≤ b → b ≤ n - 1 → 1 ≤ g b ∧ g b ≤ n - 1 ∧ f (g b) = b)
    (hadj : ∀ a b, 1 ≤ a → a ≤ n - 1 → 1 ≤ b → b ≤ n - 1 →
      (b ∈ remove_last n N a ↔
        f b ∈ neighbours (connOf (n - 1) ((F.count : Int) :: F.code)) (f a))) :
    graph_iso n N (neighbours (connOf n (extend ((F.count : Int) :: F.code) (f w)))) := by
  have hN' := hN
  obtain ⟨hrange, hsymm, hnd, hconn, hsum⟩ := hN
  have hwr := hrange n w (by rw [hw]; exact List.mem_singleton_self _)
  have hw1 : 1 ≤ w := hwr.2.2.1
  have hwn : w ≤ n - 1 := by omega
  have hp := hf w hw1 hwn
  have hchar := mem_neighbours_extend F (f w) hp.1 (by omega)
  have e1 : F.size + 1 + 1 = n := by omega
  rw [e1, hF] at hchar
  have hfinj : ∀ a b, 1 ≤ a → a ≤ n - 1 → 1 ≤ b → b ≤ n - 1 → f a = f b → a = b := by
    intro a b ha1 ha hb1 hb h
    rw [← (hf a ha1 ha).2.2, ← (hf b hb1 hb).2.2, h]
  refine ⟨fun a => if a = n then f w + 1 else renumber (f w) (f a),
    fun y => if y = f w + 1 then n else g (if f w + 1 < y then y - 1 else y), ?_, ?_, ?_⟩
  · intro a ha1 ha
    simp only
    by_cases han : a = n
    · rw [if_pos han, if_pos rfl]
      exact ⟨by omega, by omega, han.symm⟩
    · rw [if_neg han]
      have hfa := hf a ha1 (by omega)
      have hr := renumber_range (f w) (f a) n hfa.1 (by omega)
      rw [if_neg (renumber_ne_succ (f w) (f a))]
      refine ⟨hr.1, hr.2, ?_⟩
      have : (if f w + 1 < renumber (f w) (f a) then renumber (f w) (f a) - 1
          else renumber (f w) (f a)) = f a := by
        unfold renumber
        split_ifs <;> omega
      rw [this]
      exact hfa.2.2
  · intro y hy1 hy
    simp only
    by_cases hyp : y = f w + 1
    · rw [if_pos hyp, if_pos rfl]
      exact ⟨by omega, le_refl _, hyp.symm⟩
    · rw [if_neg hyp]
      have hu : 1 ≤ (if f w + 1 < y then y - 1 else y) ∧
          (if f w + 1 < y then y - 1 else y) ≤ n - 1 := by
        split_ifs <;> omega
      have hgu := hg _ hu.1 hu.2
      have hne : g (if f w + 1 < y then y - 1 else y) ≠ n := by omega
      rw [if_neg hne, hgu.2.2]
      refine ⟨by omega, by omega, ?_⟩
      unfold renumber
      split_ifs <;> omega
  · intro a b ha1 ha hb1 hb
    simp only
    rw [hchar]
    by_cases han : a = n
    · rw [if_pos han]
      by_cases hbn : b = n
      · rw [if_pos hbn, han, hbn]
        constructor
        · intro h
          exact absurd rfl (hrange n n h).2.2.2.2
        · rintro (h | h | ⟨a0, b0, _, h1, _⟩)
          · omega
          · omega
          · exact absurd h1.symm (renumber_ne_succ _ _)
      · rw [if_neg hbn, han, hw, List.mem_singleton]
        constructor
        · intro h
          rw [h]
          exact Or.inr (Or.inl ⟨rfl, (renumber_eq_self_iff _ _).mpr rfl⟩)
        · rintro (h | h | ⟨a0, b0, _, h1, _⟩)
          · omega
          · have := (renumber_eq_self_iff _ _).mp h.2
            exact hfinj b w hb1 (by omega) hw1 hwn this
          · exact absurd h1.symm (renumber_ne_succ _ _)
    · rw [if_neg han]
      by_cases hbn : b = n
      · rw [if_pos hbn, hbn, leaf_mem_iff n N hN' w hw a]
        constructor
        · intro h
          rw [h]
          exact Or.inl ⟨(renumber_eq_self_iff _ _).mpr rfl, rfl⟩
        · rintro (h | h | ⟨a0, b0, _, _, h2⟩)
          · have := (renumber_eq_self_iff _ _).mp h.1
            exact hfinj a w ha1 (by omega) hw1 hwn this
          · exact absurd h.1 (renumber_ne_succ _ _)
          · exact absurd h2.symm (renumber_ne_succ _ _)
      · rw [if_neg hbn]
        have hiff := hadj a b ha1 (by omega) hb1 (by omega)
        rw [mem_remove_last] at hiff
        constructor
        · intro h
          exact Or.inr (Or.inr ⟨f a, f b, hiff.mp ⟨by omega, h, hbn⟩, rfl, rfl⟩)
        · rintro (h | h | ⟨a0, b0, h0, h1, h2⟩)
          · exact absurd h.2 (renumber_ne_succ _ _)
          · exact absurd h.1 (renumber_ne_succ _ _)
          · rw [← renumber_injective _ _ _ h1, ← renumber_injective _ _ _ h2] at h0
            exact (hiff.mpr h0).2.1

/-! ## Admissible extensions of an accepted code -/

theorem tree_root_max (F : Forest) (hok : code_ok ((F.count : Int) :: F.code)) (q : Nat)
    (hq1 : 1 ≤ q) (hq : q ≤ F.size + 1) :
    (adjacency (bonds_from 1 ((F.count : Int) :: F.code)) q).length ≤
      (adjacency (bonds_from 1 ((F.count : Int) :: F.code)) 1).length := by
  have h1 := tree_degree F q hq1 hq
  have h2 := tree_degree F 1 (le_refl _) (by omega)
  rw [if_pos rfl] at h2
  by_cases hq0 : q = 1
  · rw [hq0]
  · rw [if_neg hq0] at h1
    have h3 := hok.2.2 q (by omega) (by
      rw [List.length_cons, forest_length_code]
      exact hq)
    omega

theorem admissible_of_degree (F : Forest) (hok : code_ok ((F.count : Int) :: F.code)) (p : Nat)
    (hp1 : 1 ≤ p) (hp : p ≤ F.size + 1)
    (h3 : (adjacency (bonds_from 1 ((F.count : Int) :: F.code)) p).length ≤ 3)
    (hcond : p = 1 ∨ ∃ q, 1 ≤ q ∧ q ≤ F.size + 1 ∧
      (adjacency (bonds_from 1 ((F.count : Int) :: F.code)) p).length <
        (adjacency (bonds_from 1 ((F.count : Int) :: F.code)) q).length) :
    admissible ((F.count : Int) :: F.code) p = true := by
  rw [admissible_iff]
  have h1 := tree_degree F p hp1 hp
  by_cases hp0 : p = 1
  · left
    rw [if_pos hp0] at h1
    rw [hp0] at h1 h3
    exact ⟨hp0, by omega⟩
  · right
    rw [if_neg hp0] at h1
    rcases hcond with h | ⟨q, hq1, hq, hlt⟩
    · exact absurd h hp0
    · have hmax := tree_root_max F hok q hq1 hq
      have h2 := tree_degree F 1 (le_refl _) (by omega)
      rw [if_pos rfl] at h2
      exact ⟨hp0, by omega, by omega⟩

theorem forest_size_one (F : Forest) (h : F.size = 1) :
    F = Forest.cons Forest.nil Forest.nil := by
  cases F with
  | nil => simp [Forest.size] at h
  | cons ch sib =>
    simp only [Forest.size] at h
    have h1 : ch.size = 0 := by omega
    have h2 : sib.size = 0 := by omega
    have hz : ∀ G : Forest, G.size = 0 → G = Forest.nil := by
      intro G hG
      cases G with
      | nil => rfl
      | cons a b => simp [Forest.size] at hG
    rw [hz ch h1, hz sib h2]

/-- The last step of the completeness argument: a tree with a leaf `l` at `w` is
isomorphic to the table of the extension of a parent code that is isomorphic to
the tree without the leaf. -/
theorem pruning_finish (k : Nat) (hk : 2 ≤ k) (N : Nat → List Nat) (hN : is_tree k N)
    (l w : Nat) (hl1 : 1 ≤ l) (hlk : l ≤ k) (hNl : N l = [w]) (F : Forest)
    (hF : F.size + 1 = k - 1) (f g : Nat → Nat)
    (hf : ∀ a, 1 ≤ a → a ≤ k - 1 → 1 ≤ f a ∧ f a ≤ k - 1 ∧ g (f a) = a)
    (hg : ∀ b, 1 ≤ b → b ≤ k - 1 → 1 ≤ g b ∧ g b ≤ k - 1 ∧ f (g b) = b)
    (hadj : ∀ a b, 1 ≤ a → a ≤ k - 1 → 1 ≤ b → b ≤ k - 1 →
      (b ∈ remove_last k (swap_graph l k N) a ↔
        f b ∈ neighbours (connOf (k - 1) ((F.count : Int) :: F.code)) (f a))) :
    graph_iso k N
      (neighbours (connOf k (extend ((F.count : Int) :: F.code) (f (swap_atoms l k w))))) := by
  have hk1 : 1 ≤ k := by omega
  have hN1 := is_tree_swap k l k N hN hl1 hlk hk1 (le_refl _)
  have hsk : swap_atoms l k k = l := by
    unfold swap_atoms
    split_ifs <;> omega
  have hw1 : swap_graph l k N k = [swap_atoms l k w] := by
    unfold swap_graph
    rw [hsk, hNl]
    rfl
  have h1 := iso_extend k hk (swap_graph l k N) hN1 (swap_atoms l k w) hw1 F hF f g hf hg hadj
  exact graph_iso_trans k _ _ _ (graph_iso_swap k l k N hl1 hlk hk1 (le_refl _)) h1

/-- Completeness of one generation step on codes: if the parents represent every
tree on `k - 1` atoms with at most 4 neighbours per atom, the admissible
extensions of the parents represent every such tree on `k` atoms. -/
theorem pruning_core (k : Nat) (hk : 2 ≤ k) (parents : List (List Int))
    (hpar : ∀ d, d ∈ parents → well_formed d ∧ d.length = k - 1 ∧ code_ok d)
    (H : ∀ N : Nat → List Nat, is_tree (k - 1) N → (∀ a, (N a).length ≤ 4) →
      ∃ d, d ∈ parents ∧ graph_iso (k - 1) N (neighbours (connOf (k - 1) d)))
    (N : Nat → List Nat) (hN : is_tree k N) (hdeg : ∀ a, (N a).length ≤ 4) :
    ∃ d p, d ∈ parents ∧ 1 ≤ p ∧ p ≤ k - 1 ∧ admissible d p = true ∧
      graph_iso k N (neighbours (connOf k (extend d p))) := by
  have hk1 : 1 ≤ k := by omega
  -- the data of a leaf
  have hleafdata : ∀ l w, 1 ≤ l → l ≤ k → N l = [w] →
      ∃ (F : Forest) (f g : Nat → Nat),
        ((F.count : Int) :: F.code) ∈ parents ∧ F.size + 1 = k - 1 ∧
        code_ok ((F.count : Int) :: F.code) ∧
        (∀ a, 1 ≤ a → a ≤ k - 1 → 1 ≤ f a ∧ f a ≤ k - 1 ∧ g (f a) = a) ∧
        (∀ b, 1 ≤ b → b ≤ k - 1 → 1 ≤ g b ∧ g b ≤ k - 1 ∧ f (g b) = b) ∧
        (∀ a b, 1 ≤ a → a ≤ k - 1 → 1 ≤ b → b ≤ k - 1 →
          (b ∈ remove_last k (swap_graph l k N) a ↔
            f b ∈ neighbours (connOf (k - 1) ((F.count : Int) :: F.code)) (f a))) ∧
        (∀ a, 1 ≤ a → a ≤ k - 1 →
          (adjacency (bonds_from 1 ((F.count : Int) :: F.code)) (f a)).length +
              (if a = swap_atoms l k w then 1 else 0) =
            (N (swap_atoms l k a)).length) := by
    intro l w hl1 hlk hNl
    have hN1 := is_tree_swap k l k N hN hl1 hlk hk1 (le_refl _)
    have hsk : swap_atoms l k k = l := by
      unfold swap_atoms
      split_ifs <;> omega
    have hw1 : swap_graph l k N k = [swap_atoms l k w] := by
      unfold swap_graph
      rw [hsk, hNl]
      rfl
    have hN2 := is_tree_remove_last k (swap_graph l k N) hN1 hk (swap_atoms l k w) hw1
    have hlen2 : ∀ a, a < k →
        (remove_last k (swap_graph l k N) a).length +
            (if a = swap_atoms l k w then 1 else 0) =
          (N (swap_atoms l k a)).length := by
      intro a ha
      rw [length_remove_last k (swap_graph l k N) hN1 (swap_atoms l k w) hw1 a ha,
        length_swap_graph]
    have hdeg2 : ∀ a, (remove_last k (swap_graph l k N) a).length ≤ 4 := by
      intro a
      by_cases ha : a < k
      · have := hlen2 a ha
        have := hdeg (swap_atoms l k a)
        omega
      · unfold remove_last
        rw [if_neg ha]
        simp
    obtain ⟨d, hd, f, g, hf, hg, hadj⟩ := H _ hN2 hdeg2
    obtain ⟨⟨F, rfl⟩, hlen, hok⟩ := hpar d hd
    have hF : F.size + 1 = k - 1 := by
      rw [← hlen, List.length_cons, forest_length_code]
    refine ⟨F, f, g, hd, hF, hok, hf, hg, hadj, ?_⟩
    intro a ha1 ha
    rw [← hlen2 a (by omega)]
    congr 1
    rw [← neighbours_connOf (k - 1) _ hlen]
    apply iso_degree (k - 1) _ _ f g hf hg hadj
    · intro x y hy
      have := hN2.1 x y hy
      exact ⟨this.2.2.1, this.2.2.2.1⟩
    · intro x y hy
      rw [neighbours_connOf (k - 1) _ hlen] at hy
      have := tree_adjacency_range F x y hy
      omega
    · exact hN2.2.2.1
    · intro x
      rw [neighbours_connOf (k - 1) _ hlen]
      exact tree_adjacency_nodup F x
    · exact ha1
    · exact ha
  have hswap_w : ∀ l w, 1 ≤ l → l ≤ k → N l = [w] →
      1 ≤ swap_atoms l k w ∧ swap_atoms l k w ≤ k - 1 ∧
        swap_atoms l k (swap_atoms l k w) = w := by
    intro l w hl1 hlk hNl
    have hwr := hN.1 l w (by rw [hNl]; exact List.mem_singleton_self _)
    have h1 := swap_range k l k w hl1 hlk hk1 (le_refl _) hwr.2.2.1 hwr.2.2.2.1
    refine ⟨h1.1, ?_, swap_swap l k w⟩
    have : swap_atoms l k w ≠ k := by
      unfold swap_atoms
      split_ifs <;> omega
    omega
  by_cases hk3 : k = 3
  · -- the chain of 3 atoms
    obtain ⟨l, hl1, hlk, hl⟩ := exists_leaf k N hN hk
    obtain ⟨w, hNl⟩ := leaf_neighbour N l hl
    obtain ⟨F, f, g, hd, hF, hok, hf, hg, hadj, hdegs⟩ := hleafdata l w hl1 hlk hNl
    obtain ⟨hw1, hwk, hww⟩ := hswap_w l w hl1 hlk hNl
    have hF1 : F = Forest.cons Forest.nil Forest.nil := forest_size_one F (by omega)
    subst hF1
    subst hk3
    have hadm : admissible (((Forest.cons Forest.nil Forest.nil).count : Int) ::
        (Forest.cons Forest.nil Forest.nil).code) 1 = true := by decide
    by_cases hfw : f (swap_atoms l 3 w) = 1
    · refine ⟨_, 1, hd, le_refl _, by omega, hadm, ?_⟩
      have := pruning_finish 3 hk N hN l w hl1 hlk hNl _ hF f g hf hg hadj
      rw [hfw] at this
      exact this
    · have hsym : ∀ x y, 1 ≤ x → x ≤ 2 → 1 ≤ y → y ≤ 2 →
          (y ∈ neighbours (connOf (3 - 1)
              (((Forest.cons Forest.nil Forest.nil).count : Int) ::
                (Forest.cons Forest.nil Forest.nil).code)) x ↔
            swap_atoms 1 2 y ∈ neighbours (connOf (3 - 1)
              (((Forest.cons Forest.nil Forest.nil).count : Int) ::
                (Forest.cons Forest.nil Forest.nil).code)) (swap_atoms 1 2 x)) := by
        intro x y hx1 hx hy1 hy
        interval_cases x <;> interval_cases y <;> decide
      have hs12 : ∀ x, 1 ≤ x → x ≤ 2 → 1 ≤ swap_atoms 1 2 x ∧ swap_atoms 1 2 x ≤ 2 :=
        fun x h1 h2 => swap_range 2 1 2 x (le_refl _) (by omega) (by omega) (le_refl _) h1 h2
      have hfin := pruning_finish 3 hk N hN l w hl1 hlk hNl _ hF
        (fun a => swap_atoms 1 2 (f a)) (fun b => g (swap_atoms 1 2 b))
        (by
          intro a ha1 ha
          have h := hf a ha1 ha
          have h2 := hs12 (f a) h.1 h.2.1
          refine ⟨h2.1, h2.2, ?_⟩
          simp only
          rw [swap_swap, h.2.2])
        (by
          intro b hb1 hb
          have h2 := hs12 b hb1 hb
          have h := hg _ h2.1 h2.2
          refine ⟨h.1, h.2.1, ?_⟩
          simp only
          rw [h.2.2, swap_swap])
        (by
          intro a b ha1 ha hb1 hb
          have h1 := hf a ha1 ha
          have h2 := hf b hb1 hb
          rw [hadj a b ha1 ha hb1 hb]
          exact hsym (f a) (f b) h1.1 h1.2.1 h2.1 h2.2.1)
      have hfw2 : swap_atoms 1 2 (f (swap_atoms l 3 w)) = 1 := by
        have h := (hf (swap_atoms l 3 w) hw1 hwk).1
        have h2 := (hf (swap_atoms l 3 w) hw1 hwk).2.1
        generalize f (swap_atoms l 3 w) = x at h h2 hfw
        unfold swap_atoms
        split_ifs <;> omega
      simp only at hfin
      rw [hfw2] at hfin
      exact ⟨_, 1, hd, le_refl _, by omega, hadm, hfin⟩
  · obtain ⟨l, w, hl1, hlk, hNl, hgood⟩ := choose_leaf k N hN hk hk3
    obtain ⟨F, f, g, hd, hF, hok, hf, hg, hadj, hdegs⟩ := hleafdata l w hl1 hlk hNl
    obtain ⟨hw1, hwk, hww⟩ := hswap_w l w hl1 hlk hNl
    have hp := hf (swap_atoms l k w) hw1 hwk
    have hdp := hdegs (swap_atoms l k w) hw1 hwk
    rw [if_pos rfl, hww] at hdp
    have hdw := hdeg w
    refine ⟨_, f (swap_atoms l k w), hd, hp.1, hp.2.1, ?_,
      pruning_finish k hk N hN l w hl1 hlk hNl F hF f g hf hg hadj⟩
    apply admissible_of_degree F hok _ hp.1 (by omega) (by omega)
    rcases hgood with ⟨u, hu1, huk, huw, hul, hle⟩ | hall
    · right
      have hur := swap_range k l k u hl1 hlk hk1 (le_refl _) hu1 huk
      have huk2 : swap_atoms l k u ≠ k := by
        unfold swap_atoms
        split_ifs <;> omega
      have hne : swap_atoms l k u ≠ swap_atoms l k w :=
        fun h => huw (swap_injective l k h)
      have hdu := hdegs (swap_atoms l k u) hur.1 (by omega)
      rw [if_neg hne, swap_swap] at hdu
      have hfu := hf (swap_atoms l k u) hur.1 (by omega)
      exact ⟨f (swap_atoms l k u), hfu.1, by omega, by omega⟩
    · left
      by_contra hp1
      have hg1 := hg 1 (le_refl _) (by omega)
      have hne : g 1 ≠ swap_atoms l k w := by
        intro h
        rw [← h, hg1.2.2] at hp1
        exact hp1 rfl
      have hdu := hdegs (g 1) hg1.1 hg1.2.1
      rw [if_neg hne, hg1.2.2] at hdu
      have hur := swap_range k l k (g 1) hl1 hlk hk1 (le_refl _) hg1.1 (by omega)
      have h1 : swap_atoms l k (g 1) ≠ w := by
        intro h
        apply hne
        rw [← h, swap_swap]
      have h2 : swap_atoms l k (g 1) ≠ l := by
        have := hg1.2.1
        unfold swap_atoms
        split_ifs <;> omega
      have hlt := hall _ hur.1 hur.2 h1 h2
      have hmax := tree_root_max F hok (f (swap_atoms l k w)) hp.1 (by omega)
      omega

/-! ## Results: completeness of the generation step -/

theorem splicing_table_eq (st : Store) (i k : Nat) (m : Morgans) :
    (morgans_splicing st i k m []).2 = connOf k (code_digits st k i) := by
  rw [morgans_splicing_eq]
  exact connections_eq_connOf st i k

theorem mem_accepted_codes_iff (st : Store) (k : Nat) (d : List Int) :
    d ∈ accepted_codes st k ↔
      ∃ I : Nat, 1 ≤ I ∧ (I : Int) ≤ get3 st k 0 0 ∧ d = code_digits st k I := by
  unfold accepted_codes
  rw [List.mem_map]
  constructor
  · rintro ⟨I, hI, rfl⟩
    rw [List.mem_range'_1] at hI
    refine ⟨I, hI.1, ?_, rfl⟩
    have h0 : 0 ≤ get3 st k 0 0 := by
      by_contra hneg
      have : (get3 st k 0 0).toNat = 0 := Int.toNat_of_nonpos (by omega)
      omega
    have := Int.toNat_of_nonneg h0
    omega
  · rintro ⟨I, hI1, hI, rfl⟩
    refine ⟨I, ?_, rfl⟩
    rw [List.mem_range'_1]
    have h0 : 0 ≤ get3 st k 0 0 := by omega
    have := Int.toNat_of_nonneg h0
    omega

theorem is_tree_two_atom_tree : is_tree 2 two_atom_tree := by
  have h1 : two_atom_tree 1 = [2] := rfl
  have h2 : two_atom_tree 2 = [1] := rfl
  have h0 : ∀ a, a ≠ 1 → a ≠ 2 → two_atom_tree a = [] := by
    intro a ha1 ha2
    unfold two_atom_tree
    rw [if_neg ha1, if_neg ha2]
  have hmem : ∀ a b, b ∈ two_atom_tree a ↔ (a = 1 ∧ b = 2) ∨ (a = 2 ∧ b = 1) := by
    intro a b
    by_cases ha1 : a = 1
    · subst ha1
      rw [h1, List.mem_singleton]
      omega
    · by_cases ha2 : a = 2
      · subst ha2
        rw [h2, List.mem_singleton]
        omega
      · rw [h0 a ha1 ha2]
        simp only [List.not_mem_nil, false_iff]
        omega
  refine ⟨?_, ?_, ?_, ?_, by decide⟩
  · intro a b h
    rw [hmem] at h
    omega
  · intro a b h
    rw [hmem] at h ⊢
    omega
  · intro a
    by_cases ha1 : a = 1
    · rw [ha1, h1]
      exact List.nodup_singleton _
    · by_cases ha2 : a = 2
      · rw [ha2, h2]
        exact List.nodup_singleton _
      · rw [h0 a ha1 ha2]
        exact List.nodup_nil
  · intro a b ha1 ha hb1 hb
    by_cases hab : a = b
    · rw [hab]
    · apply Relation.ReflTransGen.single
      show b ∈ two_atom_tree a
      rw [hmem]
      omega

theorem two_atom_tree_degree (a : Nat) : (two_atom_tree a).length ≤ 4 := by
  unfold two_atom_tree
  split_ifs <;> simp

/-- C7: let the accepted codes of carbon count `k - 1` represent, up to
isomorphism of the table built by `morgans_splicing`, every tree on `k - 1` atoms
in which no atom has more than 4 neighbours.  Then for every such tree on `k`
atoms there are an accepted parent `I` and a position `p` that pass
`Isomer_digit_validity_check`, such that the tree is isomorphic to the table of
the candidate that `generate_Isomers` writes for `I` and `p`. -/
theorem pruning_loses_no_structure (gf : Bool) (last k : Nat) (hk2 : 2 ≤ k)
    (hk : k - 1 ≤ last)
    (H : ∀ N : Nat → List Nat, is_tree (k - 1) N → (∀ a, (N a).length ≤ 4) →
      ∃ I : Nat, 1 ≤ I ∧ (I : Int) ≤ get3 (main_loop gf last) (k - 1) 0 0 ∧
        graph_iso (k - 1) N
          (neighbours (morgans_splicing (main_loop gf last) I (k - 1) [] []).2))
    (N : Nat → List Nat) (hN : is_tree k N) (hdeg : ∀ a, (N a).length ≤ 4) :
    ∃ (I : Nat) (p : Nat), 1 ≤ I ∧ (I : Int) ≤ get3 (main_loop gf last) (k - 1) 0 0 ∧ 1 ≤ p ∧ p ≤ k - 1 ∧
      Isomer_digit_validity_check (main_loop gf last) (k - 1) p I k = 1 ∧
      ∀ (isomer : Nat) (m : Morgans), graph_iso k N
        (neighbours
          (morgans_splicing (write_candidate (main_loop gf last) k (k - 1) I p isomer)
            isomer k m []).2) := by
  have hlev := (main_loop_levels gf last (k - 1) (by omega) hk).2
  have hpar : ∀ d, d ∈ accepted_codes (main_loop gf last) (k - 1) →
      well_formed d ∧ d.length = k - 1 ∧ code_ok d := by
    intro d hd
    rw [hlev] at hd
    have h1 := level_ok (k - 1 - 1) d hd
    exact ⟨level_well_formed _ d hd, by omega, h1.2⟩
  have H2 : ∀ N : Nat → List Nat, is_tree (k - 1) N → (∀ a, (N a).length ≤ 4) →
      ∃ d, d ∈ accepted_codes (main_loop gf last) (k - 1) ∧
        graph_iso (k - 1) N (neighbours (connOf (k - 1) d)) := by
    intro N0 hN0 hdeg0
    obtain ⟨I, hI1, hI, hiso⟩ := H N0 hN0 hdeg0
    refine ⟨code_digits (main_loop gf last) (k - 1) I, mem_accepted_codes _ _ _ hI1 hI, ?_⟩
    rw [← splicing_table_eq _ I (k - 1) []]
    exact hiso
  obtain ⟨d, p, hd, hp1, hp, hadm, hiso⟩ :=
    pruning_core k hk2 _ hpar H2 N hN hdeg
  rw [mem_accepted_codes_iff] at hd
  obtain ⟨I, hI1, hI, rfl⟩ := hd
  refine ⟨I, p, hI1, hI, hp1, hp, ?_, ?_⟩
  · rw [validity_check_eq _ _ _ _ _ hp1 hp, if_pos hadm]
  · intro isomer m
    rw [splicing_table_eq, code_digits_write_candidate _ k I p isomer (by omega) hp1 hp]
    exact hiso

set_option maxRecDepth 100000 in
theorem pruning_loses_no_structure_witness :
    ∃ (I : Nat) (p : Nat), 1 ≤ I ∧ (I : Int) ≤ get3 (main_loop false 1) (2 - 1) 0 0 ∧ 1 ≤ p ∧ p ≤ 2 - 1 ∧
      Isomer_digit_validity_check (main_loop false 1) (2 - 1) p I 2 = 1 ∧
      ∀ (isomer : Nat) (m : Morgans), graph_iso 2 two_atom_tree
        (neighbours
          (morgans_splicing (write_candidate (main_loop false 1) 2 (2 - 1) I p isomer)
            isomer 2 m []).2) :=
  pruning_loses_no_structure false 1 2 (by decide) (by decide)
    (fun N hN _ =>
      ⟨1, by decide, by decide,
        fun a => a, fun b => b,
        fun a h1 h2 => ⟨h1, h2, rfl⟩,
        fun b h1 h2 => ⟨h1, h2, rfl⟩,
        fun a b ha1 ha hb1 hb => by
          have ea : a = 1 := by omega
          have eb : b = 1 := by omega
          subst ea
          subst eb
          constructor
          · intro h
            exact absurd rfl (hN.1 1 1 h).2.2.2.2
          · intro h
            exact absurd h (by decide)⟩)
    two_atom_tree is_tree_two_atom_tree two_atom_tree_degree

/-! ## The chain of 11 atoms -/

set_option maxRecDepth 100000 in
theorem chain_eleven_within :
    within (connOf 11 [2, 1, 1, 1, 1, 1, 1, 1, 1, 0, 0]) (11 / 3 + 1) 10 = 5 ∧
    within (connOf 11 [2, 1, 1, 1, 1, 1, 1, 1, 1, 0, 0]) (11 / 2 + 1) 10 = 7 := by
  decide!

theorem chain_eleven_well_formed :
    well_formed [2, 1, 1, 1, 1, 1, 1, 1, 1, 0, 0] ∧ code_ok [2, 1, 1, 1, 1, 1, 1, 1, 1, 0, 0] := by
  refine ⟨?_, by decide, by decide, ?_⟩
  · exact ⟨Forest.cons
        (Forest.cons (Forest.cons (Forest.cons (Forest.cons (Forest.cons (Forest.cons
          (Forest.cons (Forest.cons Forest.nil Forest.nil) Forest.nil) Forest.nil) Forest.nil)
          Forest.nil) Forest.nil) Forest.nil) Forest.nil)
        (Forest.cons Forest.nil Forest.nil), by decide⟩
  · intro j h2 h11
    simp only [List.length_cons, List.length_nil] at h11
    interval_cases j <;> decide

/-! ## Results: the reach of the rounds -/

/-- C22: the passes of `morgans_algorithm` do not reach half of the atoms of a
candidate that the run of the program itself examines.  For 10 carbon atoms the
run stores the chain with the code `2111111100`, and for 11 carbon atoms the
generator admits the digit 9 for it, which gives the candidate `21111111100`,
the chain of 11 atoms, a well-formed code that keeps the degree invariants.
`morgans_algorithm` makes `11 / 3 + 1 = 4` passes over
its table.  The end atom at position 10 has only 5 of the 11 atoms within
distance 4, fewer than half; within distance `11 / 2 + 1 = 6`, the number of
iterations that the comments of the source name, it has 7. -/
theorem rounds_reach_less_than_half ( generate_files : Bool) :
    well_formed [2, 1, 1, 1, 1, 1, 1, 1, 1, 0, 0] ∧
    code_ok [2, 1, 1, 1, 1, 1, 1, 1, 1, 0, 0] ∧
    ∃ I : Nat, 1 ≤ I ∧ (I : Int) ≤ get3 (main_loop generate_files lastCarbon) 10 0 0 ∧
      code_digits (main_loop generate_files lastCarbon) 10 I = [2, 1, 1, 1, 1, 1, 1, 1, 0, 0] ∧
      Isomer_digit_validity_check (main_loop generate_files lastCarbon) 10 9 I 11 = 1 ∧
      ∀ (isomer : Nat) (m : Morgans),
        code_digits (write_candidate (main_loop generate_files lastCarbon) 11 10 I 9 isomer)
            11 isomer = [2, 1, 1, 1, 1, 1, 1, 1, 1, 0, 0] ∧
        (∀ c : Connections, morgans_algorithm isomer 11 m c =
          (forLoop (fun _ mt => morgans_round isomer 11 c mt) 0 (11 / 3 + 1) (m, [])).1) ∧
        within (morgans_splicing
            (write_candidate (main_loop generate_files lastCarbon) 11 10 I 9 isomer)
            isomer 11 m []).2 (11 / 3 + 1) 10 = 5 ∧
        ¬ (11 ≤ 2 * within (morgans_splicing
            (write_candidate (main_loop generate_files lastCarbon) 11 10 I 9 isomer)
            isomer 11 m []).2 (11 / 3 + 1) 10) ∧
        within (morgans_splicing
            (write_candidate (main_loop generate_files lastCarbon) 11 10 I 9 isomer)
            isomer 11 m []).2 (11 / 2 + 1) 10 = 7 := by
  refine ⟨chain_eleven_well_formed.1, chain_eleven_well_formed.2, ?_⟩
  have hlev := (main_loop_levels generate_files lastCarbon 10 (by omega)
    (by unfold lastCarbon; omega)).2
  have hmem := chain_ten_accepted
  rw [← hlev, mem_accepted_codes_iff] at hmem
  obtain ⟨I, hI1, hI, hd⟩ := hmem
  refine ⟨I, hI1, hI, hd.symm, ?_, ?_⟩
  · rw [validity_check_eq _ 10 9 I 11 (by omega) (by omega), ← hd]
    decide
  · intro isomer m
    have hc : code_digits (write_candidate (main_loop generate_files lastCarbon) 11 10 I 9 isomer)
        11 isomer = [2, 1, 1, 1, 1, 1, 1, 1, 1, 0, 0] := by
      have h := code_digits_write_candidate (main_loop generate_files lastCarbon) 11 I 9 isomer
        (by omega) (by omega) (by omega)
      rw [← hd] at h
      exact h
    have hw := chain_eleven_within
    refine ⟨hc, fun c => rfl, ?_, ?_, ?_⟩
    · rw [splicing_table_eq, hc]
      exact hw.1
    · rw [splicing_table_eq, hc, hw.1]
      decide
    · rw [splicing_table_eq, hc]
      exact hw.2

/-! ## Generation on vectors of a given size -/

end AlkaneIsomers
